import Mathlib

/-!
Sparse inverse (`sinv.c`): embedding and verification.

The C arrays of `gp/linuxCsource/sinv.c` are embedded as total maps from
offsets (`Nat → Nat` for the index arrays `I`, `J`, `It`, `Jt`, `w`, `w2`,
`Nat → ℚ` for the value arrays `C`, `Ct` and the scratch buffers).  A store
`a[i] = v` is `Function.update a i v`; a `for` loop is a left fold over the
list of the values its counter takes.  Values are exact rationals.  The
index types `int` and `mwIndex` are taken to have one width, 32 bits.  In the
passes over a matrix they are embedded as `Nat`: every sum there is bounded
by a number of stored entries, taken to fit the index type.  The function
`cumsum2` itself is embedded on machine indices, where a sum that does not
fit wraps around.  A read beyond the end of an array (the scan of lines 162-167
inspects `I[J[ik+1]]`) returns whatever the map holds there, so the theorems
hold for every content of that memory; a store beyond the end of a buffer
(a match at that slot stores to `Zt[lfi*lfi]`) is a store to the map of that
buffer alone.  Arrays obtained from `mxCalloc` and
`mxCreateSparse` start zero-filled; `mxRealloc` keeps the contents.
-/

namespace Sinv

/-- Index arrays (`mwIndex *`, `int *`). -/
abbrev IdxArr := Nat → Nat

/-- Value arrays (`double *`), in exact arithmetic. -/
abbrev ValArr := Nat → ℚ

/-- The loop `for (i = lo; i < hi; i++) body`. -/
def forUp {σ : Type} (lo hi : Nat) (body : Nat → σ → σ) (s : σ) : σ :=
  (List.range' lo (hi - lo)).foldl (fun s i => body i s) s

/-- The loop `for (i = hi; i > lo; i--) body`. -/
def forDown {σ : Type} (lo hi : Nat) (body : Nat → σ → σ) (s : σ) : σ :=
  (List.range' (lo + 1) (hi - lo)).reverse.foldl (fun s i => body i s) s

/-! ## `cumsum2` (lines 316-327) -/

/-- Body of the loop of `cumsum2` in exact arithmetic, on the state
`(p, c, nz)`: `p[i]=nz; nz+=c[i]; c[i]=p[i];`. -/
def cumsum2Step (i : Nat) (s : IdxArr × IdxArr × Nat) : IdxArr × IdxArr × Nat :=
  let p := Function.update s.1 i s.2.2
  let nz := s.2.2 + s.2.1 i
  let c := Function.update s.2.1 i (p i)
  (p, c, nz)

/-- The part of `cumsum2` after the null check, in exact arithmetic: the loop
and `p[n]=nz`. Returns the new `(p, c)`. This is the form used by the passes
over a matrix, whose totals are numbers of stored entries; it is what
`cumsum2` computes on machine indices while the total fits the index type. -/
def cumsum2Core (p c : IdxArr) (n : Nat) : IdxArr × IdxArr :=
  let s := forUp 0 n cumsum2Step (p, c, 0)
  (Function.update s.1 n s.2.2, s.2.1)

/-- Arrays of machine indices (`mwIndex *`), as the signed values they hold. -/
abbrev MwArr := Nat → Int

/-- The value that is kept of `x` in the index type. `mwIndex` is taken at
the width of `int`, 32 bits (line 222 passes the `int` array `w` for the
`mwIndex *c` of `cumsum2`), and a sum that leaves `-2^31 .. 2^31-1` wraps
around in two's complement. -/
def wrapIdx (x : Int) : Int := (x + 2147483648) % 4294967296 - 2147483648

/-- Body of the loop of `cumsum2` on machine indices, on the state
`(p, c, nz)`: `p[i]=nz; nz+=c[i]; c[i]=p[i];`, the sum kept in the index
type. -/
def cumsum2Loop (i : Nat) (s : MwArr × MwArr × Int) : MwArr × MwArr × Int :=
  let p := Function.update s.1 i s.2.2
  let nz := wrapIdx (s.2.2 + s.2.1 i)
  let c := Function.update s.2.1 i (p i)
  (p, c, nz)

/-- The function `cumsum2 (p, c, n)` (lines 316-327) on machine indices; an
absent (null) array is `none`. -/
def cumsum2 (p c : Option MwArr) (n : Nat) : Option MwArr × Option MwArr :=
  match p, c with
  | some p, some c =>
    let s := forUp 0 n cumsum2Loop (p, c, 0)
    (some (Function.update s.1 n s.2.2), some s.2.1)
  | p, c => (p, c)

/-! ## The sparse inverse recursion (lines 145-193) -/

/-- Modelled from the spec: the BLAS routine `dsymv_` is an external library
routine (section 4.2, "symmetric matrix-vector product"); as called on line
174 (`uplo = "L"`, `alpha = 1`, `beta = 0`, unit strides) it sets
`y[p] = sum_q A(p,q) x[q]` for `p < n`, where the symmetric `A` is read from
the lower triangle of the column-major array `A` with leading dimension
`lda`. -/
def dsymvLower (n : Nat) (A : ValArr) (lda : Nat) (x : ValArr) (y : ValArr) : ValArr :=
  fun p => if p < n then
      Finset.sum (Finset.range n) (fun q => A (max p q + lda * min p q) * x q)
    else y p

/-- Modelled from the spec: the BLAS routine `dgemv_` is an external library
routine (section 4.2, "dot product"); as called on line 183 (`trans = "N"`,
a `1 x n` matrix `a` with leading dimension 1, `alpha = 1`, `beta = 0`) it
sets `y[0] = sum_i a[i] x[i]`. -/
def dgemvRow (n : Nat) (a : ValArr) (x : ValArr) (y : ValArr) : ValArr :=
  Function.update y 0 (Finset.sum (Finset.range n) (fun i => a i * x i))

/-- The values buffer `C` and the scratch buffers of the recursion. -/
structure RecState where
  C : ValArr
  fil : ValArr
  zt : ValArr
  Zt : ValArr
  zz : ValArr

/-- Body of the scan `for (l=J[ik];l<=J[ik+1];l++)` (lines 163-166), on the
state `(h, Zt)`; `Jj` is `J[j]`. -/
def gatherScan (I : IdxArr) (C : ValArr) (Jj lfi k2 : Nat) (l : Nat)
    (s : Nat × ValArr) : Nat × ValArr :=
  if I l = I (Jj + s.1 + 1) then
    (s.1 + 1, Function.update s.2 (s.1 + lfi * k2) (C l))
  else s

/-- Body of the loop `for (k=J[j]+1;k<J[j+1];k++)` (lines 160-168), on the
state `(k2, Zt)`. -/
def gatherCol (J I : IdxArr) (C : ValArr) (j lfi : Nat) (k : Nat)
    (s : Nat × ValArr) : Nat × ValArr :=
  let ik := I k
  let r := forUp (J ik) (J (ik + 1) + 1) (gatherScan I C (J j) lfi s.1) (s.1, s.2)
  (s.1 + 1, r.2)

/-- Lines 158-169: "Set the lower triangular for Zt". -/
def gather (J I : IdxArr) (C : ValArr) (j lfi : Nat) (Zt : ValArr) : ValArr :=
  (forUp (J j + 1) (J (j + 1)) (gatherCol J I C j lfi) (0, Zt)).2

/-- Lines 177-181: write `-zt` into the sub-diagonal slots of column `j`,
on the state `(k, C)`. -/
def writeBack (J : IdxArr) (j lfi : Nat) (zt : ValArr) (C : ValArr) : ValArr :=
  (forDown (J j) (J (j + 1) - 1)
    (fun i (s : Nat × ValArr) => (s.1 - 1, Function.update s.2 i (- zt s.1)))
    (lfi - 1, C)).2

/-- Body of the backward column loop (lines 151-191) for column `j`. -/
def recursionStep (J I : IdxArr) (j : Nat) (s : RecState) : RecState :=
  let lfi := J (j + 1) - (J j + 1)
  let fil := forUp 0 lfi (fun i fil => Function.update fil i (s.C (J j + i + 1))) s.fil
  let Zt := gather J I s.C j lfi s.Zt
  if 0 < lfi then
    let zt := dsymvLower lfi Zt lfi fil s.zt
    let C1 := writeBack J j lfi zt s.C
    let zz := dgemvRow lfi fil zt s.zz
    { C := Function.update C1 (J j) (1 / C1 (J j) + zz 0),
      fil := fil, zt := zt, Zt := Zt, zz := zz }
  else
    { C := Function.update s.C (J j) (1 / s.C (J j)),
      fil := fil, zt := s.zt, Zt := Zt, zz := s.zz }

/-- Lines 145-193: the last diagonal, then `for (j=m-2;j>=0;j--)`.  The
values buffer and the initial contents of the scratch buffers are those of
`s`. -/
def recursion (m nnz : Nat) (J I : IdxArr) (s : RecState) : RecState :=
  let s0 : RecState := { s with C := Function.update s.C (nnz - 1) (1 / s.C (J (m - 1))) }
  (List.range (m - 1)).reverse.foldl (fun s j => recursionStep J I j s) s0

/-! ## Permutation and transposition (lines 205-247) -/

/-- The expression `r ? r[j] : j`. -/
def permAt (r : Option IdxArr) (j : Nat) : Nat :=
  match r with
  | some p => p j
  | none => j

/-- Lines 214-221: count the entries of each column of `Bm`. -/
def permCount (m : Nat) (r : Option IdxArr) (J I : IdxArr) (w : IdxArr) : IdxArr :=
  forUp 0 m (fun j w =>
    let k := permAt r j
    forUp (J j) (J (j + 1)) (fun l w =>
      let i := I l
      let ik := permAt r i
      Function.update w (max ik k) (w (max ik k) + 1)) w) w

/-- Lines 223-231: scatter the entries into `Bm`, on the state
`(w, It, Ct)`. -/
def permScatter (m : Nat) (r : Option IdxArr) (J I : IdxArr) (C : ValArr)
    (s : IdxArr × IdxArr × ValArr) : IdxArr × IdxArr × ValArr :=
  forUp 0 m (fun j s =>
    let k := permAt r j
    forUp (J j) (J (j + 1)) (fun l (s : IdxArr × IdxArr × ValArr) =>
      let i := I l
      let ik := permAt r i
      let k2 := s.1 (max ik k)
      (Function.update s.1 (max ik k) (s.1 (max ik k) + 1),
       Function.update s.2.1 k2 (min ik k),
       Function.update s.2.2 k2 (C l))) s) s

/-- A sparse matrix in compressed column form: the three arrays. -/
structure Csc where
  J : IdxArr
  I : IdxArr
  C : ValArr

/-- Lines 205-231: the permuted matrix `Bm` (upper triangular in the
caller's numbering). -/
def permute (m : Nat) (r : Option IdxArr) (A : Csc) : Csc :=
  let w := permCount m r A.J A.I (fun _ => 0)
  let pc := cumsum2Core (fun _ => 0) w m
  let s := permScatter m r A.J A.I A.C (pc.2, fun _ => 0, fun _ => 0)
  { J := pc.1, I := s.2.1, C := s.2.2 }

/-- Lines 238-247: transpose `Bm` back into the arrays of `Am`. -/
def transpose (m : Nat) (B : Csc) (A : Csc) : Csc :=
  let w := forUp 0 (B.J m) (fun i w => Function.update w (B.I i) (w (B.I i) + 1)) (fun _ => 0)
  let pc := cumsum2Core A.J w m
  let s := forUp 0 m (fun j s =>
    forUp (B.J j) (B.J (j + 1)) (fun i (s : IdxArr × IdxArr × ValArr) =>
      let l := s.1 (B.I i)
      (Function.update s.1 (B.I i) (s.1 (B.I i) + 1),
       Function.update s.2.1 l j,
       Function.update s.2.2 l (B.C i))) s) (pc.2, A.I, A.C)
  { J := pc.1, I := s.2.1, C := s.2.2 }

/-- Lines 205-247: permute, then transpose. -/
def permuteTranspose (m : Nat) (r : Option IdxArr) (A : Csc) : Csc :=
  transpose m (permute m r A) A

/-! ## Filling the upper triangle (lines 255-278) -/

/-- Line 257: row counts of the lower triangle. -/
def rowCounts (A : Csc) (m : Nat) : IdxArr :=
  forUp 0 (A.J m) (fun k w => Function.update w (A.I k) (w (A.I k) + 1)) (fun _ => 0)

/-- Line 258: column counts of the sparse inverse. -/
def colCounts (A : Csc) (m : Nat) : IdxArr :=
  let w := rowCounts A m
  forUp 0 m (fun k w2 => Function.update w2 k (w k + A.J (k + 1) - A.J k - 1)) (fun _ => 0)

/-- Lines 267-272: fill the upper triangular part, on the state
`(w2, It, Ct)` (`Ct` is the value array of a real matrix, never null). -/
def fillUpper (m : Nat) (A : Csc) (s : IdxArr × IdxArr × ValArr) :
    IdxArr × IdxArr × ValArr :=
  forUp 0 m (fun j s =>
    forUp (A.J j) (A.J (j + 1)) (fun k (s : IdxArr × IdxArr × ValArr) =>
      let l := s.1 (A.I k)
      (Function.update s.1 (A.I k) (s.1 (A.I k) + 1),
       Function.update s.2.1 l j,
       Function.update s.2.2 l (A.C k))) s) s

/-- Lines 273-278: fill the lower triangular part, on the state
`(w2, It, Ct)`. -/
def fillLower (m : Nat) (A : Csc) (s : IdxArr × IdxArr × ValArr) :
    IdxArr × IdxArr × ValArr :=
  forUp 0 m (fun j s =>
    forUp (A.J j + 1) (A.J (j + 1)) (fun k (s : IdxArr × IdxArr × ValArr) =>
      let l := s.1 j
      (Function.update s.1 j (s.1 j + 1),
       Function.update s.2.1 l (A.I k),
       Function.update s.2.2 l (A.C k))) s) s

/-- The result matrix: its allocated size `nzmax` and its three arrays. -/
structure Result where
  nzmax : Nat
  Z : Csc

/-- Lines 255-278: expand the sorted lower triangle `A` (with `nnz`
allocated entries) to the full symmetric matrix. -/
def expand (m nnz : Nat) (A : Csc) : Result :=
  let w2 := colCounts A m
  let pc := cumsum2Core (fun _ => 0) w2 m
  let s := fillLower m A (fillUpper m A (pc.2, fun _ => 0, fun _ => 0))
  { nzmax := 2 * nnz - m, Z := { J := pc.1, I := s.2.1, C := s.2.2 } }

/-- Lines 144-278: from the packed factor `(J, I, C)` with `nnz` allocated
entries and the ordering `r` to the result `Z`. -/
def sinv (m nnz : Nat) (r : Option IdxArr) (L : Csc) (scratch : RecState) : Result :=
  let C := (recursion m nnz L.J L.I { scratch with C := L.C }).C
  expand m nnz (permuteTranspose m r { L with C := C })

/-! ## Instrumented loops, input checks and the second output -/

/-- Lines 267-272 as `fillUpper`, on the state `((w2, It, Ct), slots)` where
`slots` records, in order, every slot `l` that is written. -/
def fillUpperT (m : Nat) (A : Csc) (s : (IdxArr × IdxArr × ValArr) × List Nat) :
    (IdxArr × IdxArr × ValArr) × List Nat :=
  forUp 0 m (fun j s =>
    forUp (A.J j) (A.J (j + 1)) (fun k (s : (IdxArr × IdxArr × ValArr) × List Nat) =>
      let l := s.1.1 (A.I k)
      ((Function.update s.1.1 (A.I k) (s.1.1 (A.I k) + 1),
        Function.update s.1.2.1 l j,
        Function.update s.1.2.2 l (A.C k)), s.2 ++ [l])) s) s

/-- Lines 273-278 as `fillLower`, on the state `((w2, It, Ct), slots)` where
`slots` records, in order, every slot `l` that is written. -/
def fillLowerT (m : Nat) (A : Csc) (s : (IdxArr × IdxArr × ValArr) × List Nat) :
    (IdxArr × IdxArr × ValArr) × List Nat :=
  forUp 0 m (fun j s =>
    forUp (A.J j + 1) (A.J (j + 1)) (fun k (s : (IdxArr × IdxArr × ValArr) × List Nat) =>
      let l := s.1.1 j
      ((Function.update s.1.1 j (s.1.1 j + 1),
        Function.update s.1.2.1 l (A.I k),
        Function.update s.1.2.2 l (A.C k)), s.2 ++ [l])) s) s

/-- Lines 255-278 as `expand`, together with the list of the slots written
by the two fill passes, in the order of the writes. -/
def expandT (m nnz : Nat) (A : Csc) : Result × List Nat :=
  let w2 := colCounts A m
  let pc := cumsum2Core (fun _ => 0) w2 m
  let s := fillLowerT m A (fillUpperT m A ((pc.2, fun _ => 0, fun _ => 0), []))
  ({ nzmax := 2 * nnz - m, Z := { J := pc.1, I := s.1.2.1, C := s.1.2.2 } }, s.2)

/-- The errors that `mexFunction` raises with `mexErrMsgTxt`, in the order of
the checks: line 91 ("usage: Z = sinv(A)"), line 99 ("A must be sparse"),
line 103 ("A must be square"), line 122 ("matrix is not positive definite")
and line 132 ("matrix is complex"). -/
inductive SinvError where
  | usage
  | notSparseInput
  | invalidDimension
  | notPositiveDefinite
  | complexUnsupported
  deriving DecidableEq

/-- What CHOLMOD hands back for the input (lines 117-142): whether
`cm->status` is `CHOLMOD_OK`, whether the converted factor has complex
storage, the factor's failing-column index `L->minor`, the ordering
`L->Perm`, and the packed factor with its allocated size. -/
structure Factorization where
  statusOK : Bool
  isComplex : Bool
  minor : Int
  perm : Option IdxArr
  nzmax : Nat
  L : Csc

/-- Lines 290-296: the second output, produced when `nargout > 1`, from the
locals `minor` and `n`. -/
def returnMinor (nargout : Nat) (n minor : Int) : Option Int :=
  if nargout > 1 then some (if minor = n then 0 else minor + 1) else none

/-- The whole of `mexFunction` (lines 39-313) on the abstract input
`(nargin, isSparse, rows, cols)`: the checks in the order of the source,
then `sinv` on what CHOLMOD returned, then the second output. The MATLAB
routine `mexErrMsgTxt` ends the call, so a failed check gives the error and
nothing else. The local `minor` is declared on line 51 and assigned nowhere,
so line 295 reads whatever it holds: the parameter `minorLocal`. The third
output (`L->Perm`) is left out. -/
def mexFunction (nargout nargin : Nat) (isSparse : Bool) (rows cols : Nat) (f : Factorization)
    (scratch : RecState) (minorLocal : Int) : Except SinvError (Result × Option Int) :=
  if nargin > 3 then Except.error SinvError.usage
  else if !isSparse then Except.error SinvError.notSparseInput
  else if rows ≠ cols then Except.error SinvError.invalidDimension
  else if !f.statusOK then Except.error SinvError.notPositiveDefinite
  else if f.isComplex then Except.error SinvError.complexUnsupported
  else Except.ok (sinv rows f.nzmax f.perm f.L scratch, returnMinor nargout rows minorLocal)

/-- Lines 160-168 as `gatherCol`, on the state `((k2, Zt), reads)` where
`reads` records, in order, every index `l` at which the scan inspects
`I[l]`. -/
def gatherColT (J I : IdxArr) (C : ValArr) (j lfi : Nat) (k : Nat)
    (s : (Nat × ValArr) × List Nat) : (Nat × ValArr) × List Nat :=
  let ik := I k
  let r := forUp (J ik) (J (ik + 1) + 1)
    (fun l (t : (Nat × ValArr) × List Nat) =>
      (gatherScan I C (J j) lfi s.1.1 l t.1, t.2 ++ [l])) ((s.1.1, s.1.2), s.2)
  ((s.1.1 + 1, r.1.2), r.2)

/-- Lines 158-169 as `gather`, together with the indices `l` inspected by
the scans. -/
def gatherT (J I : IdxArr) (C : ValArr) (j lfi : Nat) (Zt : ValArr) : ValArr × List Nat :=
  let r := forUp (J j + 1) (J (j + 1)) (gatherColT J I C j lfi) ((0, Zt), [])
  (r.1.2, r.2)

/-! ## Specification-side definitions -/

/-! ### Stored entries and validity of a compressed-column matrix -/

/-- The `(row, value)` pairs stored in column `b`, in storage order. -/
def colEntries (A : Csc) (b : Nat) : List (Nat × ℚ) :=
  (List.range' (A.J b) (A.J (b + 1) - A.J b)).map (fun l => (A.I l, A.C l))

/-- The value `v` is stored at row `i` of column `j`. -/
def Stored (A : Csc) (i j : Nat) (v : ℚ) : Prop := (i, v) ∈ colEntries A j

/-- The value stored at row `a` of column `b` in the values buffer `C`
(zero when the position is not stored). -/
def entryAt (A : Csc) (C : ValArr) (a b : Nat) : ℚ :=
  match (List.range' (A.J b) (A.J (b + 1) - A.J b)).find? (fun l => decide (A.I l = a)) with
  | some l => C l
  | none => 0

/-- The ordering `r` maps `0..m-1` one-to-one into `0..m-1`. -/
def PermOK (m : Nat) (r : Option IdxArr) : Prop :=
  (∀ i < m, permAt r i < m) ∧ ∀ i < m, ∀ j < m, permAt r i = permAt r j → i = j

/-- Column pointers start at 0 and do not decrease. -/
def PtrOK (m : Nat) (J : IdxArr) : Prop :=
  J 0 = 0 ∧ ∀ j < m, J j ≤ J (j + 1)

/-- Every row index stored in the first `m` columns is below `m`. -/
def RowsOK (m : Nat) (A : Csc) : Prop :=
  ∀ j < m, ∀ l, A.J j ≤ l → l < A.J (j + 1) → A.I l < m

/-- Every stored entry of the first `m` columns is on or below the diagonal. -/
def LowerTri (m : Nat) (A : Csc) : Prop :=
  ∀ j < m, ∀ l, A.J j ≤ l → l < A.J (j + 1) → j ≤ A.I l

/-- No column stores a row twice: the stored positions are pairwise distinct. -/
def RowsDistinct (m : Nat) (A : Csc) : Prop :=
  ∀ j < m, ∀ l l', A.J j ≤ l → l < A.J (j + 1) → A.J j ≤ l' → l' < A.J (j + 1) →
    A.I l = A.I l' → l = l'

/-- Every column stores its diagonal entry. -/
def HasDiag (m : Nat) (A : Csc) : Prop :=
  ∀ j < m, ∃ l, A.J j ≤ l ∧ l < A.J (j + 1) ∧ A.I l = j

/-- A lower-triangular matrix whose columns each start with their diagonal
entry, followed by strictly ascending sub-diagonal rows (all below `m`). -/
structure SortedLower (m : Nat) (A : Csc) : Prop where
  ptr : PtrOK m A.J
  diag : ∀ j < m, A.J j < A.J (j + 1) ∧ A.I (A.J j) = j
  below : ∀ j < m, ∀ l, A.J j < l → l < A.J (j + 1) → j < A.I l ∧ A.I l < m
  asc : ∀ j < m, ∀ l, A.J j < l → l + 1 < A.J (j + 1) → A.I l < A.I (l + 1)

/-- The pattern is closed under fill: whenever rows `a < b` are both stored
below the diagonal of a column, row `b` is stored below the diagonal of
column `a`. -/
def FillClosed (m : Nat) (A : Csc) : Prop :=
  ∀ j < m, ∀ l l', A.J j < l → l < l' → l' < A.J (j + 1) →
    ∃ t, t < A.J (A.I l + 1) ∧ A.J (A.I l) < t ∧ A.I t = A.I l'

/-- Two matrices agree on what is stored in their first `m` columns: the
column pointers `J[0..m]` and the slots below `J[m]`. -/
def Agree (m : Nat) (A A' : Csc) : Prop :=
  (∀ j, j ≤ m → A.J j = A'.J j) ∧ ∀ l, l < A.J m → A.I l = A'.I l ∧ A.C l = A'.C l

/-! ### Decision procedures for the validity predicates -/

instance decPermOK (m : Nat) (r : Option IdxArr) : Decidable (PermOK m r) := by
  unfold PermOK; infer_instance

instance decPtrOK (m : Nat) (J : IdxArr) : Decidable (PtrOK m J) := by
  unfold PtrOK; infer_instance

instance decRowsOK (m : Nat) (A : Csc) : Decidable (RowsOK m A) :=
  decidable_of_iff (∀ j < m, ∀ l < A.J (j + 1), A.J j ≤ l → A.I l < m)
    ⟨fun h j hj l h1 h2 => h j hj l h2 h1, fun h j hj l h2 h1 => h j hj l h1 h2⟩

instance decLowerTri (m : Nat) (A : Csc) : Decidable (LowerTri m A) :=
  decidable_of_iff (∀ j < m, ∀ l < A.J (j + 1), A.J j ≤ l → j ≤ A.I l)
    ⟨fun h j hj l h1 h2 => h j hj l h2 h1, fun h j hj l h2 h1 => h j hj l h1 h2⟩

instance decRowsDistinct (m : Nat) (A : Csc) : Decidable (RowsDistinct m A) :=
  decidable_of_iff (∀ j < m, ∀ l < A.J (j + 1), ∀ l' < A.J (j + 1),
      (A.J j ≤ l ∧ A.J j ≤ l' ∧ A.I l = A.I l') → l = l')
    ⟨fun h j hj l l' h1 h2 h3 h4 h5 => h j hj l h2 l' h4 ⟨h1, h3, h5⟩,
     fun h j hj l h2 l' h4 h5 => h j hj l l' h5.1 h2 h5.2.1 h4 h5.2.2⟩

instance decHasDiag (m : Nat) (A : Csc) : Decidable (HasDiag m A) :=
  decidable_of_iff (∀ j < m, ∃ l, l < A.J (j + 1) ∧ (A.J j ≤ l ∧ A.I l = j))
    ⟨fun h j hj => let ⟨l, h1, h2, h3⟩ := h j hj; ⟨l, h2, h1, h3⟩,
     fun h j hj => let ⟨l, h1, h2, h3⟩ := h j hj; ⟨l, h2, h1, h3⟩⟩

instance decSortedLower (m : Nat) (A : Csc) : Decidable (SortedLower m A) :=
  decidable_of_iff (PtrOK m A.J ∧ (∀ j < m, A.J j < A.J (j + 1) ∧ A.I (A.J j) = j) ∧
      (∀ j < m, ∀ l < A.J (j + 1), A.J j < l → j < A.I l ∧ A.I l < m) ∧
      (∀ j < m, ∀ l < A.J (j + 1), A.J j < l → l + 1 < A.J (j + 1) → A.I l < A.I (l + 1)))
    ⟨fun h => ⟨h.1, h.2.1, fun j hj l h1 h2 => h.2.2.1 j hj l h2 h1,
        fun j hj l h1 h2 => h.2.2.2 j hj l (by omega) h1 h2⟩,
     fun h => ⟨h.ptr, h.diag, fun j hj l h2 h1 => h.below j hj l h1 h2,
        fun j hj l _ h1 h2 => h.asc j hj l h1 h2⟩⟩

instance decFillClosed (m : Nat) (A : Csc) : Decidable (FillClosed m A) :=
  decidable_of_iff (∀ j < m, ∀ l' < A.J (j + 1), ∀ l < l', A.J j < l →
      ∃ t, t < A.J (A.I l + 1) ∧ (A.J (A.I l) < t ∧ A.I t = A.I l'))
    ⟨fun h j hj l l' h1 h2 h3 => h j hj l' h3 l h2 h1,
     fun h j hj l' h3 l h2 h1 => h j hj l l' h1 h2 h3⟩

/-! ### Bucket passes: prefix sums, items and cursors -/

/-- Prefix sums of a count array: `c[0] + ... + c[k-1]`. -/
def psum (c : IdxArr) (k : Nat) : Nat := Finset.sum (Finset.range k) c

/-- One counting step `w[k]++`. -/
def countStep (w : IdxArr) (k : Nat) : IdxArr := Function.update w k (w k + 1)

/-- One scatter step `out[c[k]++] = v` for the item `(k, v)`. -/
def scatStep {β : Type} (s : IdxArr × (Nat → β)) (x : Nat × β) : IdxArr × (Nat → β) :=
  (Function.update s.1 x.1 (s.1 x.1 + 1), Function.update s.2 (s.1 x.1) x.2)

/-- Number of items with key `k`. -/
def cnt {β : Type} (k : Nat) (xs : List (Nat × β)) : Nat := (xs.map Prod.fst).count k

/-- The buckets `[c k, c k + cnt k xs)` for `k < m` are laid out in order
without overlap. -/
def Separated {β : Type} (m : Nat) (c : IdxArr) (xs : List (Nat × β)) : Prop :=
  ∀ a b, a < b → b < m → c a + cnt a xs ≤ c b

/-- The pairs `(j, l)` visited by `for (j=0;j<m;j++) for (l=lo j;l<hi j;l++)`,
in the order of the visit. -/
def loopPairs (m : Nat) (lo hi : IdxArr) : List (Nat × Nat) :=
  (List.range m).flatMap (fun j => (List.range' (lo j) (hi j - lo j)).map (fun l => (j, l)))

/-- The pairs `(column, slot)` of a compressed-column matrix, in storage order. -/
def entries (m : Nat) (J : IdxArr) : List (Nat × Nat) :=
  loopPairs m J (fun j => J (j + 1))

/-- The item `(key, (row, value))` that the permutation scatter (lines
223-231) files for the pair `(j, l)`. -/
def permItem (r : Option IdxArr) (A : Csc) (e : Nat × Nat) : Nat × (Nat × ℚ) :=
  (max (permAt r (A.I e.2)) (permAt r e.1), (min (permAt r (A.I e.2)) (permAt r e.1), A.C e.2))

/-- The item that the transposition scatter (lines 241-246) files for the
pair `(j, i)`. -/
def transItem (B : Csc) (e : Nat × Nat) : Nat × (Nat × ℚ) :=
  (B.I e.2, (e.1, B.C e.2))

/-- The item that the second fill pass (lines 273-278) files for the pair
`(j, k)`. -/
def lowerItem (A : Csc) (e : Nat × Nat) : Nat × (Nat × ℚ) :=
  (e.1, (A.I e.2, A.C e.2))

/-- The items of both fill passes, in the order in which they are filed. -/
def fillItems (m : Nat) (A : Csc) : List (Nat × (Nat × ℚ)) :=
  (entries m A.J).map (transItem A) ++
    (loopPairs m (fun j => A.J j + 1) (fun j => A.J (j + 1))).map (lowerItem A)

/-- The two index/value arrays of a scatter state seen as one array of pairs. -/
def zipState (s : IdxArr × IdxArr × ValArr) : IdxArr × (Nat → Nat × ℚ) :=
  (s.1, fun l => (s.2.1 l, s.2.2 l))

/-! ### The recursion: scan invariant and column equations -/

/-- Invariant of the scan of column `ik = I[J[j]+1+k2]` (lines 162-167) when
the scan is about to inspect slot `x`. -/
def ScanInv (A : Csc) (C : ValArr) (j k2 : Nat) (Zt0 : ValArr) (x : Nat)
    (s : Nat × ValArr) : Prop :=
  k2 ≤ s.1 ∧ s.1 ≤ A.J (j + 1) - (A.J j + 1) ∧
  (∀ h', k2 ≤ h' → h' < s.1 → ∃ t, A.J (A.I (A.J j + 1 + k2)) ≤ t ∧ t < x ∧
      A.I t = A.I (A.J j + h' + 1) ∧
      s.2 (h' + (A.J (j + 1) - (A.J j + 1)) * k2) = C t) ∧
  (∀ h', s.1 ≤ h' → h' < A.J (j + 1) - (A.J j + 1) →
      ∃ t, x ≤ t ∧ t < A.J (A.I (A.J j + 1 + k2) + 1) ∧ A.I t = A.I (A.J j + h' + 1)) ∧
  (∀ idx, (∀ h', k2 ≤ h' → h' < A.J (j + 1) - (A.J j + 1) →
      idx ≠ h' + (A.J (j + 1) - (A.J j + 1)) * k2) → s.2 idx = Zt0 idx)

/-- The vector `w` of the recursion for column `j`: the gathered symmetric
matrix of the values `Z` applied to the original multipliers in `C0`. -/
def gatherW (A : Csc) (C0 Z : ValArr) (j p : Nat) : ℚ :=
  Finset.sum (Finset.range (A.J (j + 1) - (A.J j + 1))) (fun q =>
    entryAt A Z (max (A.I (A.J j + p + 1)) (A.I (A.J j + q + 1)))
      (min (A.I (A.J j + p + 1)) (A.I (A.J j + q + 1))) * C0 (A.J j + q + 1))

/-- The recursion equations of column `j`: sub-diagonal values and diagonal. -/
def ColumnEq (A : Csc) (C0 Z : ValArr) (j : Nat) : Prop :=
  (∀ p, p < A.J (j + 1) - (A.J j + 1) → Z (A.J j + p + 1) = - gatherW A C0 Z j p) ∧
  Z (A.J j) = 1 / C0 (A.J j) +
    Finset.sum (Finset.range (A.J (j + 1) - (A.J j + 1)))
      (fun p => C0 (A.J j + p + 1) * gatherW A C0 Z j p)

/-- State of the values buffer when the columns `j, ..., m-1` are done:
earlier columns still hold the factor, later columns satisfy the recursion
equations. -/
def RecInv (m : Nat) (A : Csc) (C0 : ValArr) (j : Nat) (Z : ValArr) : Prop :=
  (∀ x, x < A.J j → Z x = C0 x) ∧ ∀ c, j ≤ c → c < m → ColumnEq A C0 Z c

/-! ### The factorization as matrices -/

/-- The unit lower-triangular factor `L` held in the packed arrays: ones on
the diagonal, the stored multipliers below it. -/
def factorL (m : Nat) (L : Csc) : Matrix (Fin m) (Fin m) ℚ :=
  Matrix.of fun i j => if i = j then 1 else if j < i then entryAt L L.C i j else 0

/-- The pivots `d_j`, held in the diagonal slots of the packed arrays. -/
def factorD (m : Nat) (L : Csc) : Fin m → ℚ := fun j => L.C (L.J j)

/-- The packed arrays hold an `L D Lᵀ` factorization of `A(perm, perm)`. -/
def IsFactorOf (m : Nat) (r : Option IdxArr) (L : Csc) (A : Matrix (Fin m) (Fin m) ℚ) : Prop :=
  ∀ (i j : Fin m) (hi : permAt r i < m) (hj : permAt r j < m),
    A ⟨permAt r i, hi⟩ ⟨permAt r j, hj⟩ =
      (factorL m L * Matrix.diagonal (factorD m L) * (factorL m L).transpose) i j

instance decIsFactorOf (m : Nat) (r : Option IdxArr) (L : Csc) (A : Matrix (Fin m) (Fin m) ℚ) :
    Decidable (IsFactorOf m r L A) := by
  unfold IsFactorOf; infer_instance

/-! ### Example inputs -/

/-- The packed factor of the tridiagonal matrix `[[2,-1,0],[-1,2,-1],[0,-1,2]]`:
column pointers. -/
def exJ : IdxArr := fun i => [0, 2, 4, 5].getD i 0

/-- Row indices of the example factor. -/
def exI : IdxArr := fun i => [0, 1, 1, 2, 2].getD i 0

/-- Values of the example factor: pivots `2, 3/2, 4/3`, multipliers `-1/2, -2/3`. -/
def exC : ValArr := fun i => [2, -1/2, 3/2, -2/3, 4/3].getD i 0

/-- The example factor. -/
def exL : Csc := { J := exJ, I := exI, C := exC }

/-- The tridiagonal matrix `[[2,-1,0],[-1,2,-1],[0,-1,2]]`. -/
def exA : Matrix (Fin 3) (Fin 3) ℚ := !![2, -1, 0; -1, 2, -1; 0, -1, 2]

/-- An ordering of three variables. -/
def exPerm : IdxArr := fun i => [2, 0, 1].getD i 0

/-- Scratch buffers holding zeros. -/
def zeroScratch : RecState :=
  { C := fun _ => 0, fil := fun _ => 0, zt := fun _ => 0, Zt := fun _ => 0, zz := fun _ => 0 }

/-- The packed factor of `diag(2, 3, 4)`: every column holds only its pivot. -/
def diagL : Csc :=
  { J := fun i => i, I := fun i => i, C := fun i => [2, 3, 4].getD i 0 }

/-- The packed factor of the `1 x 1` matrix `[[5]]`. -/
def oneL : Csc :=
  { J := fun i => i, I := fun i => i, C := fun i => [5].getD i 0 }

/-- The packed factor of the tridiagonal example renumbered by `exPerm`, that
is of `[[2,0,-1],[0,2,-1],[-1,-1,2]]`: pivots `2, 2, 1`, multipliers `-1/2`. -/
def exL2 : Csc :=
  { J := fun i => [0, 2, 4, 5].getD i 0,
    I := fun i => [0, 2, 1, 2, 2].getD i 0,
    C := fun i => [2, -1/2, 2, -1/2, 1].getD i 0 }

instance decStored (A : Csc) (i j : Nat) (v : ℚ) : Decidable (Stored A i j v) := by
  unfold Stored; infer_instance

/-- Scratch buffers holding the value `7` everywhere. -/
def junkScratch : RecState :=
  { C := fun _ => 7, fil := fun _ => 7, zt := fun _ => 7, Zt := fun _ => 7, zz := fun _ => 7 }

/-- State of the recursion (lines 145-193) when line 145 and the iterations
for the columns `m-2, ..., j` have run. -/
def recursionFrom (m nnz : Nat) (J I : IdxArr) (s : RecState) (j : Nat) : RecState :=
  let s0 : RecState := { s with C := Function.update s.C (nnz - 1) (1 / s.C (J (m - 1))) }
  (List.range' j (m - 1 - j)).reverse.foldl (fun s j => recursionStep J I j s) s0

/-- One scatter step that also records the slot it writes. -/
def scatStepT {β : Type} (s : (IdxArr × (Nat → β)) × List Nat) (x : Nat × β) :
    (IdxArr × (Nat → β)) × List Nat :=
  (scatStep s.1 x, s.2 ++ [s.1.1 x.1])

/-- The slots written by a scatter of the items `xs` from the cursors `c`. -/
def slots {β : Type} : List (Nat × β) → IdxArr → List Nat
  | [], _ => []
  | x :: xs, c => c x.1 :: slots xs (Function.update c x.1 (c x.1 + 1))

/-- A traced scatter state with its two arrays seen as one array of pairs. -/
def zipT (s : (IdxArr × IdxArr × ValArr) × List Nat) : (IdxArr × (Nat → Nat × ℚ)) × List Nat :=
  (zipState s.1, s.2)

/-- The identity ordering of three variables, as an explicit array. -/
def exId : IdxArr := fun i => [0, 1, 2].getD i 0

/-- The scan of one column with the strict bound `l < J[ik+1]`. -/
def gatherColStrict (J I : IdxArr) (C : ValArr) (j lfi : Nat) (k : Nat) (s : Nat × ValArr) :
    Nat × ValArr :=
  let ik := I k
  let r := forUp (J ik) (J (ik + 1)) (gatherScan I C (J j) lfi s.1) (s.1, s.2)
  (s.1 + 1, r.2)

/-- The gather with every scan bounded strictly by `l < J[ik+1]`. -/
def gatherStrict (J I : IdxArr) (C : ValArr) (j lfi : Nat) (Zt : ValArr) : ValArr :=
  (forUp (J j + 1) (J (j + 1)) (gatherColStrict J I C j lfi) (0, Zt)).2

/-- CHOLMOD's answer for the `1 x 1` matrix `[[5]]`: the factorization is
fully successful, `L->minor = 1 = m`. -/
def oneFact : Factorization :=
  { statusOK := true, isComplex := false, minor := 1, perm := none, nzmax := 1, L := oneL }

/-- The example factor in a memory where the word after the five row
indices holds `2` and the word after the five values holds `9`. -/
def exLpast : Csc :=
  { J := exJ,
    I := fun i => [0, 1, 1, 2, 2, 2].getD i 0,
    C := fun i => [2, -1/2, 3/2, -2/3, 4/3, 9].getD i 0 }

/-- The counts `2^31-1, 1`, whose total `2^31` does not fit the index type. -/
def bigCounts : MwArr := fun i => [2147483647, 1].getD i 0

/-! ## Loops, `cumsum2` and bucket passes -/

theorem forUp_of_le {σ : Type} {lo hi : Nat} (body : Nat → σ → σ) (s : σ) (h : hi ≤ lo) :
    forUp lo hi body s = s := by
  unfold forUp; rw [Nat.sub_eq_zero_of_le h]; rfl

theorem forUp_succ {σ : Type} {lo hi : Nat} (body : Nat → σ → σ) (s : σ) (h : lo ≤ hi) :
    forUp lo (hi + 1) body s = body hi (forUp lo hi body s) := by
  unfold forUp
  have e : hi + 1 - lo = (hi - lo) + 1 := by omega
  rw [e, List.range'_concat, List.foldl_append]
  have e2 : lo + (hi - lo) = hi := by omega
  simp [e2]

theorem psum_succ (c : IdxArr) (k : Nat) : psum c (k + 1) = psum c k + c k := by
  unfold psum; rw [Finset.sum_range_succ]

theorem psum_zero (c : IdxArr) : psum c 0 = 0 := by simp [psum]

theorem psum_mono (c : IdxArr) {a b : Nat} (h : a ≤ b) : psum c a ≤ psum c b := by
  induction b with
  | zero => have : a = 0 := by omega
            subst this; exact le_refl _
  | succ n ih =>
    rcases Nat.lt_or_ge a (n + 1) with h1 | h1
    · have := ih (by omega); rw [psum_succ]; omega
    · have : a = n + 1 := by omega
      subst this; exact le_refl _

theorem cumsum2_loop (p c : IdxArr) (n : Nat) :
    forUp 0 n cumsum2Step (p, c, 0) =
      (fun i => if i < n then psum c i else p i,
       fun i => if i < n then psum c i else c i, psum c n) := by
  induction n with
  | zero => rw [forUp_of_le _ _ (le_refl 0)]; simp [psum_zero]
  | succ n ih =>
    rw [forUp_succ _ _ (Nat.zero_le n), ih]
    simp only [cumsum2Step]
    refine Prod.ext ?_ (Prod.ext ?_ ?_)
    · funext i
      by_cases h : i = n
      · subst h; simp
      · simp only [Function.update_noteq h]
        by_cases h2 : i < n
        · simp [h2, Nat.lt_succ_of_lt h2]
        · have : ¬ i < n + 1 := by omega
          simp [h2, this]
    · funext i
      by_cases h : i = n
      · subst h; simp
      · simp only [Function.update_noteq h]
        by_cases h2 : i < n
        · simp [h2, Nat.lt_succ_of_lt h2]
        · have : ¬ i < n + 1 := by omega
          simp [h2, this]
    · simp [psum_succ]

theorem cumsum2Core_fst (p c : IdxArr) (n i : Nat) :
    (cumsum2Core p c n).1 i = if i ≤ n then psum c i else p i := by
  unfold cumsum2Core
  simp only [cumsum2_loop]
  by_cases h : i = n
  · subst h; simp
  · rw [Function.update_noteq h]
    by_cases h2 : i < n
    · simp [h2, Nat.le_of_lt h2]
    · have : ¬ i ≤ n := by omega
      simp [h2, this]

theorem cumsum2Core_snd (p c : IdxArr) (n i : Nat) :
    (cumsum2Core p c n).2 i = if i < n then psum c i else c i := by
  unfold cumsum2Core
  simp only [cumsum2_loop]

theorem cnt_nil {β : Type} (k : Nat) : cnt k ([] : List (Nat × β)) = 0 := rfl

theorem cnt_cons {β : Type} (k : Nat) (x : Nat × β) (xs : List (Nat × β)) :
    cnt k (x :: xs) = cnt k xs + if x.1 = k then 1 else 0 := by
  unfold cnt
  rw [List.map_cons, List.count_cons]
  simp

theorem cnt_append {β : Type} (k : Nat) (xs ys : List (Nat × β)) :
    cnt k (xs ++ ys) = cnt k xs + cnt k ys := by
  unfold cnt; simp

theorem cnt_eq_length_filter {β : Type} (k : Nat) (xs : List (Nat × β)) :
    cnt k xs = (xs.filter (fun x => decide (x.1 = k))).length := by
  induction xs with
  | nil => rfl
  | cons x xs ih =>
    rw [cnt_cons, ih, List.filter_cons]
    by_cases h : x.1 = k <;> simp [h]

theorem count_fold (ks : List Nat) (w : IdxArr) (k : Nat) :
    (ks.foldl countStep w) k = w k + ks.count k := by
  induction ks generalizing w with
  | nil => simp
  | cons a ks ih =>
    rw [List.foldl_cons, ih, List.count_cons]
    unfold countStep
    by_cases h : a = k
    · subst h; simp; omega
    · have h' : k ≠ a := fun e => h e.symm
      simp [Function.update_noteq h', h]

theorem scat_cursor {β : Type} (xs : List (Nat × β)) (c : IdxArr) (o : Nat → β) (k : Nat) :
    (xs.foldl scatStep (c, o)).1 k = c k + cnt k xs := by
  induction xs generalizing c o with
  | nil => simp [cnt_nil]
  | cons x xs ih =>
    have hstep : scatStep (c, o) x =
        (Function.update c x.1 (c x.1 + 1), Function.update o (c x.1) x.2) := rfl
    rw [List.foldl_cons, hstep, ih, cnt_cons]
    by_cases h : x.1 = k
    · subst h; simp; omega
    · have h' : k ≠ x.1 := fun e => h e.symm
      simp [Function.update_noteq h', h]

theorem scat_frame {β : Type} (xs : List (Nat × β)) (c : IdxArr) (o : Nat → β) (l : Nat)
    (h : ∀ k, l < c k ∨ c k + cnt k xs ≤ l) :
    (xs.foldl scatStep (c, o)).2 l = o l := by
  induction xs generalizing c o with
  | nil => rfl
  | cons x xs ih =>
    have hstep : scatStep (c, o) x =
        (Function.update c x.1 (c x.1 + 1), Function.update o (c x.1) x.2) := rfl
    rw [List.foldl_cons, hstep, ih]
    · have hx := h x.1
      rw [cnt_cons] at hx
      simp only [if_true] at hx
      have : l ≠ c x.1 := by omega
      simp [Function.update_noteq this]
    · intro k
      have hk := h k
      rw [cnt_cons] at hk
      by_cases e : x.1 = k
      · subst e
        simp only [if_true] at hk
        simp only [Function.update_same]
        omega
      · have e' : k ≠ x.1 := fun q => e q.symm
        simp only [e, if_false] at hk
        simp only [Function.update_noteq e']
        omega

theorem scat_col {β : Type} (m : Nat) (xs : List (Nat × β)) (c : IdxArr) (o : Nat → β)
    (hsep : Separated m c xs) (hkey : ∀ x ∈ xs, x.1 < m) (k : Nat) (hk : k < m) :
    (List.range' (c k) (cnt k xs)).map (xs.foldl scatStep (c, o)).2 =
      (xs.filter (fun x => decide (x.1 = k))).map Prod.snd := by
  induction xs generalizing c o with
  | nil => simp [cnt_nil]
  | cons x xs ih =>
    have hx : x.1 < m := hkey x (List.mem_cons_self _ _)
    have hkey' : ∀ y ∈ xs, y.1 < m := fun y hy => hkey y (List.mem_cons_of_mem _ hy)
    have hsep' : Separated m (Function.update c x.1 (c x.1 + 1)) xs := by
      intro a b hab hb
      have h1 := hsep a b hab hb
      rw [cnt_cons] at h1
      by_cases ea : x.1 = a
      · subst ea
        have : b ≠ x.1 := by omega
        simp only [Function.update_same, Function.update_noteq this]
        simp only [if_true] at h1
        omega
      · have ea' : a ≠ x.1 := fun q => ea q.symm
        simp only [ea, if_false] at h1
        simp only [Function.update_noteq ea']
        by_cases eb : x.1 = b
        · subst eb; simp only [Function.update_same]; omega
        · have eb' : b ≠ x.1 := fun q => eb q.symm
          simp only [Function.update_noteq eb']; omega
    rw [List.foldl_cons]
    have hstep : scatStep (c, o) x =
        (Function.update c x.1 (c x.1 + 1), Function.update o (c x.1) x.2) := rfl
    rw [hstep]
    have IH := ih (Function.update c x.1 (c x.1 + 1)) (Function.update o (c x.1) x.2) hsep' hkey'
    by_cases e : x.1 = k
    · subst e
      rw [cnt_cons]
      simp only [if_true, List.filter_cons, decide_True, List.map_cons]
      rw [List.range'_succ, List.map_cons]
      simp only [Function.update_same] at IH
      rw [IH]
      congr 1
      rw [scat_frame]
      · simp
      · intro k'
        rcases Nat.lt_trichotomy k' x.1 with h1 | h1 | h1
        · right
          have h2 := hsep' k' x.1 h1 hx
          simp only [Function.update_same] at h2
          have h3 := hsep k' x.1 h1 hx
          rw [cnt_cons] at h3
          have : k' ≠ x.1 := by omega
          simp only [Function.update_noteq this]
          have : ¬ x.1 = k' := by omega
          simp only [this, if_false] at h3
          omega
        · subst h1; left; simp
        · by_cases hm : k' < m
          · left
            have h3 := hsep x.1 k' h1 hm
            rw [cnt_cons] at h3
            simp only [if_true] at h3
            have : k' ≠ x.1 := by omega
            simp only [Function.update_noteq this]
            omega
          · have : cnt k' xs = 0 := by
              unfold cnt
              rw [List.count_eq_zero]
              intro hmem
              rw [List.mem_map] at hmem
              obtain ⟨y, hy, hy2⟩ := hmem
              have := hkey' y hy
              omega
            rw [this]
            omega
    · have e' : k ≠ x.1 := fun q => e q.symm
      rw [cnt_cons]
      simp only [e, if_false, List.filter_cons, decide_False, Nat.add_zero]
      simp only [Function.update_noteq e'] at IH
      simpa using IH

theorem foldl_pairs {σ α β : Type} (js : List α) (f : α → List β) (g : α → β → σ → σ) (s : σ) :
    js.foldl (fun s j => (f j).foldl (fun s l => g j l s) s) s =
      (js.flatMap (fun j => (f j).map (fun l => (j, l)))).foldl (fun s e => g e.1 e.2 s) s := by
  induction js generalizing s with
  | nil => rfl
  | cons j js ih =>
    rw [List.foldl_cons, ih, List.flatMap_cons, List.foldl_append, List.foldl_map]

theorem nested_forUp {σ : Type} (m : Nat) (lo hi : IdxArr) (g : Nat → Nat → σ → σ) (s : σ) :
    forUp 0 m (fun j s => forUp (lo j) (hi j) (fun l s => g j l s) s) s =
      (loopPairs m lo hi).foldl (fun s e => g e.1 e.2 s) s := by
  unfold forUp loopPairs
  rw [Nat.sub_zero, ← List.range_eq_range']
  exact foldl_pairs (List.range m) (fun j => List.range' (lo j) (hi j - lo j)) g s

theorem foldl_proj {σ τ α : Type} (π : σ → τ) (f : σ → α → σ) (g : τ → α → τ)
    (h : ∀ s a, π (f s a) = g (π s) a) (l : List α) (s : σ) :
    π (l.foldl f s) = l.foldl g (π s) := by
  induction l generalizing s with
  | nil => rfl
  | cons a l ih => rw [List.foldl_cons, List.foldl_cons, ih, h]

theorem loopPairs_succ (m : Nat) (lo hi : IdxArr) :
    loopPairs (m + 1) lo hi =
      loopPairs m lo hi ++ (List.range' (lo m) (hi m - lo m)).map (fun l => (m, l)) := by
  unfold loopPairs
  rw [List.range_succ, List.flatMap_append]
  simp

theorem entries_map_snd (m : Nat) (J : IdxArr) (h0 : J 0 = 0) (hm : ∀ j < m, J j ≤ J (j + 1)) :
    (entries m J).map Prod.snd = List.range (J m) := by
  induction m with
  | zero => simp [entries, loopPairs, h0]
  | succ n ih =>
    unfold entries at ih ⊢
    rw [loopPairs_succ, List.map_append, ih (fun j hj => hm j (Nat.lt_succ_of_lt hj))]
    rw [List.map_map]
    have : (Prod.snd ∘ fun (l : Nat) => (n, l)) = id := by funext l; rfl
    rw [this, List.map_id, List.range_eq_range', List.range_eq_range']
    have h := hm n (Nat.lt_succ_self n)
    have e : J (n + 1) - J n + J n = J (n + 1) := by omega
    have q := List.range'_append_1 0 (J n) (J (n + 1) - J n)
    rw [Nat.zero_add, e] at q
    exact q

theorem mem_loopPairs {m : Nat} {lo hi : IdxArr} {e : Nat × Nat} :
    e ∈ loopPairs m lo hi ↔ e.1 < m ∧ lo e.1 ≤ e.2 ∧ e.2 < hi e.1 := by
  unfold loopPairs
  rw [List.mem_flatMap]
  constructor
  · rintro ⟨j, hj, he⟩
    rw [List.mem_map] at he
    obtain ⟨l, hl, rfl⟩ := he
    rw [List.mem_range'_1] at hl
    rw [List.mem_range] at hj
    refine ⟨hj, hl.1, ?_⟩
    show l < hi j
    omega
  · rintro ⟨h1, h2, h3⟩
    refine ⟨e.1, List.mem_range.mpr h1, ?_⟩
    rw [List.mem_map]
    refine ⟨e.2, ?_, rfl⟩
    rw [List.mem_range'_1]
    omega

theorem mem_entries {m : Nat} {J : IdxArr} {e : Nat × Nat} :
    e ∈ entries m J ↔ e.1 < m ∧ J e.1 ≤ e.2 ∧ e.2 < J (e.1 + 1) := mem_loopPairs

theorem psum_cnt {β : Type} (m : Nat) (xs : List (Nat × β)) (hkey : ∀ x ∈ xs, x.1 < m) :
    psum (fun k => cnt k xs) m = xs.length := by
  induction xs with
  | nil => simp [psum, cnt_nil]
  | cons x xs ih =>
    have hx : x.1 < m := hkey x (List.mem_cons_self _ _)
    have hkey' : ∀ y ∈ xs, y.1 < m := fun y hy => hkey y (List.mem_cons_of_mem _ hy)
    unfold psum at ih ⊢
    simp only [cnt_cons]
    rw [Finset.sum_add_distrib, ih hkey', Finset.sum_ite_eq]
    simp [hx]

theorem psum_congr (m : Nat) (w w' : IdxArr) (h : ∀ k < m, w k = w' k) : psum w m = psum w' m := by
  unfold psum
  exact Finset.sum_congr rfl (fun k hk => h k (Finset.mem_range.mp hk))

/-- A bucket pass: counts `w`, pointers and cursors from `cumsum2`, then the
scatter of the items `xs`.  Column `k` of the result lists the items with key
`k` in their original order. -/
theorem bucket_pass {β : Type} (m : Nat) (xs : List (Nat × β)) (w p0 : IdxArr) (o : Nat → β)
    (hw : ∀ k < m, w k = cnt k xs) (hkey : ∀ x ∈ xs, x.1 < m) (k : Nat) (hk : k < m) :
    (List.range' ((cumsum2Core p0 w m).1 k)
        ((cumsum2Core p0 w m).1 (k + 1) - (cumsum2Core p0 w m).1 k)).map
        (xs.foldl scatStep ((cumsum2Core p0 w m).2, o)).2 =
      (xs.filter (fun x => decide (x.1 = k))).map Prod.snd := by
  have hp : (cumsum2Core p0 w m).1 k = (cumsum2Core p0 w m).2 k := by
    rw [cumsum2Core_fst, cumsum2Core_snd]; simp [hk, Nat.le_of_lt hk]
  have hn : (cumsum2Core p0 w m).1 (k + 1) - (cumsum2Core p0 w m).1 k = cnt k xs := by
    rw [cumsum2Core_fst, cumsum2Core_fst]
    have h1 : k + 1 ≤ m := hk
    simp only [h1, Nat.le_of_lt hk, if_true]
    rw [psum_succ, hw k hk]; omega
  rw [hn, hp]
  apply scat_col m xs _ o _ hkey k hk
  intro a b hab hb
  rw [cumsum2Core_snd, cumsum2Core_snd]
  have ha : a < m := by omega
  simp only [ha, hb, if_true]
  rw [← hw a ha, ← psum_succ]
  exact psum_mono w hab

theorem bucket_ptr_zero (m : Nat) (w p0 : IdxArr) : (cumsum2Core p0 w m).1 0 = 0 := by
  rw [cumsum2Core_fst]; simp [psum_zero]

theorem bucket_ptr_succ (m : Nat) (w p0 : IdxArr) (k : Nat) (hk : k < m) :
    (cumsum2Core p0 w m).1 (k + 1) = (cumsum2Core p0 w m).1 k + w k := by
  rw [cumsum2Core_fst, cumsum2Core_fst]
  have h1 : k + 1 ≤ m := hk
  simp only [h1, Nat.le_of_lt hk, if_true]
  exact psum_succ w k

theorem bucket_ptr_last {β : Type} (m : Nat) (xs : List (Nat × β)) (w p0 : IdxArr)
    (hw : ∀ k < m, w k = cnt k xs) (hkey : ∀ x ∈ xs, x.1 < m) :
    (cumsum2Core p0 w m).1 m = xs.length := by
  rw [cumsum2Core_fst]
  simp only [le_refl, if_true]
  rw [psum_congr m w (fun k => cnt k xs) hw, psum_cnt m xs hkey]

theorem zipState_step (s : IdxArr × IdxArr × ValArr) (k row : Nat) (v : ℚ) :
    zipState (Function.update s.1 k (s.1 k + 1), Function.update s.2.1 (s.1 k) row,
      Function.update s.2.2 (s.1 k) v) = scatStep (zipState s) (k, (row, v)) := by
  unfold zipState scatStep
  refine Prod.ext rfl ?_
  funext l
  by_cases h : l = s.1 k
  · subst h; simp
  · simp [Function.update_noteq h]

theorem entries_length (m : Nat) (J : IdxArr) (h : PtrOK m J) : (entries m J).length = J m := by
  have := congrArg List.length (entries_map_snd m J h.1 h.2)
  simpa using this

theorem permCount_eq (m : Nat) (r : Option IdxArr) (A : Csc) (w : IdxArr) :
    permCount m r A.J A.I w =
      (((entries m A.J).map (permItem r A)).map Prod.fst).foldl countStep w := by
  have h := nested_forUp m A.J (fun j => A.J (j + 1))
    (fun j l (w : IdxArr) => Function.update w (max (permAt r (A.I l)) (permAt r j))
      (w (max (permAt r (A.I l)) (permAt r j)) + 1)) w
  rw [List.map_map, List.foldl_map]
  exact h

theorem permScatter_eq (m : Nat) (r : Option IdxArr) (A : Csc) (s : IdxArr × IdxArr × ValArr) :
    zipState (permScatter m r A.J A.I A.C s) =
      ((entries m A.J).map (permItem r A)).foldl scatStep (zipState s) := by
  have h := nested_forUp m A.J (fun j => A.J (j + 1))
    (fun j l (s : IdxArr × IdxArr × ValArr) =>
      (Function.update s.1 (max (permAt r (A.I l)) (permAt r j))
          (s.1 (max (permAt r (A.I l)) (permAt r j)) + 1),
       Function.update s.2.1 (s.1 (max (permAt r (A.I l)) (permAt r j)))
          (min (permAt r (A.I l)) (permAt r j)),
       Function.update s.2.2 (s.1 (max (permAt r (A.I l)) (permAt r j))) (A.C l))) s
  have h2 : permScatter m r A.J A.I A.C s = _ := h
  rw [h2, List.foldl_map]
  apply foldl_proj
  intro s e
  exact zipState_step s _ _ _

theorem permItem_key_lt (m : Nat) (r : Option IdxArr) (A : Csc) (hr : PermOK m r)
    (hA : RowsOK m A) : ∀ x ∈ (entries m A.J).map (permItem r A), x.1 < m := by
  intro x hx
  rw [List.mem_map] at hx
  obtain ⟨e, he, rfl⟩ := hx
  rw [mem_entries] at he
  have h1 := hr.1 _ (hA e.1 he.1 e.2 he.2.1 he.2.2)
  have h2 := hr.1 _ he.1
  show max _ _ < m
  exact max_lt h1 h2

theorem permCount_val (m : Nat) (r : Option IdxArr) (A : Csc) (k : Nat) :
    permCount m r A.J A.I (fun _ => 0) k = cnt k ((entries m A.J).map (permItem r A)) := by
  rw [permCount_eq, count_fold]
  simp [cnt]

/-- Column `k` of the permuted matrix `Bm` lists the items filed under `k`,
in the order of the scan. -/
theorem permute_col (m : Nat) (r : Option IdxArr) (A : Csc) (hr : PermOK m r)
    (hA : RowsOK m A) (k : Nat) (hk : k < m) :
    colEntries (permute m r A) k =
      (((entries m A.J).map (permItem r A)).filter (fun x => decide (x.1 = k))).map Prod.snd := by
  have hb := bucket_pass m ((entries m A.J).map (permItem r A))
    (permCount m r A.J A.I (fun _ => 0)) (fun _ => 0) (fun _ => ((0 : Nat), (0 : ℚ)))
    (fun k _ => permCount_val m r A k) (permItem_key_lt m r A hr hA) k hk
  rw [← hb]
  unfold colEntries permute
  simp only
  have hz := permScatter_eq m r A
    ((cumsum2Core (fun _ => 0) (permCount m r A.J A.I fun _ => 0) m).2, fun _ => 0, fun _ => 0)
  have hz0 : zipState ((cumsum2Core (fun _ => 0) (permCount m r A.J A.I fun _ => 0) m).2,
      fun _ => 0, fun _ => 0) =
      ((cumsum2Core (fun _ => 0) (permCount m r A.J A.I fun _ => 0) m).2,
        fun _ => ((0 : Nat), (0 : ℚ))) := rfl
  rw [hz0] at hz
  rw [← hz]
  rfl

theorem permute_ptr (m : Nat) (r : Option IdxArr) (A : Csc) :
    PtrOK m (permute m r A).J := by
  constructor
  · exact bucket_ptr_zero m _ _
  · intro j hj
    show (cumsum2Core _ _ m).1 j ≤ (cumsum2Core _ _ m).1 (j + 1)
    rw [bucket_ptr_succ m _ _ j hj]
    omega

theorem permute_last (m : Nat) (r : Option IdxArr) (A : Csc) (hr : PermOK m r)
    (hA : RowsOK m A) (hJ : PtrOK m A.J) : (permute m r A).J m = A.J m := by
  have h := bucket_ptr_last m ((entries m A.J).map (permItem r A))
    (permCount m r A.J A.I (fun _ => 0)) (fun _ => 0)
    (fun k _ => permCount_val m r A k) (permItem_key_lt m r A hr hA)
  rw [List.length_map, entries_length m A.J hJ] at h
  exact h

theorem forUp_zero_eq_foldl {σ : Type} (n : Nat) (body : Nat → σ → σ) (s : σ) :
    forUp 0 n body s = (List.range n).foldl (fun s i => body i s) s := by
  unfold forUp
  rw [Nat.sub_zero, ← List.range_eq_range']

theorem slotCount_eq (m : Nat) (B : Csc) (hB : PtrOK m B.J) (k : Nat) :
    forUp 0 (B.J m) (fun i (w : IdxArr) => Function.update w (B.I i) (w (B.I i) + 1))
      (fun _ => 0) k = cnt k ((entries m B.J).map (transItem B)) := by
  rw [forUp_zero_eq_foldl, ← entries_map_snd m B.J hB.1 hB.2, List.foldl_map]
  have h := count_fold (((entries m B.J).map (transItem B)).map Prod.fst) (fun _ => 0) k
  rw [List.map_map, List.foldl_map] at h
  simp only [Nat.zero_add] at h
  unfold cnt
  rw [List.map_map]
  exact h

theorem transItem_key_lt (m : Nat) (B : Csc) (hB : RowsOK m B) :
    ∀ x ∈ (entries m B.J).map (transItem B), x.1 < m := by
  intro x hx
  rw [List.mem_map] at hx
  obtain ⟨e, he, rfl⟩ := hx
  rw [mem_entries] at he
  exact hB e.1 he.1 e.2 he.2.1 he.2.2

theorem transScatter_eq (m : Nat) (B : Csc) (s : IdxArr × IdxArr × ValArr) :
    zipState (forUp 0 m (fun j s =>
      forUp (B.J j) (B.J (j + 1)) (fun i (s : IdxArr × IdxArr × ValArr) =>
        let l := s.1 (B.I i)
        (Function.update s.1 (B.I i) (s.1 (B.I i) + 1),
         Function.update s.2.1 l j,
         Function.update s.2.2 l (B.C i))) s) s) =
      ((entries m B.J).map (transItem B)).foldl scatStep (zipState s) := by
  have h := nested_forUp m B.J (fun j => B.J (j + 1))
    (fun j i (s : IdxArr × IdxArr × ValArr) =>
      (Function.update s.1 (B.I i) (s.1 (B.I i) + 1),
       Function.update s.2.1 (s.1 (B.I i)) j,
       Function.update s.2.2 (s.1 (B.I i)) (B.C i))) s
  rw [List.foldl_map]
  refine Eq.trans (congrArg zipState h) ?_
  apply foldl_proj
  intro s e
  exact zipState_step s _ _ _

/-- Column `a` of the transposed matrix lists the entries of `Bm` with row
`a`, in storage order, each with its column as the new row. -/
theorem transpose_col (m : Nat) (B A : Csc) (hJ : PtrOK m B.J) (hB : RowsOK m B)
    (a : Nat) (ha : a < m) :
    colEntries (transpose m B A) a =
      (((entries m B.J).map (transItem B)).filter (fun x => decide (x.1 = a))).map Prod.snd := by
  have hb := bucket_pass m ((entries m B.J).map (transItem B))
    (forUp 0 (B.J m) (fun i (w : IdxArr) => Function.update w (B.I i) (w (B.I i) + 1))
      (fun _ => 0)) A.J (fun l => (A.I l, A.C l))
    (fun k _ => slotCount_eq m B hJ k) (transItem_key_lt m B hB) a ha
  rw [← hb]
  unfold colEntries transpose
  simp only
  have hz := transScatter_eq m B
    ((cumsum2Core A.J (forUp 0 (B.J m)
      (fun i (w : IdxArr) => Function.update w (B.I i) (w (B.I i) + 1)) (fun _ => 0)) m).2,
      A.I, A.C)
  have hz0 : zipState ((cumsum2Core A.J (forUp 0 (B.J m)
      (fun i (w : IdxArr) => Function.update w (B.I i) (w (B.I i) + 1)) (fun _ => 0)) m).2,
      A.I, A.C) =
      ((cumsum2Core A.J (forUp 0 (B.J m)
      (fun i (w : IdxArr) => Function.update w (B.I i) (w (B.I i) + 1)) (fun _ => 0)) m).2,
        fun l => (A.I l, A.C l)) := rfl
  rw [hz0] at hz
  rw [← hz]
  rfl

theorem transpose_ptr (m : Nat) (B A : Csc) : PtrOK m (transpose m B A).J := by
  constructor
  · exact bucket_ptr_zero m _ _
  · intro j hj
    have h := bucket_ptr_succ m (forUp 0 (B.J m)
      (fun i (w : IdxArr) => Function.update w (B.I i) (w (B.I i) + 1)) (fun _ => 0)) A.J j hj
    have e : (transpose m B A).J = (cumsum2Core A.J (forUp 0 (B.J m)
      (fun i (w : IdxArr) => Function.update w (B.I i) (w (B.I i) + 1)) (fun _ => 0)) m).1 := rfl
    rw [e, h]
    exact Nat.le_add_right _ _

theorem transpose_last (m : Nat) (B A : Csc) (hJ : PtrOK m B.J) (hB : RowsOK m B) :
    (transpose m B A).J m = B.J m := by
  have h := bucket_ptr_last m ((entries m B.J).map (transItem B))
    (forUp 0 (B.J m) (fun i (w : IdxArr) => Function.update w (B.I i) (w (B.I i) + 1))
      (fun _ => 0)) A.J
    (fun k _ => slotCount_eq m B hJ k) (transItem_key_lt m B hB)
  rw [List.length_map, entries_length m B.J hJ] at h
  exact h

theorem loopPairs_filter_fst (m : Nat) (lo hi : IdxArr) (k : Nat) (hk : k < m) :
    (loopPairs m lo hi).filter (fun e => decide (e.1 = k)) =
      (List.range' (lo k) (hi k - lo k)).map (fun l => (k, l)) := by
  induction m with
  | zero => omega
  | succ n ih =>
    rw [loopPairs_succ, List.filter_append]
    rcases Nat.lt_or_ge k n with h | h
    · rw [ih h]
      have : ((List.range' (lo n) (hi n - lo n)).map (fun l => (n, l))).filter
          (fun e => decide (e.1 = k)) = [] := by
        rw [List.filter_eq_nil_iff]
        intro e he
        rw [List.mem_map] at he
        obtain ⟨l, _, rfl⟩ := he
        simp; omega
      rw [this, List.append_nil]
    · have hkn : k = n := by omega
      subst hkn
      have h1 : (loopPairs k lo hi).filter (fun e => decide (e.1 = k)) = [] := by
        rw [List.filter_eq_nil_iff]
        intro e he
        rw [mem_loopPairs] at he
        simp; omega
      have h2 : ((List.range' (lo k) (hi k - lo k)).map (fun l => (k, l))).filter
          (fun e => decide (e.1 = k)) = (List.range' (lo k) (hi k - lo k)).map (fun l => (k, l)) := by
        rw [List.filter_eq_self]
        intro e he
        rw [List.mem_map] at he
        obtain ⟨l, _, rfl⟩ := he
        simp
      rw [h1, h2, List.nil_append]

theorem stored_iff (A : Csc) (i j : Nat) (v : ℚ) :
    Stored A i j v ↔ ∃ l, A.J j ≤ l ∧ l < A.J (j + 1) ∧ A.I l = i ∧ A.C l = v := by
  unfold Stored colEntries
  rw [List.mem_map]
  constructor
  · rintro ⟨l, hl, he⟩
    rw [List.mem_range'_1] at hl
    rw [Prod.mk.injEq] at he
    exact ⟨l, hl.1, by omega, he.1, he.2⟩
  · rintro ⟨l, h1, h2, h3, h4⟩
    refine ⟨l, ?_, by rw [h3, h4]⟩
    rw [List.mem_range'_1]
    omega

theorem entries_nodup (m : Nat) (J : IdxArr) : (entries m J).Nodup := by
  unfold entries loopPairs
  rw [List.nodup_flatMap]
  constructor
  · intro j _
    apply List.Nodup.map
    · intro a b h
      exact (Prod.mk.injEq _ _ _ _ ▸ h).2
    · exact List.nodup_range' _ _
  · apply List.Pairwise.imp _ (List.nodup_range m)
    intro a b hab
    rw [Function.onFun, List.disjoint_left]
    intro e he he'
    rw [List.mem_map] at he he'
    obtain ⟨l, _, rfl⟩ := he
    obtain ⟨l', _, h⟩ := he'
    exact hab (Prod.mk.injEq _ _ _ _ ▸ h).1.symm

theorem permute_mem (m : Nat) (r : Option IdxArr) (A : Csc) (hr : PermOK m r)
    (hA : RowsOK m A) (k : Nat) (hk : k < m) (i : Nat) (v : ℚ) :
    Stored (permute m r A) i k v ↔
      ∃ e ∈ entries m A.J, max (permAt r (A.I e.2)) (permAt r e.1) = k ∧
        min (permAt r (A.I e.2)) (permAt r e.1) = i ∧ A.C e.2 = v := by
  unfold Stored
  rw [permute_col m r A hr hA k hk, List.mem_map]
  constructor
  · rintro ⟨x, hx, hx2⟩
    rw [List.mem_filter, List.mem_map] at hx
    obtain ⟨⟨e, he, rfl⟩, hk'⟩ := hx
    refine ⟨e, he, of_decide_eq_true hk', ?_⟩
    have := (Prod.mk.injEq _ _ _ _ ▸ hx2 : _ ∧ _)
    exact this
  · rintro ⟨e, he, h1, h2, h3⟩
    refine ⟨permItem r A e, ?_, ?_⟩
    · rw [List.mem_filter]
      exact ⟨List.mem_map_of_mem _ he, decide_eq_true h1⟩
    · show (min _ _, A.C e.2) = (i, v)
      rw [h2, h3]

theorem permute_rows (m : Nat) (r : Option IdxArr) (A : Csc) (hr : PermOK m r)
    (hA : RowsOK m A) : RowsOK m (permute m r A) := by
  intro k hk l h1 h2
  have hs : Stored (permute m r A) ((permute m r A).I l) k ((permute m r A).C l) :=
    (stored_iff _ _ _ _).mpr ⟨l, h1, h2, rfl, rfl⟩
  rw [permute_mem m r A hr hA k hk] at hs
  obtain ⟨e, he, h3, h4, _⟩ := hs
  rw [← h4]
  have : min (permAt r (A.I e.2)) (permAt r e.1) ≤ max (permAt r (A.I e.2)) (permAt r e.1) :=
    le_trans (min_le_left _ _) (le_max_left _ _)
  omega

theorem transpose_mem (m : Nat) (B A : Csc) (hJ : PtrOK m B.J) (hB : RowsOK m B)
    (a : Nat) (ha : a < m) (i : Nat) (v : ℚ) :
    Stored (transpose m B A) i a v ↔ i < m ∧ Stored B a i v := by
  unfold Stored
  rw [transpose_col m B A hJ hB a ha, List.mem_map]
  constructor
  · rintro ⟨x, hx, hx2⟩
    rw [List.mem_filter, List.mem_map] at hx
    obtain ⟨⟨e, he, rfl⟩, hk'⟩ := hx
    have hk2 : B.I e.2 = a := of_decide_eq_true hk'
    have hx3 : e.1 = i ∧ B.C e.2 = v := (Prod.mk.injEq _ _ _ _ ▸ hx2 : _ ∧ _)
    rw [mem_entries] at he
    rw [← hx3.1]
    refine ⟨he.1, ?_⟩
    exact (stored_iff B a e.1 v).mpr ⟨e.2, he.2.1, he.2.2, hk2, hx3.2⟩
  · rintro ⟨hi, hs⟩
    obtain ⟨l, h1, h2, h3, h4⟩ := (stored_iff B a i v).mp hs
    refine ⟨transItem B (i, l), ?_, ?_⟩
    · rw [List.mem_filter]
      refine ⟨List.mem_map_of_mem _ (mem_entries.mpr ⟨hi, h1, h2⟩), decide_eq_true h3⟩
    · show (i, B.C l) = (i, v)
      rw [h4]

/-- Membership in the result of the permute-then-transpose step. -/
theorem permuteTranspose_mem (m : Nat) (r : Option IdxArr) (A : Csc) (hr : PermOK m r)
    (hA : RowsOK m A) (a : Nat) (ha : a < m) (i : Nat) (v : ℚ) :
    Stored (permuteTranspose m r A) i a v ↔
      ∃ j l, j < m ∧ A.J j ≤ l ∧ l < A.J (j + 1) ∧
        max (permAt r (A.I l)) (permAt r j) = i ∧
        min (permAt r (A.I l)) (permAt r j) = a ∧ A.C l = v := by
  unfold permuteTranspose
  rw [transpose_mem m _ A (permute_ptr m r A) (permute_rows m r A hr hA) a ha]
  constructor
  · rintro ⟨hi, hs⟩
    rw [permute_mem m r A hr hA i hi] at hs
    obtain ⟨e, he, h1, h2, h3⟩ := hs
    rw [mem_entries] at he
    exact ⟨e.1, e.2, he.1, he.2.1, he.2.2, h1, h2, h3⟩
  · rintro ⟨j, l, hj, h1, h2, h3, h4, h5⟩
    have hi : i < m := by
      rw [← h3]
      exact max_lt (hr.1 _ (hA j hj l h1 h2)) (hr.1 _ hj)
    refine ⟨hi, ?_⟩
    rw [permute_mem m r A hr hA i hi]
    exact ⟨(j, l), mem_entries.mpr ⟨hj, h1, h2⟩, h3, h4, h5⟩

theorem permuteTranspose_ptr (m : Nat) (r : Option IdxArr) (A : Csc) :
    PtrOK m (permuteTranspose m r A).J := transpose_ptr m _ A

theorem permuteTranspose_last (m : Nat) (r : Option IdxArr) (A : Csc) (hr : PermOK m r)
    (hA : RowsOK m A) (hJ : PtrOK m A.J) : (permuteTranspose m r A).J m = A.J m := by
  unfold permuteTranspose
  rw [transpose_last m _ A (permute_ptr m r A) (permute_rows m r A hr hA),
    permute_last m r A hr hA hJ]

theorem max_min_pair {a b c d : Nat} (h1 : max a b = max c d) (h2 : min a b = min c d) :
    (a = c ∧ b = d) ∨ (a = d ∧ b = c) := by
  omega

theorem pairwise_map_range' {β : Type} (R : β → β → Prop) (f : Nat → β) (s n : Nat) :
    List.Pairwise R ((List.range' s n).map f) ↔
      ∀ l l', s ≤ l → l < l' → l' < s + n → R (f l) (f l') := by
  induction n generalizing s with
  | zero =>
    simp only [List.range'_zero, List.map_nil, List.Pairwise.nil, true_iff]
    intro l l' h1 h2 h3; omega
  | succ n ih =>
    rw [List.range'_succ, List.map_cons, List.pairwise_cons, ih]
    constructor
    · rintro ⟨h1, h2⟩ l l' hl hll hl'
      rcases Nat.eq_or_lt_of_le hl with e | e
      · subst e
        apply h1
        rw [List.mem_map]
        exact ⟨l', List.mem_range'_1.mpr ⟨by omega, by omega⟩, rfl⟩
      · exact h2 l l' e hll (by omega)
    · intro h
      constructor
      · intro b hb
        rw [List.mem_map] at hb
        obtain ⟨l', hl', rfl⟩ := hb
        rw [List.mem_range'_1] at hl'
        exact h s l' (le_refl _) (by omega) (by omega)
      · intro l l' h1 h2 h3
        exact h l l' (by omega) h2 (by omega)

theorem permKey_inj (m : Nat) (r : Option IdxArr) (A : Csc) (hr : PermOK m r)
    (hA : RowsOK m A) (hL : LowerTri m A) (hD : RowsDistinct m A)
    (e e' : Nat × Nat) (he : e ∈ entries m A.J) (he' : e' ∈ entries m A.J)
    (h1 : max (permAt r (A.I e.2)) (permAt r e.1) = max (permAt r (A.I e'.2)) (permAt r e'.1))
    (h2 : min (permAt r (A.I e.2)) (permAt r e.1) = min (permAt r (A.I e'.2)) (permAt r e'.1)) :
    e = e' := by
  rw [mem_entries] at he he'
  have hi := hA e.1 he.1 e.2 he.2.1 he.2.2
  have hi' := hA e'.1 he'.1 e'.2 he'.2.1 he'.2.2
  have hl := hL e.1 he.1 e.2 he.2.1 he.2.2
  have hl' := hL e'.1 he'.1 e'.2 he'.2.1 he'.2.2
  have key : A.I e.2 = A.I e'.2 ∧ e.1 = e'.1 := by
    rcases max_min_pair h1 h2 with ⟨q1, q2⟩ | ⟨q1, q2⟩
    · exact ⟨hr.2 _ hi _ hi' q1, hr.2 _ he.1 _ he'.1 q2⟩
    · have a1 := hr.2 _ hi _ he'.1 q1
      have a2 := hr.2 _ he.1 _ hi' q2
      constructor <;> omega
  have hc : e.1 = e'.1 := key.2
  have hs : e.2 = e'.2 := by
    apply hD e.1 he.1 e.2 e'.2 he.2.1 he.2.2 _ _ key.1
    · rw [hc]; exact he'.2.1
    · rw [hc]; exact he'.2.2
  exact Prod.ext hc hs

theorem permute_distinct (m : Nat) (r : Option IdxArr) (A : Csc) (hr : PermOK m r)
    (hA : RowsOK m A) (hL : LowerTri m A) (hD : RowsDistinct m A) :
    RowsDistinct m (permute m r A) := by
  intro k hk
  have hnd : ((colEntries (permute m r A) k).map Prod.fst).Nodup := by
    rw [permute_col m r A hr hA k hk, List.filter_map, List.map_map, List.map_map]
    apply List.Nodup.map_on
    · intro e he e' he' h
      rw [List.mem_filter] at he he'
      have k1 : max (permAt r (A.I e.2)) (permAt r e.1) = k := of_decide_eq_true he.2
      have k2 : max (permAt r (A.I e'.2)) (permAt r e'.1) = k := of_decide_eq_true he'.2
      exact permKey_inj m r A hr hA hL hD e e' he.1 he'.1 (k1.trans k2.symm) h
    · exact List.Nodup.filter _ (entries_nodup m A.J)
  unfold colEntries at hnd
  rw [List.map_map] at hnd
  intro l l' h1 h2 h3 h4 h5
  apply List.inj_on_of_nodup_map hnd
  · rw [List.mem_range'_1]; omega
  · rw [List.mem_range'_1]; omega
  · exact h5

/-- Within every column of the transposed matrix the rows strictly ascend. -/
theorem transpose_sorted (m : Nat) (B A : Csc) (hJ : PtrOK m B.J) (hB : RowsOK m B)
    (hD : RowsDistinct m B) (a : Nat) (ha : a < m) :
    List.Pairwise (fun x y => x < y) ((colEntries (transpose m B A) a).map Prod.fst) := by
  rw [transpose_col m B A hJ hB a ha, List.filter_map, List.map_map, List.map_map,
    List.pairwise_map]
  have e : ((fun (x : Nat × (Nat × ℚ)) => decide (x.1 = a)) ∘ transItem B) =
      fun e => decide (B.I e.2 = a) := rfl
  rw [e, List.pairwise_filter]
  unfold entries loopPairs
  rw [List.pairwise_flatMap]
  constructor
  · intro j hj
    rw [List.mem_range] at hj
    rw [List.pairwise_map]
    apply List.Pairwise.imp_of_mem _ (List.pairwise_lt_range' (B.J j) (B.J (j + 1) - B.J j))
    intro l l' hl hl' hlt p1 p2
    rw [List.mem_range'_1] at hl hl'
    have q1 : B.I l = a := p1
    have q2 : B.I l' = a := p2
    have := hD j hj l l' hl.1 (by omega) hl'.1 (by omega) (q1.trans q2.symm)
    omega
  · apply List.Pairwise.imp _ (List.pairwise_lt_range m)
    intro j j' hjj e he e' he' _ _
    rw [List.mem_map] at he he'
    obtain ⟨l, _, rfl⟩ := he
    obtain ⟨l', _, rfl⟩ := he'
    exact hjj

theorem SortedLower.rowsOK {m : Nat} {A : Csc} (h : SortedLower m A) : RowsOK m A := by
  intro j hj l h1 h2
  rcases Nat.eq_or_lt_of_le h1 with e | e
  · rw [← e, (h.diag j hj).2]; exact hj
  · exact (h.below j hj l e h2).2

theorem SortedLower.lowerTri {m : Nat} {A : Csc} (h : SortedLower m A) : LowerTri m A := by
  intro j hj l h1 h2
  rcases Nat.eq_or_lt_of_le h1 with e | e
  · rw [← e, (h.diag j hj).2]
  · exact Nat.le_of_lt (h.below j hj l e h2).1

theorem SortedLower.hasDiag {m : Nat} {A : Csc} (h : SortedLower m A) : HasDiag m A := by
  intro j hj
  exact ⟨A.J j, le_refl _, (h.diag j hj).1, (h.diag j hj).2⟩

theorem SortedLower.strict {m : Nat} {A : Csc} (h : SortedLower m A) (j : Nat) (hj : j < m)
    (l l' : Nat) (h1 : A.J j ≤ l) (h2 : l < l') (h3 : l' < A.J (j + 1)) : A.I l < A.I l' := by
  obtain ⟨d, rfl⟩ : ∃ d, l' = l + 1 + d := ⟨l' - (l + 1), by omega⟩
  clear h2
  induction d with
  | zero =>
    rcases Nat.eq_or_lt_of_le h1 with e | e
    · have hd : A.I l = j := by rw [← e]; exact (h.diag j hj).2
      rw [hd]
      exact (h.below j hj _ (by omega) h3).1
    · exact h.asc j hj l e h3
  | succ d ih =>
    have := ih (by omega)
    have := h.asc j hj (l + 1 + d) (by omega) (by omega)
    have e : l + 1 + (d + 1) = l + 1 + d + 1 := by omega
    rw [e]
    omega

theorem SortedLower.distinct {m : Nat} {A : Csc} (h : SortedLower m A) : RowsDistinct m A := by
  intro j hj l l' h1 h2 h3 h4 h5
  rcases Nat.lt_trichotomy l l' with q | q | q
  · have := h.strict j hj l l' h1 q h4; omega
  · exact q
  · have := h.strict j hj l' l h3 q h2; omega

theorem perm_surj (m : Nat) (r : Option IdxArr) (hr : PermOK m r) (a : Nat) (ha : a < m) :
    ∃ j < m, permAt r j = a := by
  have himg : (Finset.range m).image (permAt r) = Finset.range m := by
    apply Finset.eq_of_subset_of_card_le
    · intro x hx
      rw [Finset.mem_image] at hx
      obtain ⟨j, hj, rfl⟩ := hx
      exact Finset.mem_range.mpr (hr.1 j (Finset.mem_range.mp hj))
    · rw [Finset.card_image_of_injOn]
      intro x hx y hy hxy
      exact hr.2 x (Finset.mem_range.mp hx) y (Finset.mem_range.mp hy) hxy
  have : a ∈ (Finset.range m).image (permAt r) := by
    rw [himg]; exact Finset.mem_range.mpr ha
  rw [Finset.mem_image] at this
  obtain ⟨j, hj, h⟩ := this
  exact ⟨j, Finset.mem_range.mp hj, h⟩

/-- The result of the permute-then-transpose step is again lower triangular
with sorted columns, each starting with its diagonal entry. -/
theorem permuteTranspose_sortedLower (m : Nat) (r : Option IdxArr) (A : Csc) (hr : PermOK m r)
    (hA : RowsOK m A) (hL : LowerTri m A) (hD : RowsDistinct m A) (hG : HasDiag m A) :
    SortedLower m (permuteTranspose m r A) := by
  have hB := permute_rows m r A hr hA
  have hBJ := permute_ptr m r A
  have hBD := permute_distinct m r A hr hA hL hD
  have hptr := permuteTranspose_ptr m r A
  -- every stored row is at least the column and below `m`
  have hrow : ∀ a < m, ∀ l, (permuteTranspose m r A).J a ≤ l →
      l < (permuteTranspose m r A).J (a + 1) →
      a ≤ (permuteTranspose m r A).I l ∧ (permuteTranspose m r A).I l < m := by
    intro a ha l h1 h2
    have hs : Stored (permuteTranspose m r A) ((permuteTranspose m r A).I l) a
        ((permuteTranspose m r A).C l) := (stored_iff _ _ _ _).mpr ⟨l, h1, h2, rfl, rfl⟩
    rw [permuteTranspose_mem m r A hr hA a ha] at hs
    obtain ⟨j, s, hj, s1, s2, e1, e2, _⟩ := hs
    have b1 := hr.1 _ (hA j hj s s1 s2)
    have b2 := hr.1 _ hj
    omega
  -- strictly ascending rows
  have hsort : ∀ a < m, ∀ l l', (permuteTranspose m r A).J a ≤ l → l < l' →
      l' < (permuteTranspose m r A).J (a + 1) →
      (permuteTranspose m r A).I l < (permuteTranspose m r A).I l' := by
    intro a ha l l' h1 h2 h3
    have hp := transpose_sorted m (permute m r A) A hBJ hB hBD a ha
    have e : (colEntries (transpose m (permute m r A) A) a).map Prod.fst =
        (List.range' ((permuteTranspose m r A).J a)
          ((permuteTranspose m r A).J (a + 1) - (permuteTranspose m r A).J a)).map
          (permuteTranspose m r A).I := by
      unfold colEntries permuteTranspose
      rw [List.map_map]
      rfl
    rw [e, pairwise_map_range'] at hp
    exact hp l l' h1 h2 (by omega)
  -- the diagonal is stored
  have hdiag : ∀ a < m, ∃ l, (permuteTranspose m r A).J a ≤ l ∧
      l < (permuteTranspose m r A).J (a + 1) ∧ (permuteTranspose m r A).I l = a := by
    intro a ha
    obtain ⟨j, hj, hja⟩ := perm_surj m r hr a ha
    obtain ⟨s, s1, s2, s3⟩ := hG j hj
    have hs : Stored (permuteTranspose m r A) a a (A.C s) := by
      rw [permuteTranspose_mem m r A hr hA a ha]
      refine ⟨j, s, hj, s1, s2, ?_, ?_, rfl⟩
      · rw [s3, hja]; exact max_self a
      · rw [s3, hja]; exact min_self a
    obtain ⟨l, l1, l2, l3, _⟩ := (stored_iff _ _ _ _).mp hs
    exact ⟨l, l1, l2, l3⟩
  have hfirst : ∀ a < m, (permuteTranspose m r A).J a < (permuteTranspose m r A).J (a + 1) ∧
      (permuteTranspose m r A).I ((permuteTranspose m r A).J a) = a := by
    intro a ha
    obtain ⟨l, l1, l2, l3⟩ := hdiag a ha
    refine ⟨by omega, ?_⟩
    rcases Nat.eq_or_lt_of_le l1 with e | e
    · rw [e]; exact l3
    · have q1 := hsort a ha _ l (le_refl _) e l2
      have q2 := (hrow a ha _ (le_refl _) (by omega)).1
      omega
  refine ⟨hptr, hfirst, ?_, ?_⟩
  · intro a ha l h1 h2
    have q := hsort a ha _ l (le_refl _) h1 h2
    rw [(hfirst a ha).2] at q
    exact ⟨q, (hrow a ha l (by omega) h2).2⟩
  · intro a ha l h1 h2
    exact hsort a ha l (l + 1) (by omega) (by omega) h2

theorem forUp_tabulate {β : Type} (m : Nat) (f : Nat → β) (w0 : Nat → β) :
    forUp 0 m (fun k (w2 : Nat → β) => Function.update w2 k (f k)) w0 =
      fun k => if k < m then f k else w0 k := by
  induction m with
  | zero => rw [forUp_of_le _ _ (le_refl 0)]; funext k; simp
  | succ n ih =>
    rw [forUp_succ _ _ (Nat.zero_le n), ih]
    funext k
    by_cases h : k = n
    · subst h; simp
    · rw [Function.update_noteq h]
      by_cases h2 : k < n
      · simp [h2, Nat.lt_succ_of_lt h2]
      · have : ¬ k < n + 1 := by omega
        simp [h2, this]

theorem rowCounts_eq (m : Nat) (A : Csc) (hA : PtrOK m A.J) (k : Nat) :
    rowCounts A m k = cnt k ((entries m A.J).map (transItem A)) :=
  slotCount_eq m A hA k

theorem cnt_lower (m : Nat) (A : Csc) (k : Nat) (hk : k < m) :
    cnt k ((loopPairs m (fun j => A.J j + 1) (fun j => A.J (j + 1))).map (lowerItem A)) =
      A.J (k + 1) - (A.J k + 1) := by
  rw [cnt_eq_length_filter, List.filter_map, List.length_map]
  have e : ((fun (x : Nat × (Nat × ℚ)) => decide (x.1 = k)) ∘ lowerItem A) =
      fun e => decide (e.1 = k) := rfl
  rw [e, loopPairs_filter_fst m _ _ k hk]
  simp

theorem colCounts_eq (m : Nat) (A : Csc) (hA : PtrOK m A.J)
    (hne : ∀ j < m, A.J j < A.J (j + 1)) (k : Nat) (hk : k < m) :
    colCounts A m k = cnt k (fillItems m A) := by
  unfold colCounts fillItems
  rw [forUp_tabulate, cnt_append, cnt_lower m A k hk]
  simp only [hk, if_true]
  rw [rowCounts_eq m A hA k]
  have := hne k hk
  omega

theorem fillItems_key_lt (m : Nat) (A : Csc) (hR : RowsOK m A) :
    ∀ x ∈ fillItems m A, x.1 < m := by
  intro x hx
  unfold fillItems at hx
  rw [List.mem_append] at hx
  rcases hx with hx | hx
  · exact transItem_key_lt m A hR x hx
  · rw [List.mem_map] at hx
    obtain ⟨e, he, rfl⟩ := hx
    exact (mem_loopPairs.mp he).1

theorem fillUpper_eq (m : Nat) (A : Csc) (s : IdxArr × IdxArr × ValArr) :
    zipState (fillUpper m A s) =
      ((entries m A.J).map (transItem A)).foldl scatStep (zipState s) :=
  transScatter_eq m A s

theorem fillLower_eq (m : Nat) (A : Csc) (s : IdxArr × IdxArr × ValArr) :
    zipState (fillLower m A s) =
      ((loopPairs m (fun j => A.J j + 1) (fun j => A.J (j + 1))).map (lowerItem A)).foldl
        scatStep (zipState s) := by
  have h := nested_forUp m (fun j => A.J j + 1) (fun j => A.J (j + 1))
    (fun j k (s : IdxArr × IdxArr × ValArr) =>
      (Function.update s.1 j (s.1 j + 1),
       Function.update s.2.1 (s.1 j) (A.I k),
       Function.update s.2.2 (s.1 j) (A.C k))) s
  rw [List.foldl_map]
  refine Eq.trans (congrArg zipState h) ?_
  apply foldl_proj
  intro s e
  exact zipState_step s _ _ _

theorem fill_eq (m : Nat) (A : Csc) (s : IdxArr × IdxArr × ValArr) :
    zipState (fillLower m A (fillUpper m A s)) = (fillItems m A).foldl scatStep (zipState s) := by
  unfold fillItems
  rw [fillLower_eq, fillUpper_eq, List.foldl_append]

/-- Column `b` of the expanded matrix: first the entries of the lower
triangle with row `b` (mirrored), then the sub-diagonal entries of column `b`. -/
theorem expand_col (m nnz : Nat) (A : Csc) (hA : PtrOK m A.J) (hR : RowsOK m A)
    (hne : ∀ j < m, A.J j < A.J (j + 1)) (b : Nat) (hb : b < m) :
    colEntries (expand m nnz A).Z b =
      (((entries m A.J).map (transItem A)).filter (fun x => decide (x.1 = b))).map Prod.snd ++
        (List.range' (A.J b + 1) (A.J (b + 1) - (A.J b + 1))).map (fun l => (A.I l, A.C l)) := by
  have hbp := bucket_pass m (fillItems m A) (colCounts A m) (fun _ => 0)
    (fun _ => ((0 : Nat), (0 : ℚ)))
    (fun k hk => colCounts_eq m A hA hne k hk) (fillItems_key_lt m A hR) b hb
  have hz := fill_eq m A ((cumsum2Core (fun _ => 0) (colCounts A m) m).2, fun _ => 0, fun _ => 0)
  have hz0 : zipState ((cumsum2Core (fun _ => 0) (colCounts A m) m).2, fun _ => 0, fun _ => 0) =
      ((cumsum2Core (fun _ => 0) (colCounts A m) m).2, fun _ => ((0 : Nat), (0 : ℚ))) := rfl
  rw [hz0] at hz
  rw [← hz] at hbp
  have e1 : colEntries (expand m nnz A).Z b = _ := hbp
  rw [e1]
  unfold fillItems
  rw [List.filter_append, List.map_append]
  congr 1
  rw [List.filter_map, List.map_map]
  have e : ((fun (x : Nat × (Nat × ℚ)) => decide (x.1 = b)) ∘ lowerItem A) =
      fun e => decide (e.1 = b) := rfl
  rw [e, loopPairs_filter_fst m _ _ b hb, List.map_map]
  rfl

theorem lower_length (m : Nat) (J : IdxArr) (h0 : J 0 = 0) (hne : ∀ j < m, J j < J (j + 1)) :
    (loopPairs m (fun j => J j + 1) (fun j => J (j + 1))).length + m = J m := by
  induction m with
  | zero => simp [loopPairs, h0]
  | succ n ih =>
    rw [loopPairs_succ, List.length_append, List.length_map, List.length_range']
    have := ih (fun j hj => hne j (Nat.lt_succ_of_lt hj))
    have := hne n (Nat.lt_succ_self n)
    omega

theorem expand_last (m nnz : Nat) (A : Csc) (hA : PtrOK m A.J) (hR : RowsOK m A)
    (hne : ∀ j < m, A.J j < A.J (j + 1)) :
    (expand m nnz A).Z.J m = 2 * A.J m - m := by
  have h := bucket_ptr_last m (fillItems m A) (colCounts A m) (fun _ => 0)
    (fun k hk => colCounts_eq m A hA hne k hk) (fillItems_key_lt m A hR)
  have e : (expand m nnz A).Z.J m = _ := h
  rw [e]
  unfold fillItems
  rw [List.length_append, List.length_map, List.length_map, entries_length m A.J hA]
  have := lower_length m A.J hA.1 hne
  omega

theorem expand_ptr_high (m nnz : Nat) (A : Csc) (b : Nat) (hb : m < b) :
    (expand m nnz A).Z.J b = 0 := by
  have e : (expand m nnz A).Z.J b = (cumsum2Core (fun _ => 0) (colCounts A m) m).1 b := rfl
  rw [e, cumsum2Core_fst]
  have : ¬ b ≤ m := by omega
  simp [this]

theorem expand_col_high (m nnz : Nat) (A : Csc) (b : Nat) (hb : m ≤ b) :
    colEntries (expand m nnz A).Z b = [] := by
  unfold colEntries
  rw [expand_ptr_high m nnz A (b + 1) (by omega)]
  simp

theorem expand_mem_lt (m nnz : Nat) (A : Csc) (hS : SortedLower m A) (a b : Nat) (hb : b < m)
    (v : ℚ) :
    Stored (expand m nnz A).Z a b v ↔ (a < m ∧ Stored A b a v) ∨ Stored A a b v := by
  have hne : ∀ j < m, A.J j < A.J (j + 1) := fun j hj => (hS.diag j hj).1
  have hup : ∀ x, x ∈ (((entries m A.J).map (transItem A)).filter
      (fun x => decide (x.1 = b))).map Prod.snd ↔ Stored (transpose m A A) x.1 b x.2 := by
    intro x
    unfold Stored
    rw [transpose_col m A A hS.ptr hS.rowsOK b hb]
  unfold Stored at hup ⊢
  rw [expand_col m nnz A hS.ptr hS.rowsOK hne b hb, List.mem_append, hup (a, v)]
  have ht := transpose_mem m A A hS.ptr hS.rowsOK b hb a v
  unfold Stored at ht
  rw [ht]
  constructor
  · rintro (h | h)
    · exact Or.inl h
    · right
      rw [List.mem_map] at h
      obtain ⟨l, hl, he⟩ := h
      rw [List.mem_range'_1] at hl
      have he2 : A.I l = a ∧ A.C l = v := (Prod.mk.injEq _ _ _ _ ▸ he : _ ∧ _)
      exact (stored_iff A a b v).mpr ⟨l, by omega, by omega, he2.1, he2.2⟩
  · rintro (h | h)
    · exact Or.inl h
    · obtain ⟨l, l1, l2, l3, l4⟩ := (stored_iff A a b v).mp h
      rcases Nat.eq_or_lt_of_le l1 with e | e
      · left
        have hab : a = b := by rw [← l3, ← e]; exact (hS.diag b hb).2
        subst hab
        exact ⟨hb, h⟩
      · right
        rw [List.mem_map]
        refine ⟨l, ?_, by rw [l3, l4]⟩
        rw [List.mem_range'_1]
        omega

/-- Membership in the expanded matrix: `(a, b)` is stored with value `v`
exactly when the lower triangle stores `v` at `(a, b)` or at `(b, a)`. -/
theorem expand_mem (m nnz : Nat) (A : Csc) (hS : SortedLower m A) (a b : Nat) (v : ℚ) :
    Stored (expand m nnz A).Z a b v ↔
      (a < m ∧ Stored A b a v) ∨ (b < m ∧ Stored A a b v) := by
  rcases Nat.lt_or_ge b m with hb | hb
  · rw [expand_mem_lt m nnz A hS a b hb v]
    constructor
    · rintro (h | h)
      · exact Or.inl h
      · exact Or.inr ⟨hb, h⟩
    · rintro (h | h)
      · exact Or.inl h
      · exact Or.inr h.2
  · constructor
    · intro h
      unfold Stored at h
      rw [expand_col_high m nnz A b hb] at h
      exact absurd h (List.not_mem_nil _)
    · rintro (h | h)
      · obtain ⟨l, l1, l2, l3, _⟩ := (stored_iff A b a v).mp h.2
        have := hS.rowsOK a h.1 l l1 l2
        omega
      · omega

theorem stored_unique (m : Nat) (A : Csc) (hS : SortedLower m A) (a b : Nat) (hb : b < m)
    (v v' : ℚ) (h : Stored A a b v) (h' : Stored A a b v') : v = v' := by
  obtain ⟨l, l1, l2, l3, l4⟩ := (stored_iff A a b v).mp h
  obtain ⟨l', k1, k2, k3, k4⟩ := (stored_iff A a b v').mp h'
  have := hS.distinct b hb l l' l1 l2 k1 k2 (l3.trans k3.symm)
  subst this
  exact l4.symm.trans k4

theorem stored_lower (m : Nat) (A : Csc) (hS : SortedLower m A) (a b : Nat) (hb : b < m)
    (v : ℚ) (h : Stored A a b v) : b ≤ a ∧ a < m := by
  obtain ⟨l, l1, l2, l3, _⟩ := (stored_iff A a b v).mp h
  have h1 := hS.lowerTri b hb l l1 l2
  have h2 := hS.rowsOK b hb l l1 l2
  omega

theorem expand_unique (m nnz : Nat) (A : Csc) (hS : SortedLower m A) (a b : Nat) (v v' : ℚ)
    (h : Stored (expand m nnz A).Z a b v) (h' : Stored (expand m nnz A).Z a b v') : v = v' := by
  rw [expand_mem m nnz A hS] at h h'
  rcases h with h | h <;> rcases h' with h' | h'
  · exact stored_unique m A hS b a h.1 v v' h.2 h'.2
  · have q1 := stored_lower m A hS b a h.1 v h.2
    have q2 := stored_lower m A hS a b h'.1 v' h'.2
    have e : a = b := by omega
    subst e
    exact stored_unique m A hS a a h.1 v v' h.2 h'.2
  · have q1 := stored_lower m A hS a b h.1 v h.2
    have q2 := stored_lower m A hS b a h'.1 v' h'.2
    have e : a = b := by omega
    subst e
    exact stored_unique m A hS a a h.1 v v' h.2 h'.2
  · exact stored_unique m A hS a b h.1 v v' h.2 h'.2

theorem expand_cursor (m nnz : Nat) (A : Csc) (hA : PtrOK m A.J)
    (hne : ∀ j < m, A.J j < A.J (j + 1)) (k : Nat) (hk : k < m) :
    (fillLower m A (fillUpper m A
      ((cumsum2Core (fun _ => 0) (colCounts A m) m).2, fun _ => 0, fun _ => 0))).1 k =
      (expand m nnz A).Z.J (k + 1) := by
  have hz := fill_eq m A ((cumsum2Core (fun _ => 0) (colCounts A m) m).2, fun _ => 0, fun _ => 0)
  have e1 : (fillLower m A (fillUpper m A
      ((cumsum2Core (fun _ => 0) (colCounts A m) m).2, fun _ => 0, fun _ => 0))).1 =
      (zipState (fillLower m A (fillUpper m A
      ((cumsum2Core (fun _ => 0) (colCounts A m) m).2, fun _ => 0, fun _ => 0)))).1 := rfl
  rw [e1, hz]
  have hz0 : zipState ((cumsum2Core (fun _ => 0) (colCounts A m) m).2, fun _ => 0, fun _ => 0) =
      ((cumsum2Core (fun _ => 0) (colCounts A m) m).2, fun _ => ((0 : Nat), (0 : ℚ))) := rfl
  rw [hz0, scat_cursor]
  have e2 : (expand m nnz A).Z.J (k + 1) =
      (cumsum2Core (fun _ => 0) (colCounts A m) m).1 (k + 1) := rfl
  rw [e2, bucket_ptr_succ m _ _ k hk, cumsum2Core_snd, cumsum2Core_fst,
    ← colCounts_eq m A hA hne k hk]
  simp [hk, Nat.le_of_lt hk]

theorem forUp_inv {σ : Type} (P : Nat → σ → Prop) (lo hi : Nat) (h : lo ≤ hi)
    (body : Nat → σ → σ) (s : σ) (h0 : P lo s)
    (hstep : ∀ i s, lo ≤ i → i < hi → P i s → P (i + 1) (body i s)) :
    P hi (forUp lo hi body s) := by
  obtain ⟨d, rfl⟩ : ∃ d, hi = lo + d := ⟨hi - lo, by omega⟩
  clear h
  induction d with
  | zero => rw [Nat.add_zero, forUp_of_le _ _ (le_refl lo)]; exact h0
  | succ d ih =>
    have e : lo + (d + 1) = lo + d + 1 := by omega
    rw [e, forUp_succ _ _ (Nat.le_add_right lo d)]
    apply hstep _ _ (Nat.le_add_right lo d) (by omega)
    exact ih (fun i s h1 h2 => hstep i s h1 (by omega))

theorem sub_rows_mono (m : Nat) (A : Csc) (hS : SortedLower m A) (j : Nat) (hj : j < m)
    (h h' : Nat) (h1 : h < h') (h2 : h' < A.J (j + 1) - (A.J j + 1)) :
    A.I (A.J j + h + 1) < A.I (A.J j + h' + 1) :=
  hS.strict j hj _ _ (by omega) (by omega) (by omega)

theorem col_mono_le (m : Nat) (A : Csc) (hS : SortedLower m A) (c : Nat) (hc : c < m)
    (t t' : Nat) (h2 : t < A.J (c + 1)) (h3 : A.J c ≤ t') (h : A.I t < A.I t') : t < t' := by
  rcases Nat.lt_or_ge t t' with q | q
  · exact q
  · rcases Nat.eq_or_lt_of_le q with e | e
    · subst e; omega
    · have := hS.strict c hc t' t h3 e h2; omega

theorem scanInv_init (m : Nat) (A : Csc) (hS : SortedLower m A) (hF : FillClosed m A)
    (C : ValArr) (j : Nat) (hj : j < m) (k2 : Nat) (hk : k2 < A.J (j + 1) - (A.J j + 1))
    (Zt0 : ValArr) :
    ScanInv A C j k2 Zt0 (A.J (A.I (A.J j + 1 + k2))) (k2, Zt0) := by
  have hik := hS.below j hj (A.J j + 1 + k2) (by omega) (by omega)
  refine ⟨le_refl _, Nat.le_of_lt hk, ?_, ?_, ?_⟩
  · intro h' h1 h2; simp only at h2; omega
  · intro h' h1 h2
    simp only at h1
    rcases Nat.eq_or_lt_of_le h1 with e | e
    · refine ⟨A.J (A.I (A.J j + 1 + k2)), le_refl _, (hS.diag _ hik.2).1, ?_⟩
      rw [(hS.diag _ hik.2).2, ← e]
      congr 1; omega
    · obtain ⟨t, t1, t2, t3⟩ := hF j hj (A.J j + 1 + k2) (A.J j + h' + 1) (by omega) (by omega)
        (by omega)
      exact ⟨t, Nat.le_of_lt t2, t1, t3⟩
  · intro idx _; rfl

theorem scanInv_step (m : Nat) (A : Csc) (hS : SortedLower m A)
    (C : ValArr) (j : Nat) (hj : j + 1 < m) (k2 : Nat) (hk : k2 < A.J (j + 1) - (A.J j + 1))
    (Zt0 : ValArr) (x : Nat) (s : Nat × ValArr)
    (hx1 : A.J (A.I (A.J j + 1 + k2)) ≤ x) (hx2 : x < A.J (A.I (A.J j + 1 + k2) + 1))
    (hinv : ScanInv A C j k2 Zt0 x s) :
    ScanInv A C j k2 Zt0 (x + 1)
      (gatherScan A.I C (A.J j) (A.J (j + 1) - (A.J j + 1)) k2 x s) := by
  have hjm : j < m := by omega
  have hik := hS.below j hjm (A.J j + 1 + k2) (by omega) (by omega)
  obtain ⟨i1, i2, i3, i4, i5⟩ := hinv
  unfold gatherScan
  by_cases hmatch : A.I x = A.I (A.J j + s.1 + 1)
  · rw [if_pos hmatch]
    rcases Nat.lt_or_ge s.1 (A.J (j + 1) - (A.J j + 1)) with hlt | hge
    · -- a genuine match
      refine ⟨Nat.le_succ_of_le i1, hlt, ?_, ?_, ?_⟩
      · intro h' h1 h2
        simp only at h2 ⊢
        rcases Nat.lt_or_ge h' s.1 with q | q
        · obtain ⟨t, t1, t2, t3, t4⟩ := i3 h' h1 q
          refine ⟨t, t1, by omega, t3, ?_⟩
          have hne : h' + (A.J (j + 1) - (A.J j + 1)) * k2 ≠
              s.1 + (A.J (j + 1) - (A.J j + 1)) * k2 := by omega
          rw [Function.update_noteq hne]
          exact t4
        · have e : h' = s.1 := by omega
          subst e
          exact ⟨x, hx1, by omega, hmatch, by simp⟩
      · intro h' h1 h2
        simp only at h1
        obtain ⟨t, t1, t2, t3⟩ := i4 h' (by omega) h2
        refine ⟨t, ?_, t2, t3⟩
        have := sub_rows_mono m A hS j hjm s.1 h' (by omega) h2
        rcases Nat.eq_or_lt_of_le t1 with e | e
        · subst e; omega
        · omega
      · intro idx hidx
        simp only
        have hne : idx ≠ s.1 + (A.J (j + 1) - (A.J j + 1)) * k2 := hidx s.1 i1 hlt
        rw [Function.update_noteq hne]
        exact i5 idx hidx
    · -- all rows are matched: the comparand is the next diagonal
      exfalso
      have e : s.1 = A.J (j + 1) - (A.J j + 1) := by omega
      obtain ⟨t, t1, t2, t3, _⟩ := i3 k2 (le_refl _) (by omega)
      have hx := hS.strict _ hik.2 (A.J (A.I (A.J j + 1 + k2))) x (le_refl _) (by omega) hx2
      rw [(hS.diag _ hik.2).2] at hx
      have hd : A.I (A.J j + s.1 + 1) = j + 1 := by
        have : A.J j + s.1 + 1 = A.J (j + 1) := by omega
        rw [this]
        exact (hS.diag (j + 1) hj).2
      omega
  · rw [if_neg hmatch]
    refine ⟨i1, i2, ?_, ?_, i5⟩
    · intro h' h1 h2
      obtain ⟨t, t1, t2, t3, t4⟩ := i3 h' h1 h2
      exact ⟨t, t1, by omega, t3, t4⟩
    · intro h' h1 h2
      obtain ⟨t, t1, t2, t3⟩ := i4 h' h1 h2
      refine ⟨t, ?_, t2, t3⟩
      obtain ⟨u, u1, u2, u3⟩ := i4 s.1 (le_refl _) (by omega)
      have hux : u ≠ x := by
        intro e; subst e; exact hmatch u3
      rcases Nat.eq_or_lt_of_le h1 with e | e
      · have : t ≠ x := by
          intro q; subst q; rw [← e] at t3; exact hmatch t3
        omega
      · have hlt := sub_rows_mono m A hS j hjm s.1 h' e h2
        rw [← u3, ← t3] at hlt
        have := col_mono_le m A hS _ hik.2 u t u2 (by omega) hlt
        omega

theorem scan_post (m : Nat) (A : Csc) (hS : SortedLower m A) (hF : FillClosed m A)
    (C : ValArr) (j : Nat) (hj : j + 1 < m) (k2 : Nat) (hk : k2 < A.J (j + 1) - (A.J j + 1))
    (Zt0 : ValArr) :
    (∀ h', k2 ≤ h' → h' < A.J (j + 1) - (A.J j + 1) →
      ∃ t, A.J (A.I (A.J j + 1 + k2)) ≤ t ∧ t < A.J (A.I (A.J j + 1 + k2) + 1) ∧
        A.I t = A.I (A.J j + h' + 1) ∧
        (forUp (A.J (A.I (A.J j + 1 + k2))) (A.J (A.I (A.J j + 1 + k2) + 1) + 1)
          (gatherScan A.I C (A.J j) (A.J (j + 1) - (A.J j + 1)) k2) (k2, Zt0)).2
            (h' + (A.J (j + 1) - (A.J j + 1)) * k2) = C t) ∧
    (∀ idx, (∀ h', k2 ≤ h' → h' ≤ A.J (j + 1) - (A.J j + 1) →
        idx ≠ h' + (A.J (j + 1) - (A.J j + 1)) * k2) →
      (forUp (A.J (A.I (A.J j + 1 + k2))) (A.J (A.I (A.J j + 1 + k2) + 1) + 1)
          (gatherScan A.I C (A.J j) (A.J (j + 1) - (A.J j + 1)) k2) (k2, Zt0)).2 idx =
        Zt0 idx) := by
  have hjm : j < m := by omega
  have hik := hS.below j hjm (A.J j + 1 + k2) (by omega) (by omega)
  have hle : A.J (A.I (A.J j + 1 + k2)) ≤ A.J (A.I (A.J j + 1 + k2) + 1) := hS.ptr.2 _ hik.2
  rw [forUp_succ _ _ hle]
  have hinv := forUp_inv (ScanInv A C j k2 Zt0) _ _ hle
    (gatherScan A.I C (A.J j) (A.J (j + 1) - (A.J j + 1)) k2) (k2, Zt0)
    (scanInv_init m A hS hF C j hjm k2 hk Zt0)
    (fun x s h1 h2 h3 => scanInv_step m A hS C j hj k2 hk Zt0 x s h1 h2 h3)
  generalize forUp (A.J (A.I (A.J j + 1 + k2))) (A.J (A.I (A.J j + 1 + k2) + 1))
    (gatherScan A.I C (A.J j) (A.J (j + 1) - (A.J j + 1)) k2) (k2, Zt0) = s1 at hinv ⊢
  obtain ⟨i1, i2, i3, i4, i5⟩ := hinv
  have hfull : s1.1 = A.J (j + 1) - (A.J j + 1) := by
    rcases Nat.eq_or_lt_of_le i2 with e | e
    · exact e
    · obtain ⟨t, t1, t2, _⟩ := i4 s1.1 (le_refl _) e
      omega
  have hlast : ∀ idx, idx ≠ s1.1 + (A.J (j + 1) - (A.J j + 1)) * k2 →
      (gatherScan A.I C (A.J j) (A.J (j + 1) - (A.J j + 1)) k2
        (A.J (A.I (A.J j + 1 + k2) + 1)) s1).2 idx = s1.2 idx := by
    intro idx hidx
    unfold gatherScan
    by_cases hmatch : A.I (A.J (A.I (A.J j + 1 + k2) + 1)) = A.I (A.J j + s1.1 + 1)
    · rw [if_pos hmatch]
      simp only
      rw [Function.update_noteq hidx]
    · rw [if_neg hmatch]
  constructor
  · intro h' h1 h2
    obtain ⟨t, t1, t2, t3, t4⟩ := i3 h' h1 (by omega)
    refine ⟨t, t1, t2, t3, ?_⟩
    rw [hlast _ (by omega)]
    exact t4
  · intro idx hidx
    rw [hlast idx (by rw [hfull]; exact hidx _ (by omega) (le_refl _))]
    exact i5 idx (fun h' h1 h2 => hidx h' h1 (Nat.le_of_lt h2))

theorem slot_ne {n p q h' k2 : Nat} (hp : p < n) (hq : q < k2) :
    p + n * q ≠ h' + n * k2 := by
  have h1 : n * (q + 1) ≤ n * k2 := Nat.mul_le_mul_left n hq
  rw [Nat.mul_succ] at h1
  omega

/-- After the gather (lines 158-169) every entry of the lower triangle of
`Zt` holds the value stored at `(R[p], R[q])`. -/
theorem gather_post (m : Nat) (A : Csc) (hS : SortedLower m A) (hF : FillClosed m A)
    (C : ValArr) (j : Nat) (hj : j + 1 < m) (Zt0 : ValArr) (q p : Nat) (hqp : q ≤ p)
    (hp : p < A.J (j + 1) - (A.J j + 1)) :
    ∃ t, A.J (A.I (A.J j + q + 1)) ≤ t ∧ t < A.J (A.I (A.J j + q + 1) + 1) ∧
      A.I t = A.I (A.J j + p + 1) ∧
      gather A.J A.I C j (A.J (j + 1) - (A.J j + 1)) Zt0
        (p + (A.J (j + 1) - (A.J j + 1)) * q) = C t := by
  have hinv := forUp_inv
    (fun k (s : Nat × ValArr) => s.1 = k - (A.J j + 1) ∧
      ∀ q p, q < s.1 → q ≤ p → p < A.J (j + 1) - (A.J j + 1) →
        ∃ t, A.J (A.I (A.J j + q + 1)) ≤ t ∧ t < A.J (A.I (A.J j + q + 1) + 1) ∧
          A.I t = A.I (A.J j + p + 1) ∧
          s.2 (p + (A.J (j + 1) - (A.J j + 1)) * q) = C t)
    (A.J j + 1) (A.J (j + 1)) ((hS.diag j (by omega)).1)
    (gatherCol A.J A.I C j (A.J (j + 1) - (A.J j + 1))) (0, Zt0)
    ⟨by simp, fun q p h => absurd h (Nat.not_lt_zero q)⟩
    (by
      intro k s h1 h2 ⟨e1, e2⟩
      have hk : s.1 < A.J (j + 1) - (A.J j + 1) := by omega
      have ek : k = A.J j + 1 + s.1 := by omega
      have hsc := scan_post m A hS hF C j hj s.1 hk s.2
      rw [← ek] at hsc
      unfold gatherCol
      refine ⟨by simp only; omega, ?_⟩
      intro q p h3 h4 h5
      simp only at h3 ⊢
      rcases Nat.lt_or_ge q s.1 with h6 | h6
      · obtain ⟨t, t1, t2, t3, t4⟩ := e2 q p h6 h4 h5
        refine ⟨t, t1, t2, t3, ?_⟩
        rw [hsc.2 _ (fun h' _ _ => slot_ne h5 h6)]
        exact t4
      · have e : q = s.1 := by omega
        subst e
        obtain ⟨t, t1, t2, t3, t4⟩ := hsc.1 p h4 h5
        have ek' : A.J j + s.1 + 1 = k := by omega
        rw [ek']
        exact ⟨t, t1, t2, t3, t4⟩)
  exact hinv.2 q p (by rw [hinv.1]; omega) hqp hp

theorem writeBack_fold (a n : Nat) (zt C : ValArr) :
    ((List.range' a n).reverse.foldl
      (fun (s : Nat × ValArr) i => (s.1 - 1, Function.update s.2 i (- zt s.1))) (n - 1, C)).2 =
      fun x => if a ≤ x ∧ x < a + n then - zt (x - a) else C x := by
  induction n generalizing C with
  | zero =>
    funext x
    have h1 : ¬ (a ≤ x ∧ x < a + 0) := by omega
    rw [if_neg h1]
    rfl
  | succ n ih =>
    rw [List.range'_concat, List.reverse_append, List.reverse_singleton, List.singleton_append,
      List.foldl_cons]
    simp only [Nat.add_sub_cancel, Nat.one_mul]
    rw [ih]
    funext x
    by_cases h : x = a + n
    · subst h
      have h1 : ¬ (a ≤ a + n ∧ a + n < a + n) := by omega
      have h2 : a ≤ a + n ∧ a + n < a + (n + 1) := by omega
      rw [if_neg h1, if_pos h2]
      simp
    · rw [Function.update_noteq h]
      by_cases h3 : a ≤ x ∧ x < a + n
      · have h4 : a ≤ x ∧ x < a + (n + 1) := by omega
        rw [if_pos h3, if_pos h4]
      · have h4 : ¬ (a ≤ x ∧ x < a + (n + 1)) := by omega
        rw [if_neg h3, if_neg h4]

theorem writeBack_eq (J : IdxArr) (j : Nat) (zt C : ValArr) (x : Nat) :
    writeBack J j (J (j + 1) - (J j + 1)) zt C x =
      if J j + 1 ≤ x ∧ x < J j + 1 + (J (j + 1) - (J j + 1)) then - zt (x - (J j + 1))
      else C x := by
  unfold writeBack forDown
  have e : J (j + 1) - 1 - J j = J (j + 1) - (J j + 1) := by omega
  rw [e]
  have h := writeBack_fold (J j + 1) (J (j + 1) - (J j + 1)) zt C
  exact congrFun h x

theorem entryAt_slot (m : Nat) (A : Csc) (hS : SortedLower m A) (C : ValArr) (a b : Nat)
    (hb : b < m) (t : Nat) (h1 : A.J b ≤ t) (h2 : t < A.J (b + 1)) (h3 : A.I t = a) :
    entryAt A C a b = C t := by
  unfold entryAt
  cases h : (List.range' (A.J b) (A.J (b + 1) - A.J b)).find? (fun l => decide (A.I l = a)) with
  | none =>
    rw [List.find?_eq_none] at h
    have := h t (List.mem_range'_1.mpr ⟨h1, by omega⟩)
    simp [h3] at this
  | some l =>
    have hp0 := List.find?_some h
    have hp : A.I l = a := of_decide_eq_true hp0
    have hl := List.mem_range'_1.mp (List.mem_of_find?_eq_some h)
    have := hS.distinct b hb l t hl.1 (by omega) h1 h2 (hp.trans h3.symm)
    simp only
    rw [this]

theorem entryAt_congr (A : Csc) (C C' : ValArr) (a b : Nat)
    (h : ∀ x, A.J b ≤ x → x < A.J (b + 1) → C x = C' x) :
    entryAt A C a b = entryAt A C' a b := by
  unfold entryAt
  cases hf : (List.range' (A.J b) (A.J (b + 1) - A.J b)).find? (fun l => decide (A.I l = a)) with
  | none => rfl
  | some l =>
    have hl := List.mem_range'_1.mp (List.mem_of_find?_eq_some hf)
    exact h l hl.1 (by omega)

theorem ptr_mono (m : Nat) (J : IdxArr) (h : PtrOK m J) (a b : Nat) (hab : a ≤ b) (hb : b ≤ m) :
    J a ≤ J b := by
  obtain ⟨d, rfl⟩ : ∃ d, b = a + d := ⟨b - a, by omega⟩
  induction d with
  | zero => exact le_refl _
  | succ d ih =>
    have := ih (by omega) (by omega)
    have := h.2 (a + d) (by omega)
    have e : a + (d + 1) = a + d + 1 := by omega
    rw [e]; omega

theorem sub_rows_le (m : Nat) (A : Csc) (hS : SortedLower m A) (j : Nat) (hj : j < m)
    (p q : Nat) (h1 : p ≤ q) (h2 : q < A.J (j + 1) - (A.J j + 1)) :
    A.I (A.J j + p + 1) ≤ A.I (A.J j + q + 1) := by
  rcases Nat.eq_or_lt_of_le h1 with e | e
  · subst e; exact le_refl _
  · exact Nat.le_of_lt (sub_rows_mono m A hS j hj p q e h2)

theorem stepFil_eq (J : IdxArr) (j : Nat) (C fil0 : ValArr) (n i : Nat) :
    forUp 0 n (fun i (fil : ValArr) => Function.update fil i (C (J j + i + 1))) fil0 i =
      if i < n then C (J j + i + 1) else fil0 i := by
  rw [forUp_tabulate n (fun i => C (J j + i + 1)) fil0]

/-- The symmetric matrix read by `dsymv_` from the gathered `Zt` holds the
stored values at the positions `(max (R p) (R q), min (R p) (R q))`. -/
theorem gather_sym (m : Nat) (A : Csc) (hS : SortedLower m A) (hF : FillClosed m A)
    (C : ValArr) (j : Nat) (hj : j + 1 < m) (Zt0 : ValArr) (p q : Nat)
    (hp : p < A.J (j + 1) - (A.J j + 1)) (hq : q < A.J (j + 1) - (A.J j + 1)) :
    gather A.J A.I C j (A.J (j + 1) - (A.J j + 1)) Zt0
        (max p q + (A.J (j + 1) - (A.J j + 1)) * min p q) =
      entryAt A C (max (A.I (A.J j + p + 1)) (A.I (A.J j + q + 1)))
        (min (A.I (A.J j + p + 1)) (A.I (A.J j + q + 1))) := by
  have hjm : j < m := by omega
  rcases Nat.le_total p q with h | h
  · have hR := sub_rows_le m A hS j hjm p q h hq
    rw [max_eq_right h, min_eq_left h, max_eq_right hR, min_eq_left hR]
    obtain ⟨t, t1, t2, t3, t4⟩ := gather_post m A hS hF C j hj Zt0 p q h hq
    rw [t4]
    have hb := (hS.below j hjm (A.J j + p + 1) (by omega) (by omega)).2
    exact (entryAt_slot m A hS C _ _ hb t t1 t2 t3).symm
  · have hR := sub_rows_le m A hS j hjm q p h hp
    rw [max_eq_left h, min_eq_right h, max_eq_left hR, min_eq_right hR]
    obtain ⟨t, t1, t2, t3, t4⟩ := gather_post m A hS hF C j hj Zt0 q p h hp
    rw [t4]
    have hb := (hS.below j hjm (A.J j + q + 1) (by omega) (by omega)).2
    exact (entryAt_slot m A hS C _ _ hb t t1 t2 t3).symm

theorem recursionStep_frame (J I : IdxArr) (j : Nat) (s : RecState) (x : Nat)
    (hne : J j < J (j + 1)) (hx : ¬ (J j ≤ x ∧ x < J (j + 1))) :
    (recursionStep J I j s).C x = s.C x := by
  unfold recursionStep
  by_cases h : 0 < J (j + 1) - (J j + 1)
  · simp only [h, if_true]
    have h1 : x ≠ J j := by omega
    rw [Function.update_noteq h1, writeBack_eq]
    have h2 : ¬ (J j + 1 ≤ x ∧ x < J j + 1 + (J (j + 1) - (J j + 1))) := by omega
    rw [if_neg h2]
  · simp only [h, if_false]
    have h1 : x ≠ J j := by omega
    rw [Function.update_noteq h1]

theorem zt_eq (m : Nat) (A : Csc) (hS : SortedLower m A) (hF : FillClosed m A)
    (s : RecState) (j : Nat) (hj : j + 1 < m) (p : Nat) (hp : p < A.J (j + 1) - (A.J j + 1)) :
    dsymvLower (A.J (j + 1) - (A.J j + 1))
      (gather A.J A.I s.C j (A.J (j + 1) - (A.J j + 1)) s.Zt) (A.J (j + 1) - (A.J j + 1))
      (forUp 0 (A.J (j + 1) - (A.J j + 1))
        (fun i (fil : ValArr) => Function.update fil i (s.C (A.J j + i + 1))) s.fil) s.zt p =
      gatherW A s.C s.C j p := by
  unfold dsymvLower gatherW
  rw [if_pos hp]
  apply Finset.sum_congr rfl
  intro q hq
  rw [Finset.mem_range] at hq
  rw [gather_sym m A hS hF s.C j hj s.Zt p q hp hq, stepFil_eq, if_pos hq]

theorem recursionStep_sub (m : Nat) (A : Csc) (hS : SortedLower m A) (hF : FillClosed m A)
    (s : RecState) (j : Nat) (hj : j + 1 < m) (p : Nat) (hp : p < A.J (j + 1) - (A.J j + 1)) :
    (recursionStep A.J A.I j s).C (A.J j + p + 1) = - gatherW A s.C s.C j p := by
  unfold recursionStep
  have h : 0 < A.J (j + 1) - (A.J j + 1) := by omega
  simp only [h, if_true]
  have h1 : A.J j + p + 1 ≠ A.J j := by omega
  rw [Function.update_noteq h1, writeBack_eq]
  have h2 : A.J j + 1 ≤ A.J j + p + 1 ∧
      A.J j + p + 1 < A.J j + 1 + (A.J (j + 1) - (A.J j + 1)) := by omega
  have h3 : A.J j + p + 1 - (A.J j + 1) = p := by omega
  rw [if_pos h2, h3, zt_eq m A hS hF s j hj p hp]

theorem recursionStep_diag (m : Nat) (A : Csc) (hS : SortedLower m A) (hF : FillClosed m A)
    (s : RecState) (j : Nat) (hj : j + 1 < m) :
    (recursionStep A.J A.I j s).C (A.J j) = 1 / s.C (A.J j) +
      Finset.sum (Finset.range (A.J (j + 1) - (A.J j + 1)))
        (fun p => s.C (A.J j + p + 1) * gatherW A s.C s.C j p) := by
  unfold recursionStep
  by_cases h : 0 < A.J (j + 1) - (A.J j + 1)
  · simp only [h, if_true]
    rw [Function.update_same, writeBack_eq]
    have h2 : ¬ (A.J j + 1 ≤ A.J j ∧ A.J j < A.J j + 1 + (A.J (j + 1) - (A.J j + 1))) := by
      omega
    rw [if_neg h2]
    congr 1
    unfold dgemvRow
    rw [Function.update_same]
    apply Finset.sum_congr rfl
    intro p hp
    rw [Finset.mem_range] at hp
    rw [zt_eq m A hS hF s j hj p hp, stepFil_eq, if_pos hp]
  · simp only [h, if_false]
    rw [Function.update_same]
    have e : A.J (j + 1) - (A.J j + 1) = 0 := by omega
    rw [e]
    simp

theorem gatherW_congr (m : Nat) (A : Csc) (hS : SortedLower m A) (C0 C0' Z Z' : ValArr)
    (j : Nat) (hj : j < m) (p : Nat) (hp : p < A.J (j + 1) - (A.J j + 1))
    (h0 : ∀ x, A.J j < x → x < A.J (j + 1) → C0 x = C0' x)
    (hZ : ∀ x, A.J (j + 1) ≤ x → x < A.J m → Z x = Z' x) :
    gatherW A C0 Z j p = gatherW A C0' Z' j p := by
  unfold gatherW
  apply Finset.sum_congr rfl
  intro q hq
  rw [Finset.mem_range] at hq
  rw [h0 (A.J j + q + 1) (by omega) (by omega)]
  congr 1
  apply entryAt_congr
  intro x x1 x2
  have hb1 := hS.below j hj (A.J j + p + 1) (by omega) (by omega)
  have hb2 := hS.below j hj (A.J j + q + 1) (by omega) (by omega)
  have hmin : j + 1 ≤ min (A.I (A.J j + p + 1)) (A.I (A.J j + q + 1)) ∧
      min (A.I (A.J j + p + 1)) (A.I (A.J j + q + 1)) + 1 ≤ m := by omega
  have := ptr_mono m A.J hS.ptr _ _ hmin.1 (by omega)
  have := ptr_mono m A.J hS.ptr _ _ hmin.2 (le_refl _)
  exact hZ x (by omega) (by omega)

theorem columnEq_congr (m : Nat) (A : Csc) (hS : SortedLower m A) (C0 C0' Z Z' : ValArr)
    (c : Nat) (hc : c < m)
    (h0 : ∀ x, A.J c ≤ x → x < A.J (c + 1) → C0 x = C0' x)
    (hZ : ∀ x, A.J c ≤ x → x < A.J m → Z x = Z' x)
    (h : ColumnEq A C0 Z c) : ColumnEq A C0' Z' c := by
  have hJ := ptr_mono m A.J hS.ptr (c + 1) m hc (le_refl _)
  have hd := (hS.diag c hc).1
  have hw : ∀ p, p < A.J (c + 1) - (A.J c + 1) → gatherW A C0 Z c p = gatherW A C0' Z' c p :=
    fun p hp => gatherW_congr m A hS C0 C0' Z Z' c hc p hp
      (fun x x1 x2 => h0 x (by omega) x2) (fun x x1 x2 => hZ x (by omega) x2)
  constructor
  · intro p hp
    rw [← hZ _ (by omega) (by omega), ← hw p hp]
    exact h.1 p hp
  · rw [← hZ _ (le_refl _) (by omega), ← h0 _ (le_refl _) hd, h.2]
    congr 1
    apply Finset.sum_congr rfl
    intro p hp
    rw [Finset.mem_range] at hp
    rw [hw p hp, h0 _ (by omega) (by omega)]

theorem recInv_step (m : Nat) (A : Csc) (hS : SortedLower m A) (hF : FillClosed m A)
    (C0 : ValArr) (s : RecState) (j : Nat) (hj : j + 1 < m) (h : RecInv m A C0 (j + 1) s.C) :
    RecInv m A C0 j (recursionStep A.J A.I j s).C := by
  have hjm : j < m := by omega
  have hd := (hS.diag j hjm).1
  have hfr := fun x hx => recursionStep_frame A.J A.I j s x hd hx
  constructor
  · intro x hx
    rw [hfr x (by omega)]
    exact h.1 x (by omega)
  · intro c hc1 hc2
    rcases Nat.eq_or_lt_of_le hc1 with e | e
    · subst e
      have hw : ∀ p, p < A.J (j + 1) - (A.J j + 1) →
          gatherW A s.C s.C j p = gatherW A C0 (recursionStep A.J A.I j s).C j p :=
        fun p hp => gatherW_congr m A hS _ _ _ _ j hjm p hp
          (fun x x1 x2 => h.1 x x2) (fun x x1 x2 => (hfr x (by omega)).symm)
      constructor
      · intro p hp
        rw [recursionStep_sub m A hS hF s j hj p hp, hw p hp]
      · rw [recursionStep_diag m A hS hF s j hj, h.1 _ hd]
        congr 1
        apply Finset.sum_congr rfl
        intro p hp
        rw [Finset.mem_range] at hp
        rw [hw p hp, h.1 _ (by omega)]
    · have hJ := ptr_mono m A.J hS.ptr (j + 1) c e (by omega)
      apply columnEq_congr m A hS C0 C0 s.C _ c hc2 (fun _ _ _ => rfl) _ (h.2 c e hc2)
      intro x x1 x2
      exact (hfr x (by omega)).symm

theorem recInv_fold (m : Nat) (A : Csc) (hS : SortedLower m A) (hF : FillClosed m A)
    (C0 : ValArr) (n : Nat) (hn : n + 1 ≤ m) (s : RecState) (h : RecInv m A C0 n s.C) :
    RecInv m A C0 0
      ((List.range n).reverse.foldl (fun s j => recursionStep A.J A.I j s) s).C := by
  induction n generalizing s with
  | zero => exact h
  | succ n ih =>
    rw [List.range_succ, List.reverse_append, List.reverse_singleton, List.singleton_append,
      List.foldl_cons]
    exact ih (by omega) _ (recInv_step m A hS hF C0 s n (by omega) h)

theorem last_col (m : Nat) (A : Csc) (hS : SortedLower m A) (hm : 1 ≤ m) :
    A.J m = A.J (m - 1) + 1 := by
  have hd := (hS.diag (m - 1) (by omega)).1
  have e : m - 1 + 1 = m := by omega
  rw [e] at hd
  rcases Nat.lt_or_ge (A.J (m - 1) + 1) (A.J m) with h | h
  · have := hS.below (m - 1) (by omega) (A.J (m - 1) + 1) (by omega) (by rw [e]; exact h)
    omega
  · omega

/-- After the backward column loop every column satisfies the recursion
equations. -/
theorem recursion_columnEq (m nnz : Nat) (A : Csc) (hS : SortedLower m A)
    (hF : FillClosed m A) (hm : 1 ≤ m) (hn : nnz = A.J m) (s : RecState) (c : Nat) (hc : c < m) :
    ColumnEq A s.C (recursion m nnz A.J A.I s).C c := by
  have hl := last_col m A hS hm
  have e : m - 1 + 1 = m := by omega
  have h0 : RecInv m A s.C (m - 1)
      ({ s with C := Function.update s.C (nnz - 1) (1 / s.C (A.J (m - 1))) } : RecState).C := by
    have en : nnz - 1 = A.J (m - 1) := by omega
    constructor
    · intro x hx
      simp only
      rw [en, Function.update_noteq (by omega)]
    · intro c' h1 h2
      have ec : c' = m - 1 := by omega
      subst ec
      have el : A.J (m - 1 + 1) - (A.J (m - 1) + 1) = 0 := by rw [e]; omega
      constructor
      · intro p hp; omega
      · simp only
        rw [en, Function.update_same, el]
        simp
  have := recInv_fold m A hS hF s.C (m - 1) (by omega) _ h0
  exact this.2 c (Nat.zero_le _) hc


theorem sortedLower_values (m : Nat) (A : Csc) (C : ValArr) (hS : SortedLower m A) :
    SortedLower m { A with C := C } :=
  ⟨hS.ptr, hS.diag, hS.below, hS.asc⟩

/-- Within every column of the expanded matrix the rows strictly ascend. -/
theorem expand_sorted (m nnz : Nat) (A : Csc) (hS : SortedLower m A) (b : Nat) :
    List.Pairwise (fun x y => x < y) ((colEntries (expand m nnz A).Z b).map Prod.fst) := by
  rcases Nat.lt_or_ge b m with hb | hb
  · have hne : ∀ j < m, A.J j < A.J (j + 1) := fun j hj => (hS.diag j hj).1
    rw [expand_col m nnz A hS.ptr hS.rowsOK hne b hb, List.map_append, List.pairwise_append]
    refine ⟨?_, ?_, ?_⟩
    · have h := transpose_sorted m A A hS.ptr hS.rowsOK hS.distinct b hb
      rw [transpose_col m A A hS.ptr hS.rowsOK b hb] at h
      exact h
    · rw [List.map_map, pairwise_map_range']
      intro l l' h1 h2 h3
      exact hS.strict b hb l l' (by omega) h2 (by omega)
    · intro x hx y hy
      rw [List.mem_map] at hx hy
      obtain ⟨⟨x1, xv⟩, hx1, rfl⟩ := hx
      obtain ⟨⟨y1, yv⟩, hy1, rfl⟩ := hy
      have hxs : Stored (transpose m A A) x1 b xv := by
        unfold Stored
        rw [transpose_col m A A hS.ptr hS.rowsOK b hb]
        exact hx1
      rw [transpose_mem m A A hS.ptr hS.rowsOK b hb] at hxs
      have q1 := stored_lower m A hS b x1 hxs.1 xv hxs.2
      rw [List.mem_map] at hy1
      obtain ⟨l, hl, he⟩ := hy1
      rw [List.mem_range'_1] at hl
      have he2 : A.I l = y1 := (Prod.mk.injEq _ _ _ _ ▸ he : _ ∧ _).1
      have q2 := (hS.below b hb l (by omega) (by omega)).1
      show x1 < y1
      omega
  · rw [expand_col_high m nnz A b hb]
    exact List.Pairwise.nil

theorem perm_pair_iff (a b x y : Nat) :
    ((a, b) = (x, y) ∨ (a, b) = (y, x)) ↔
      ((max x y = a ∧ min x y = b) ∨ (max x y = b ∧ min x y = a)) := by
  simp only [Prod.mk.injEq]
  omega

/-- Membership in the final result: `v` is stored at `(a, b)` exactly when
some slot `l` of some column `j` of the factor is carried to `(a, b)` or to
`(b, a)` by the ordering, and `v` is the value the recursion left in `l`. -/
theorem sinv_mem (m nnz : Nat) (r : Option IdxArr) (L : Csc) (scr : RecState)
    (hr : PermOK m r) (hS : SortedLower m L) (a b : Nat) (v : ℚ) :
    Stored (sinv m nnz r L scr).Z a b v ↔
      ∃ j l, j < m ∧ L.J j ≤ l ∧ l < L.J (j + 1) ∧
        ((a, b) = (permAt r (L.I l), permAt r j) ∨ (a, b) = (permAt r j, permAt r (L.I l))) ∧
        (recursion m nnz L.J L.I { scr with C := L.C }).C l = v := by
  have hS1 := sortedLower_values m L (recursion m nnz L.J L.I { scr with C := L.C }).C hS
  have hS2 := permuteTranspose_sortedLower m r _ hr hS1.rowsOK hS1.lowerTri hS1.distinct
    hS1.hasDiag
  have e : (sinv m nnz r L scr).Z = (expand m nnz (permuteTranspose m r
      { L with C := (recursion m nnz L.J L.I { scr with C := L.C }).C })).Z := rfl
  rw [e, expand_mem m nnz _ hS2]
  constructor
  · rintro (⟨ha, h⟩ | ⟨hb, h⟩)
    · rw [permuteTranspose_mem m r _ hr hS1.rowsOK a ha] at h
      obtain ⟨j, l, hj, h1, h2, h3, h4, h5⟩ := h
      exact ⟨j, l, hj, h1, h2, (perm_pair_iff a b _ _).mpr (Or.inr ⟨h3, h4⟩), h5⟩
    · rw [permuteTranspose_mem m r _ hr hS1.rowsOK b hb] at h
      obtain ⟨j, l, hj, h1, h2, h3, h4, h5⟩ := h
      exact ⟨j, l, hj, h1, h2, (perm_pair_iff a b _ _).mpr (Or.inl ⟨h3, h4⟩), h5⟩
  · rintro ⟨j, l, hj, h1, h2, h3, h5⟩
    have b1 := hr.1 _ (hS.rowsOK j hj l h1 h2)
    have b2 := hr.1 _ hj
    rcases (perm_pair_iff a b _ _).mp h3 with ⟨h3, h4⟩ | ⟨h3, h4⟩
    · right
      have hb : b < m := by omega
      refine ⟨hb, ?_⟩
      rw [permuteTranspose_mem m r _ hr hS1.rowsOK b hb]
      exact ⟨j, l, hj, h1, h2, h3, h4, h5⟩
    · left
      have ha : a < m := by omega
      refine ⟨ha, ?_⟩
      rw [permuteTranspose_mem m r _ hr hS1.rowsOK a ha]
      exact ⟨j, l, hj, h1, h2, h3, h4, h5⟩

theorem sinv_sorted (m nnz : Nat) (r : Option IdxArr) (L : Csc) (scr : RecState)
    (hr : PermOK m r) (hS : SortedLower m L) (b : Nat) :
    List.Pairwise (fun x y => x < y) ((colEntries (sinv m nnz r L scr).Z b).map Prod.fst) := by
  have hS1 := sortedLower_values m L (recursion m nnz L.J L.I { scr with C := L.C }).C hS
  have hS2 := permuteTranspose_sortedLower m r _ hr hS1.rowsOK hS1.lowerTri hS1.distinct
    hS1.hasDiag
  exact expand_sorted m nnz _ hS2 b

theorem diag_sortedLower (m : Nat) (L : Csc) (hJ : ∀ j, j ≤ m → L.J j = j)
    (hI : ∀ j, j < m → L.I j = j) : SortedLower m L := by
  refine ⟨⟨hJ 0 (Nat.zero_le _), ?_⟩, ?_, ?_, ?_⟩
  · intro j hj
    rw [hJ j (by omega), hJ (j + 1) (by omega)]; omega
  · intro j hj
    rw [hJ j (by omega), hJ (j + 1) (by omega), hI j hj]
    exact ⟨by omega, rfl⟩
  · intro j hj l h1 h2
    rw [hJ j (by omega)] at h1
    rw [hJ (j + 1) (by omega)] at h2
    omega
  · intro j hj l h1 h2
    rw [hJ j (by omega)] at h1
    rw [hJ (j + 1) (by omega)] at h2
    omega

theorem diag_fillClosed (m : Nat) (L : Csc) (hJ : ∀ j, j ≤ m → L.J j = j) :
    FillClosed m L := by
  intro j hj l l' h1 h2 h3
  rw [hJ j (by omega)] at h1
  rw [hJ (j + 1) (by omega)] at h3
  omega

theorem diag_recursion (m nnz : Nat) (L : Csc) (s : RecState) (hm : 1 ≤ m)
    (hJ : ∀ j, j ≤ m → L.J j = j) (hI : ∀ j, j < m → L.I j = j) (hn : nnz = m)
    (j : Nat) (hj : j < m) :
    (recursion m nnz L.J L.I s).C j = 1 / s.C j := by
  have h := (recursion_columnEq m nnz L (diag_sortedLower m L hJ hI) (diag_fillClosed m L hJ)
    hm (by rw [hn, hJ m (le_refl _)]) s j hj).2
  have e : L.J (j + 1) - (L.J j + 1) = 0 := by
    rw [hJ j (by omega), hJ (j + 1) (by omega)]; omega
  rw [e, hJ j (by omega)] at h
  simpa using h

/-- The Takahashi equations: if `W` is a left inverse of `Lm * D * Lm.transpose` with
`Lm` unit lower triangular and `D` an invertible diagonal, then `W * Lm` is
upper triangular with diagonal `1/d`. -/
theorem takahashi (m : Nat) (Lm W : Matrix (Fin m) (Fin m) ℚ) (d : Fin m → ℚ)
    (hL1 : ∀ i, Lm i i = 1) (hL0 : ∀ i j, i < j → Lm i j = 0) (hd : ∀ i, d i ≠ 0)
    (hW : W * (Lm * Matrix.diagonal d * Lm.transpose) = 1) :
    (∀ i j, j < i → W i j = - Finset.sum Finset.univ
        (fun k => if j < k then W i k * Lm k j else 0)) ∧
    (∀ j, W j j = 1 / d j - Finset.sum Finset.univ
        (fun k => if j < k then W j k * Lm k j else 0)) := by
  have hUT : (W * Lm) * (Matrix.diagonal d * Lm.transpose) = 1 := by
    rw [← hW, Matrix.mul_assoc, Matrix.mul_assoc]
  have hT : (Matrix.diagonal d * Lm.transpose).BlockTriangular id := by
    intro i j hij
    rw [Matrix.diagonal_mul, Matrix.transpose_apply, hL0 j i hij, mul_zero]
  haveI : Invertible (Matrix.diagonal d * Lm.transpose) := Matrix.invertibleOfLeftInverse _ _ hUT
  have hinv : (Matrix.diagonal d * Lm.transpose)⁻¹ = W * Lm := Matrix.inv_eq_left_inv hUT
  have hU : (W * Lm).BlockTriangular id := by
    rw [← hinv]
    exact Matrix.blockTriangular_inv_of_blockTriangular hT
  have hsplit : ∀ i j, (W * Lm) i j = W i j + Finset.sum Finset.univ
      (fun k => if j < k then W i k * Lm k j else 0) := by
    intro i j
    rw [Matrix.mul_apply]
    have e : ∀ k, W i k * Lm k j =
        (if k = j then W i j else 0) + (if j < k then W i k * Lm k j else 0) := by
      intro k
      rcases lt_trichotomy k j with h | h | h
      · rw [hL0 k j h, if_neg (ne_of_lt h), if_neg (not_lt_of_gt h)]; simp
      · subst h; rw [hL1 k, if_pos rfl, if_neg (lt_irrefl k)]; simp
      · rw [if_neg (ne_of_gt h), if_pos h]; simp
    rw [Finset.sum_congr rfl (fun k _ => e k), Finset.sum_add_distrib, Finset.sum_ite_eq']
    simp
  have hdiag : ∀ j, (W * Lm) j j * d j = 1 := by
    intro j
    have h1 : ((W * Lm) * (Matrix.diagonal d * Lm.transpose)) j j = 1 := by rw [hUT]; simp
    rw [Matrix.mul_apply] at h1
    rw [Finset.sum_eq_single j] at h1
    · rw [Matrix.diagonal_mul, Matrix.transpose_apply, hL1 j, mul_one] at h1
      exact h1
    · intro k _ hk
      rcases lt_or_gt_of_ne hk with h | h
      · rw [hU (show id k < id j from h), zero_mul]
      · rw [hT (show id j < id k from h), mul_zero]
    · intro h; exact absurd (Finset.mem_univ j) h
  constructor
  · intro i j hij
    have h := hsplit i j
    rw [hU (show id j < id i from hij)] at h
    linarith
  · intro j
    have h := hsplit j j
    have h2 := hdiag j
    have h3 : (W * Lm) j j = 1 / d j := by
      field_simp [hd j]
      exact h2
    rw [h3] at h
    linarith

theorem entryAt_none (A : Csc) (C : ValArr) (a b : Nat)
    (h : ∀ l, A.J b ≤ l → l < A.J (b + 1) → A.I l ≠ a) : entryAt A C a b = 0 := by
  unfold entryAt
  cases hf : (List.range' (A.J b) (A.J (b + 1) - A.J b)).find? (fun l => decide (A.I l = a)) with
  | none => rfl
  | some l =>
    have hp0 := List.find?_some hf
    have hp : A.I l = a := of_decide_eq_true hp0
    have hl := List.mem_range'_1.mp (List.mem_of_find?_eq_some hf)
    exact absurd hp (h l hl.1 (by omega))

/-- A sum over all rows `k > j`, weighted by the stored multipliers of column
`j`, is the sum over the stored sub-diagonal slots of column `j`. -/
theorem sum_rows (m : Nat) (A : Csc) (hS : SortedLower m A) (C0 : ValArr) (j : Nat)
    (hj : j < m) (g : Nat → ℚ) :
    Finset.sum (Finset.range m) (fun k => if j < k then g k * entryAt A C0 k j else 0) =
      Finset.sum (Finset.range (A.J (j + 1) - (A.J j + 1)))
        (fun q => g (A.I (A.J j + q + 1)) * C0 (A.J j + q + 1)) := by
  have hinj : ∀ x ∈ Finset.range (A.J (j + 1) - (A.J j + 1)),
      ∀ y ∈ Finset.range (A.J (j + 1) - (A.J j + 1)),
      A.I (A.J j + x + 1) = A.I (A.J j + y + 1) → x = y := by
    intro x hx y hy hxy
    rw [Finset.mem_range] at hx hy
    rcases Nat.lt_trichotomy x y with h | h | h
    · have := sub_rows_mono m A hS j hj x y h hy; omega
    · exact h
    · have := sub_rows_mono m A hS j hj y x h hx; omega
  have hsub : (Finset.range (A.J (j + 1) - (A.J j + 1))).image (fun q => A.I (A.J j + q + 1)) ⊆
      Finset.range m := by
    intro k hk
    rw [Finset.mem_image] at hk
    obtain ⟨q, hq, rfl⟩ := hk
    rw [Finset.mem_range] at hq ⊢
    exact (hS.below j hj (A.J j + q + 1) (by omega) (by omega)).2
  rw [← Finset.sum_subset hsub, Finset.sum_image hinj]
  · apply Finset.sum_congr rfl
    intro q hq
    rw [Finset.mem_range] at hq
    have hb := hS.below j hj (A.J j + q + 1) (by omega) (by omega)
    rw [if_pos hb.1, entryAt_slot m A hS C0 _ j hj (A.J j + q + 1) (by omega) (by omega) rfl]
  · intro k _ hk
    by_cases hjk : j < k
    · rw [if_pos hjk, entryAt_none, mul_zero]
      intro l l1 l2 hl
      rcases Nat.eq_or_lt_of_le l1 with e | e
      · rw [← e, (hS.diag j hj).2] at hl; omega
      · apply hk
        rw [Finset.mem_image]
        refine ⟨l - (A.J j + 1), Finset.mem_range.mpr (by omega), ?_⟩
        have : A.J j + (l - (A.J j + 1)) + 1 = l := by omega
        rw [this, hl]
    · rw [if_neg hjk]

/-- The values left by the recursion are the entries of any symmetric `W`
that satisfies the Takahashi equations of the factor. -/
theorem recursion_takahashi (m : Nat) (A : Csc) (hS : SortedLower m A) (hF : FillClosed m A)
    (C0 Z : ValArr) (W : Nat → Nat → ℚ)
    (hZ : ∀ c, c < m → ColumnEq A C0 Z c)
    (hsym : ∀ i j, W i j = W j i)
    (h1 : ∀ i j, j < i → i < m → W i j = - Finset.sum (Finset.range m)
      (fun k => if j < k then W i k * entryAt A C0 k j else 0))
    (h2 : ∀ j, j < m → W j j = 1 / C0 (A.J j) - Finset.sum (Finset.range m)
      (fun k => if j < k then W j k * entryAt A C0 k j else 0))
    (n : Nat) : ∀ j, j < m → m ≤ j + n →
      ∀ l, A.J j ≤ l → l < A.J (j + 1) → Z l = W (A.I l) j := by
  induction n with
  | zero => intro j hj hn; omega
  | succ n ih =>
    intro j hj hn
    -- the gathered entries are entries of `W`
    have hent : ∀ p q, p < A.J (j + 1) - (A.J j + 1) → q < A.J (j + 1) - (A.J j + 1) →
        entryAt A Z (max (A.I (A.J j + p + 1)) (A.I (A.J j + q + 1)))
          (min (A.I (A.J j + p + 1)) (A.I (A.J j + q + 1))) =
        W (A.I (A.J j + p + 1)) (A.I (A.J j + q + 1)) := by
      intro p q hp hq
      have bp := hS.below j hj (A.J j + p + 1) (by omega) (by omega)
      have bq := hS.below j hj (A.J j + q + 1) (by omega) (by omega)
      rcases Nat.lt_trichotomy p q with h | h | h
      · have hlt := sub_rows_mono m A hS j hj p q h hq
        rw [max_eq_right (Nat.le_of_lt hlt), min_eq_left (Nat.le_of_lt hlt)]
        obtain ⟨t, t1, t2, t3⟩ := hF j hj (A.J j + p + 1) (A.J j + q + 1) (by omega) (by omega)
          (by omega)
        rw [entryAt_slot m A hS Z _ _ bp.2 t (by omega) t1 t3,
          ih _ bp.2 (by omega) t (by omega) t1, t3]
        exact hsym _ _
      · subst h
        rw [max_self, min_self]
        have hd := hS.diag _ bp.2
        rw [entryAt_slot m A hS Z _ _ bp.2 _ (le_refl _) hd.1 hd.2,
          ih _ bp.2 (by omega) _ (le_refl _) hd.1, hd.2]
      · have hlt := sub_rows_mono m A hS j hj q p h hp
        rw [max_eq_left (Nat.le_of_lt hlt), min_eq_right (Nat.le_of_lt hlt)]
        obtain ⟨t, t1, t2, t3⟩ := hF j hj (A.J j + q + 1) (A.J j + p + 1) (by omega) (by omega)
          (by omega)
        rw [entryAt_slot m A hS Z _ _ bq.2 t (by omega) t1 t3,
          ih _ bq.2 (by omega) t (by omega) t1, t3]
    have hw : ∀ p, p < A.J (j + 1) - (A.J j + 1) →
        gatherW A C0 Z j p = - W (A.I (A.J j + p + 1)) j := by
      intro p hp
      have bp := hS.below j hj (A.J j + p + 1) (by omega) (by omega)
      rw [h1 _ j bp.1 bp.2, neg_neg, sum_rows m A hS C0 j hj]
      unfold gatherW
      apply Finset.sum_congr rfl
      intro q hq
      rw [Finset.mem_range] at hq
      rw [hent p q hp hq]
    intro l l1 l2
    rcases Nat.eq_or_lt_of_le l1 with e | e
    · rw [← e, (hS.diag j hj).2, (hZ j hj).2, h2 j hj, sum_rows m A hS C0 j hj, sub_eq_add_neg,
        ← Finset.sum_neg_distrib]
      congr 1
      apply Finset.sum_congr rfl
      intro p hp
      rw [Finset.mem_range] at hp
      rw [hw p hp, hsym j]
      ring
    · have el : l = A.J j + (l - (A.J j + 1)) + 1 := by omega
      have hp : l - (A.J j + 1) < A.J (j + 1) - (A.J j + 1) := by omega
      rw [el, (hZ j hj).1 _ hp, hw _ hp, neg_neg]

theorem factorL_diag (m : Nat) (L : Csc) (i : Fin m) : factorL m L i i = 1 := by
  simp [factorL]

theorem factorL_upper (m : Nat) (L : Csc) (i j : Fin m) (h : i < j) : factorL m L i j = 0 := by
  unfold factorL
  rw [Matrix.of_apply, if_neg (ne_of_lt h), if_neg (not_lt_of_gt h)]

theorem factorL_lower (m : Nat) (L : Csc) (i j : Fin m) (h : j < i) :
    factorL m L i j = entryAt L L.C i j := by
  unfold factorL
  rw [Matrix.of_apply, if_neg (ne_of_gt h), if_pos h]

theorem factor_det (m : Nat) (L : Csc) (hpiv : ∀ j, j < m → L.C (L.J j) ≠ 0) :
    IsUnit (factorL m L * Matrix.diagonal (factorD m L) * (factorL m L).transpose).det := by
  have hL : (factorL m L).det = 1 := by
    rw [Matrix.det_of_lowerTriangular]
    · simp [factorL_diag]
    · intro i j hij
      exact factorL_upper m L i j hij
  rw [Matrix.det_mul, Matrix.det_mul, Matrix.det_transpose, hL, Matrix.det_diagonal, one_mul,
    mul_one, isUnit_iff_ne_zero, Finset.prod_ne_zero_iff]
  intro j _
  exact hpiv j j.2

theorem perm_equiv_exists (m : Nat) (r : Option IdxArr) (hr : PermOK m r) :
    ∃ e : Fin m ≃ Fin m, ∀ i : Fin m, (e i).val = permAt r i :=
  ⟨Equiv.ofBijective (fun i => ⟨permAt r i, hr.1 i i.2⟩)
    (Finite.injective_iff_bijective.mp (fun i j h =>
      Fin.ext (hr.2 i i.2 j j.2 (congrArg Fin.val h)))), fun _ => rfl⟩

/-- The inverse of `A`, renumbered by the ordering, satisfies the Takahashi
equations of the packed factor (indices as natural numbers). -/
theorem inverse_takahashi (m : Nat) (A : Matrix (Fin m) (Fin m) ℚ) (r : Option IdxArr)
    (L : Csc) (hA : A.IsSymm) (hr : PermOK m r)
    (hpiv : ∀ j, j < m → L.C (L.J j) ≠ 0) (hfac : IsFactorOf m r L A) :
    IsUnit A.det ∧
    ∃ W : Nat → Nat → ℚ,
      (∀ i j (hi : i < m) (hj : j < m),
        W i j = A⁻¹ ⟨permAt r i, hr.1 i hi⟩ ⟨permAt r j, hr.1 j hj⟩) ∧
      (∀ i j, W i j = W j i) ∧
      (∀ i j, j < i → i < m → W i j = - Finset.sum (Finset.range m)
        (fun k => if j < k then W i k * entryAt L L.C k j else 0)) ∧
      (∀ j, j < m → W j j = 1 / L.C (L.J j) - Finset.sum (Finset.range m)
        (fun k => if j < k then W j k * entryAt L L.C k j else 0)) := by
  obtain ⟨e, he⟩ := perm_equiv_exists m r hr
  have hB : A.submatrix e e =
      factorL m L * Matrix.diagonal (factorD m L) * (factorL m L).transpose := by
    ext i j
    rw [Matrix.submatrix_apply]
    have h := hfac i j (hr.1 i i.2) (hr.1 j j.2)
    have e1 : e i = ⟨permAt r i, hr.1 i i.2⟩ := Fin.ext (he i)
    have e2 : e j = ⟨permAt r j, hr.1 j j.2⟩ := Fin.ext (he j)
    rw [e1, e2]
    exact h
  have hdetB := factor_det m L hpiv
  have hdetA : IsUnit A.det := by
    rw [← hB, Matrix.det_submatrix_equiv_self] at hdetB
    exact hdetB
  have hinvB : (A⁻¹).submatrix e e *
      (factorL m L * Matrix.diagonal (factorD m L) * (factorL m L).transpose) = 1 := by
    rw [← hB, ← Matrix.inv_submatrix_equiv]
    apply Matrix.nonsing_inv_mul
    rw [hB]; exact hdetB
  have hsymA : ∀ a b, A⁻¹ a b = A⁻¹ b a := by
    intro a b
    have h : (A⁻¹).transpose = A⁻¹ := by
      rw [Matrix.transpose_nonsing_inv, hA.eq]
    have h2 := congrFun (congrFun h b) a
    rw [Matrix.transpose_apply] at h2
    exact h2
  obtain ⟨t1, t2⟩ := takahashi m (factorL m L) ((A⁻¹).submatrix e e) (factorD m L)
    (factorL_diag m L) (factorL_upper m L) (fun j => hpiv j j.2) hinvB
  refine ⟨hdetA, fun i j => if h : i < m ∧ j < m then
      A⁻¹ ⟨permAt r i, hr.1 i h.1⟩ ⟨permAt r j, hr.1 j h.2⟩ else 0, ?_, ?_, ?_, ?_⟩
  · intro i j hi hj
    simp only [dif_pos (And.intro hi hj)]
  · intro i j
    by_cases h : i < m ∧ j < m
    · simp only [dif_pos h, dif_pos (And.intro h.2 h.1)]
      exact hsymA _ _
    · have h' : ¬ (j < m ∧ i < m) := fun q => h ⟨q.2, q.1⟩
      simp only [dif_neg h, dif_neg h']
  · intro i j hji hi
    have hj : j < m := by omega
    have h := t1 ⟨i, hi⟩ ⟨j, hj⟩ hji
    rw [← Fin.sum_univ_eq_sum_range
      (fun k => if j < k then (if h : i < m ∧ k < m then
          A⁻¹ ⟨permAt r i, hr.1 i h.1⟩ ⟨permAt r k, hr.1 k h.2⟩ else 0) * entryAt L L.C k j
        else 0) m]
    simp only [dif_pos (And.intro hi hj)]
    rw [Matrix.submatrix_apply] at h
    have e1 : e ⟨i, hi⟩ = ⟨permAt r i, hr.1 i hi⟩ := Fin.ext (he _)
    have e2 : e ⟨j, hj⟩ = ⟨permAt r j, hr.1 j hj⟩ := Fin.ext (he _)
    rw [e1, e2] at h
    rw [h]
    congr 1
    apply Finset.sum_congr rfl
    intro k _
    by_cases hjk : (⟨j, hj⟩ : Fin m) < k
    · have hjk' : j < k.val := hjk
      rw [if_pos hjk, if_pos hjk', Matrix.submatrix_apply, factorL_lower m L k ⟨j, hj⟩ hjk]
      have e3 : e k = ⟨permAt r k, hr.1 k k.2⟩ := Fin.ext (he _)
      rw [e1, e3]
      simp only [dif_pos (And.intro hi k.2)]
    · have hjk' : ¬ j < k.val := hjk
      rw [if_neg hjk, if_neg hjk']
  · intro j hj
    have h := t2 ⟨j, hj⟩
    rw [← Fin.sum_univ_eq_sum_range
      (fun k => if j < k then (if h : j < m ∧ k < m then
          A⁻¹ ⟨permAt r j, hr.1 j h.1⟩ ⟨permAt r k, hr.1 k h.2⟩ else 0) * entryAt L L.C k j
        else 0) m]
    simp only [dif_pos (And.intro hj hj)]
    rw [Matrix.submatrix_apply] at h
    have e2 : e ⟨j, hj⟩ = ⟨permAt r j, hr.1 j hj⟩ := Fin.ext (he _)
    rw [e2] at h
    rw [h]
    congr 1
    apply Finset.sum_congr rfl
    intro k _
    by_cases hjk : (⟨j, hj⟩ : Fin m) < k
    · have hjk' : j < k.val := hjk
      rw [if_pos hjk, if_pos hjk', Matrix.submatrix_apply, factorL_lower m L k ⟨j, hj⟩ hjk]
      have e3 : e k = ⟨permAt r k, hr.1 k k.2⟩ := Fin.ext (he _)
      rw [e2, e3]
      simp only [dif_pos (And.intro hj k.2)]
    · have hjk' : ¬ j < k.val := hjk
      rw [if_neg hjk, if_neg hjk']

/-- In a fill-closed factor the position `(max (R p) (R q), min (R p) (R q))`
is stored for any two sub-diagonal rows of a column, and `entryAt` reads it. -/
theorem pair_stored (m : Nat) (A : Csc) (hS : SortedLower m A) (hF : FillClosed m A)
    (Z : ValArr) (j : Nat) (hj : j < m) (p q : Nat) (hp : p < A.J (j + 1) - (A.J j + 1))
    (hq : q < A.J (j + 1) - (A.J j + 1)) :
    ∃ t, A.J (min (A.I (A.J j + p + 1)) (A.I (A.J j + q + 1))) ≤ t ∧
      t < A.J (min (A.I (A.J j + p + 1)) (A.I (A.J j + q + 1)) + 1) ∧
      A.I t = max (A.I (A.J j + p + 1)) (A.I (A.J j + q + 1)) ∧
      entryAt A Z (max (A.I (A.J j + p + 1)) (A.I (A.J j + q + 1)))
        (min (A.I (A.J j + p + 1)) (A.I (A.J j + q + 1))) = Z t := by
  have bp := hS.below j hj (A.J j + p + 1) (by omega) (by omega)
  have bq := hS.below j hj (A.J j + q + 1) (by omega) (by omega)
  rcases Nat.lt_trichotomy p q with h | h | h
  · have hlt := sub_rows_mono m A hS j hj p q h hq
    rw [max_eq_right (Nat.le_of_lt hlt), min_eq_left (Nat.le_of_lt hlt)]
    obtain ⟨t, t1, t2, t3⟩ := hF j hj (A.J j + p + 1) (A.J j + q + 1) (by omega) (by omega)
      (by omega)
    exact ⟨t, by omega, t1, t3, entryAt_slot m A hS Z _ _ bp.2 t (by omega) t1 t3⟩
  · subst h
    rw [max_self, min_self]
    have hd := hS.diag _ bp.2
    exact ⟨_, le_refl _, hd.1, hd.2, entryAt_slot m A hS Z _ _ bp.2 _ (le_refl _) hd.1 hd.2⟩
  · have hlt := sub_rows_mono m A hS j hj q p h hp
    rw [max_eq_left (Nat.le_of_lt hlt), min_eq_right (Nat.le_of_lt hlt)]
    obtain ⟨t, t1, t2, t3⟩ := hF j hj (A.J j + q + 1) (A.J j + p + 1) (by omega) (by omega)
      (by omega)
    exact ⟨t, by omega, t1, t3, entryAt_slot m A hS Z _ _ bq.2 t (by omega) t1 t3⟩

theorem loopPairs_congr (m : Nat) (lo hi lo' hi' : IdxArr) (h1 : ∀ j, j < m → lo j = lo' j)
    (h2 : ∀ j, j < m → hi j = hi' j) : loopPairs m lo hi = loopPairs m lo' hi' := by
  induction m with
  | zero => rfl
  | succ n ih =>
    rw [loopPairs_succ, loopPairs_succ, ih (fun j hj => h1 j (by omega)) (fun j hj => h2 j (by omega)),
      h1 n (by omega), h2 n (by omega)]

theorem entries_congr (m : Nat) (J J' : IdxArr) (h : ∀ j, j ≤ m → J j = J' j) :
    entries m J = entries m J' :=
  loopPairs_congr m _ _ _ _ (fun j hj => h j (by omega)) (fun j hj => h (j + 1) (by omega))

theorem slot_column (m : Nat) (J : IdxArr) (h : PtrOK m J) (l : Nat) (hl : l < J m) :
    ∃ k, k < m ∧ J k ≤ l ∧ l < J (k + 1) := by
  induction m with
  | zero => rw [h.1] at hl; omega
  | succ n ih =>
    rcases Nat.lt_or_ge l (J n) with q | q
    · obtain ⟨k, k1, k2, k3⟩ := ih ⟨h.1, fun j hj => h.2 j (by omega)⟩ q
      exact ⟨k, by omega, k2, k3⟩
    · exact ⟨n, by omega, q, hl⟩

theorem slot_lt_last (m : Nat) (J : IdxArr) (h : PtrOK m J) (j : Nat) (hj : j < m) (l : Nat)
    (hl : l < J (j + 1)) : l < J m := by
  have := ptr_mono m J h (j + 1) m hj (le_refl _)
  omega

/-- Matrices with the same column pointers and the same column lists agree. -/
theorem agree_of_cols (m : Nat) (Z Z' : Csc) (hptr : PtrOK m Z.J)
    (hJ : ∀ j, j ≤ m → Z.J j = Z'.J j) (hcol : ∀ k, k < m → colEntries Z k = colEntries Z' k) :
    Agree m Z Z' := by
  refine ⟨hJ, ?_⟩
  intro l hl
  obtain ⟨k, k1, k2, k3⟩ := slot_column m Z.J hptr l hl
  have h := hcol k k1
  unfold colEntries at h
  rw [← hJ k (by omega), ← hJ (k + 1) (by omega)] at h
  have h2 := List.map_inj_left.mp h l (List.mem_range'_1.mpr ⟨k2, by omega⟩)
  exact (Prod.mk.injEq _ _ _ _ ▸ h2 : _ ∧ _)

theorem bucket_ptr_eq (m : Nat) {β : Type} (xs : List (Nat × β)) (w p0 : IdxArr)
    (hw : ∀ k, k < m → w k = cnt k xs) (k : Nat) (hk : k ≤ m) :
    (cumsum2Core p0 w m).1 k = psum (fun i => cnt i xs) k := by
  rw [cumsum2Core_fst, if_pos hk]
  exact psum_congr k w _ (fun i hi => hw i (by omega))

theorem permute_ptr_eq (m : Nat) (r : Option IdxArr) (A : Csc) (k : Nat) (hk : k ≤ m) :
    (permute m r A).J k = psum (fun i => cnt i ((entries m A.J).map (permItem r A))) k :=
  bucket_ptr_eq m _ (permCount m r A.J A.I (fun _ => 0)) (fun _ => 0)
    (fun i _ => permCount_val m r A i) k hk

theorem transpose_ptr_eq (m : Nat) (B A : Csc) (hB : PtrOK m B.J) (k : Nat) (hk : k ≤ m) :
    (transpose m B A).J k = psum (fun i => cnt i ((entries m B.J).map (transItem B))) k :=
  bucket_ptr_eq m _ (forUp 0 (B.J m)
    (fun i (w : IdxArr) => Function.update w (B.I i) (w (B.I i) + 1)) (fun _ => 0)) A.J
    (fun i _ => slotCount_eq m B hB i) k hk

theorem expand_ptr_eq (m nnz : Nat) (A : Csc) (hA : PtrOK m A.J)
    (hne : ∀ j < m, A.J j < A.J (j + 1)) (k : Nat) (hk : k ≤ m) :
    (expand m nnz A).Z.J k = psum (fun i => cnt i (fillItems m A)) k :=
  bucket_ptr_eq m _ (colCounts A m) (fun _ => 0)
    (fun i hi => colCounts_eq m A hA hne i hi) k hk

theorem expand_col_items (m nnz : Nat) (A : Csc) (hA : PtrOK m A.J) (hR : RowsOK m A)
    (hne : ∀ j < m, A.J j < A.J (j + 1)) (b : Nat) (hb : b < m) :
    colEntries (expand m nnz A).Z b =
      ((fillItems m A).filter (fun x => decide (x.1 = b))).map Prod.snd := by
  have hbp := bucket_pass m (fillItems m A) (colCounts A m) (fun _ => 0)
    (fun _ => ((0 : Nat), (0 : ℚ)))
    (fun k hk => colCounts_eq m A hA hne k hk) (fillItems_key_lt m A hR) b hb
  have hz := fill_eq m A ((cumsum2Core (fun _ => 0) (colCounts A m) m).2, fun _ => 0, fun _ => 0)
  have hz0 : zipState ((cumsum2Core (fun _ => 0) (colCounts A m) m).2, fun _ => 0, fun _ => 0) =
      ((cumsum2Core (fun _ => 0) (colCounts A m) m).2, fun _ => ((0 : Nat), (0 : ℚ))) := rfl
  rw [hz0] at hz
  rw [← hz] at hbp
  exact hbp

theorem permItems_congr (m : Nat) (r : Option IdxArr) (A A' : Csc) (hA : PtrOK m A.J)
    (h : Agree m A A') :
    (entries m A.J).map (permItem r A) = (entries m A'.J).map (permItem r A') := by
  rw [← entries_congr m A.J A'.J h.1]
  apply List.map_congr_left
  intro e he
  rw [mem_entries] at he
  have hl := h.2 e.2 (slot_lt_last m A.J hA e.1 he.1 e.2 he.2.2)
  unfold permItem
  rw [hl.1, hl.2]

theorem transItems_congr (m : Nat) (A A' : Csc) (hA : PtrOK m A.J) (h : Agree m A A') :
    (entries m A.J).map (transItem A) = (entries m A'.J).map (transItem A') := by
  rw [← entries_congr m A.J A'.J h.1]
  apply List.map_congr_left
  intro e he
  rw [mem_entries] at he
  have hl := h.2 e.2 (slot_lt_last m A.J hA e.1 he.1 e.2 he.2.2)
  unfold transItem
  rw [hl.1, hl.2]

theorem fillItems_congr (m : Nat) (A A' : Csc) (hA : PtrOK m A.J) (h : Agree m A A') :
    fillItems m A = fillItems m A' := by
  unfold fillItems
  rw [transItems_congr m A A' hA h]
  congr 1
  rw [← loopPairs_congr m (fun j => A.J j + 1) (fun j => A.J (j + 1)) (fun j => A'.J j + 1)
    (fun j => A'.J (j + 1)) (fun j hj => by simp only; rw [h.1 j (by omega)])
    (fun j hj => h.1 (j + 1) (by omega))]
  apply List.map_congr_left
  intro e he
  rw [mem_loopPairs] at he
  have hl := h.2 e.2 (slot_lt_last m A.J hA e.1 he.1 e.2 he.2.2)
  unfold lowerItem
  rw [hl.1, hl.2]

theorem agree_ptr (m : Nat) (A A' : Csc) (h : Agree m A A') (hA : PtrOK m A.J) :
    PtrOK m A'.J := by
  refine ⟨by rw [← h.1 0 (Nat.zero_le _)]; exact hA.1, ?_⟩
  intro j hj
  rw [← h.1 j (by omega), ← h.1 (j + 1) (by omega)]
  exact hA.2 j hj

theorem agree_rows (m : Nat) (A A' : Csc) (h : Agree m A A') (hA : PtrOK m A.J)
    (hR : RowsOK m A) : RowsOK m A' := by
  intro j hj l l1 l2
  rw [← h.1 j (by omega)] at l1
  rw [← h.1 (j + 1) (by omega)] at l2
  rw [← (h.2 l (slot_lt_last m A.J hA j hj l l2)).1]
  exact hR j hj l l1 l2

theorem permute_agree (m : Nat) (r : Option IdxArr) (A A' : Csc) (hr : PermOK m r)
    (hA : PtrOK m A.J) (hR : RowsOK m A) (h : Agree m A A') :
    Agree m (permute m r A) (permute m r A') := by
  have hI := permItems_congr m r A A' hA h
  apply agree_of_cols m _ _ (permute_ptr m r A)
  · intro k hk
    rw [permute_ptr_eq m r A k hk, permute_ptr_eq m r A' k hk, hI]
  · intro k hk
    rw [permute_col m r A hr hR k hk, permute_col m r A' hr (agree_rows m A A' h hA hR) k hk, hI]

theorem transpose_agree (m : Nat) (B B' A A' : Csc) (hB : PtrOK m B.J) (hR : RowsOK m B)
    (h : Agree m B B') : Agree m (transpose m B A) (transpose m B' A') := by
  have hI := transItems_congr m B B' hB h
  have hB' := agree_ptr m B B' h hB
  apply agree_of_cols m _ _ (transpose_ptr m B A)
  · intro k hk
    rw [transpose_ptr_eq m B A hB k hk, transpose_ptr_eq m B' A' hB' k hk, hI]
  · intro k hk
    rw [transpose_col m B A hB hR k hk,
      transpose_col m B' A' hB' (agree_rows m B B' h hB hR) k hk, hI]

theorem expand_agree (m nnz nnz' : Nat) (A A' : Csc) (hA : PtrOK m A.J) (hR : RowsOK m A)
    (hne : ∀ j < m, A.J j < A.J (j + 1)) (h : Agree m A A') :
    Agree m (expand m nnz A).Z (expand m nnz' A').Z := by
  have hI := fillItems_congr m A A' hA h
  have hA' := agree_ptr m A A' h hA
  have hne' : ∀ j < m, A'.J j < A'.J (j + 1) := by
    intro j hj
    rw [← h.1 j (by omega), ← h.1 (j + 1) (by omega)]
    exact hne j hj
  have hptr : PtrOK m (expand m nnz A).Z.J := by
    refine ⟨bucket_ptr_zero m _ _, ?_⟩
    intro j hj
    have e : (expand m nnz A).Z.J = (cumsum2Core (fun _ => 0) (colCounts A m) m).1 := rfl
    rw [e, bucket_ptr_succ m _ _ j hj]
    exact Nat.le_add_right _ _
  apply agree_of_cols m _ _ hptr
  · intro k hk
    rw [expand_ptr_eq m nnz A hA hne k hk, expand_ptr_eq m nnz' A' hA' hne' k hk, hI]
  · intro k hk
    rw [expand_col_items m nnz A hA hR hne k hk,
      expand_col_items m nnz' A' hA' (agree_rows m A A' h hA hR) hne' k hk, hI]

theorem agree_sortedLower (m : Nat) (A A' : Csc) (h : Agree m A A') (hS : SortedLower m A) :
    SortedLower m A' := by
  have hlt := fun j hj l hl => slot_lt_last m A.J hS.ptr j hj l hl
  refine ⟨agree_ptr m A A' h hS.ptr, ?_, ?_, ?_⟩
  · intro j hj
    have hd := hS.diag j hj
    rw [← h.1 j (by omega), ← h.1 (j + 1) (by omega), ← (h.2 _ (hlt j hj _ hd.1)).1]
    exact hd
  · intro j hj l l1 l2
    rw [← h.1 j (by omega)] at l1
    rw [← h.1 (j + 1) (by omega)] at l2
    rw [← (h.2 l (hlt j hj l l2)).1]
    exact hS.below j hj l l1 l2
  · intro j hj l l1 l2
    rw [← h.1 j (by omega)] at l1
    rw [← h.1 (j + 1) (by omega)] at l2
    rw [← (h.2 l (hlt j hj l (by omega))).1, ← (h.2 (l + 1) (hlt j hj (l + 1) l2)).1]
    exact hS.asc j hj l l1 l2

theorem agree_fillClosed (m : Nat) (A A' : Csc) (h : Agree m A A') (hS : SortedLower m A)
    (hF : FillClosed m A) : FillClosed m A' := by
  have hlt := fun j hj l hl => slot_lt_last m A.J hS.ptr j hj l hl
  intro j hj l l' l1 l2 l3
  rw [← h.1 j (by omega)] at l1
  rw [← h.1 (j + 1) (by omega)] at l3
  obtain ⟨t, t1, t2, t3⟩ := hF j hj l l' l1 l2 l3
  have hb := hS.below j hj l l1 (by omega)
  have ht := hlt (A.I l) hb.2 t t1
  rw [← (h.2 l (hlt j hj l (by omega))).1, ← (h.2 l' (hlt j hj l' l3)).1,
    ← h.1 (A.I l) (by omega), ← h.1 (A.I l + 1) (by omega)]
  refine ⟨t, t1, t2, ?_⟩
  rw [← (h.2 t ht).1]
  exact t3

theorem agree_symm (m : Nat) (A A' : Csc) (h : Agree m A A') : Agree m A' A := by
  refine ⟨fun j hj => (h.1 j hj).symm, ?_⟩
  intro l hl
  rw [← h.1 m (le_refl _)] at hl
  exact ⟨(h.2 l hl).1.symm, (h.2 l hl).2.symm⟩

/-- The recursion equations determine the values: two solutions, for factors
that agree, agree on every slot. -/
theorem columnEq_unique (m : Nat) (A A' : Csc) (hS : SortedLower m A) (hF : FillClosed m A)
    (h : Agree m A A') (Z Z' : ValArr)
    (hZ : ∀ c, c < m → ColumnEq A A.C Z c) (hZ' : ∀ c, c < m → ColumnEq A' A'.C Z' c)
    (n : Nat) : ∀ j, j ≤ m → m ≤ j + n → ∀ x, A.J j ≤ x → x < A.J m → Z x = Z' x := by
  have hS' := agree_sortedLower m A A' h hS
  have hF' := agree_fillClosed m A A' h hS hF
  have hlt := fun j hj l hl => slot_lt_last m A.J hS.ptr j hj l hl
  induction n with
  | zero =>
    intro j hj hn x x1 x2
    have e : j = m := by omega
    subst e; omega
  | succ n ih =>
    intro j hj hn x x1 x2
    rcases Nat.lt_or_ge j m with hjm | hjm
    · rcases Nat.lt_or_ge x (A.J (j + 1)) with q | q
      · have eJ := h.1 j (by omega)
        have eJ1 := h.1 (j + 1) (by omega)
        have hw : ∀ p, p < A.J (j + 1) - (A.J j + 1) →
            gatherW A A.C Z j p = gatherW A' A'.C Z' j p := by
          intro p hp
          unfold gatherW
          rw [← eJ, ← eJ1]
          apply Finset.sum_congr rfl
          intro q hq
          rw [Finset.mem_range] at hq
          have ip := (h.2 (A.J j + p + 1) (hlt j hjm _ (by omega))).1
          have iq := h.2 (A.J j + q + 1) (hlt j hjm _ (by omega))
          obtain ⟨t, t1, t2, t3, t4⟩ := pair_stored m A hS hF Z j hjm p q hp hq
          obtain ⟨t', s1, s2, s3, s4⟩ := pair_stored m A' hS' hF' Z' j hjm p q
            (by rw [← eJ, ← eJ1]; exact hp) (by rw [← eJ, ← eJ1]; exact hq)
          rw [← eJ, ← ip, ← iq.1] at s1 s2 s3 s4
          rw [← ip, ← iq.1, ← iq.2, t4, s4]
          have bp := hS.below j hjm (A.J j + p + 1) (by omega) (by omega)
          have bq := hS.below j hjm (A.J j + q + 1) (by omega) (by omega)
          have hb : j + 1 ≤ min (A.I (A.J j + p + 1)) (A.I (A.J j + q + 1)) ∧
              min (A.I (A.J j + p + 1)) (A.I (A.J j + q + 1)) < m := by omega
          rw [← h.1 _ (by omega)] at s1
          rw [← h.1 _ (by omega)] at s2
          have ht' := hlt _ hb.2 t' s2
          rw [← (h.2 t' ht').1] at s3
          have e := hS.distinct _ hb.2 t t' t1 t2 s1 s2 (t3.trans s3.symm)
          subst e
          have hJb := ptr_mono m A.J hS.ptr (j + 1) _ hb.1 (by omega)
          rw [ih (j + 1) hjm (by omega) t (by omega) ht']
        rcases Nat.eq_or_lt_of_le x1 with e | e
        · rw [← e, (hZ j hjm).2]
          have h2 := (hZ' j hjm).2
          rw [← eJ, ← eJ1] at h2
          rw [h2, (h.2 (A.J j) (by omega)).2]
          congr 1
          apply Finset.sum_congr rfl
          intro p hp
          rw [Finset.mem_range] at hp
          rw [hw p hp, (h.2 (A.J j + p + 1) (hlt j hjm _ (by omega))).2]
        · have ex : x = A.J j + (x - (A.J j + 1)) + 1 := by omega
          have hp : x - (A.J j + 1) < A.J (j + 1) - (A.J j + 1) := by omega
          have h1 := (hZ j hjm).1 _ hp
          have h2 := (hZ' j hjm).1 (x - (A.J j + 1)) (by rw [← eJ, ← eJ1]; exact hp)
          rw [← eJ] at h2
          rw [ex, h1, h2, hw _ hp]
      · exact ih (j + 1) hjm (by omega) x q x2
    · have e : j = m := by omega
      subst e; omega

/-- The recursion leaves the same values on agreeing factors, whatever the
scratch buffers and the memory beyond the arrays hold. -/
theorem recursion_agree (m nnz : Nat) (A A' : Csc) (s s' : RecState) (hm : 1 ≤ m)
    (hS : SortedLower m A) (hF : FillClosed m A) (h : Agree m A A') (hn : nnz = A.J m)
    (x : Nat) (hx : x < A.J m) :
    (recursion m nnz A.J A.I { s with C := A.C }).C x =
      (recursion m nnz A'.J A'.I { s' with C := A'.C }).C x := by
  have hS' := agree_sortedLower m A A' h hS
  have hF' := agree_fillClosed m A A' h hS hF
  have hn' : nnz = A'.J m := by rw [← h.1 m (le_refl _)]; exact hn
  have c1 := recursion_columnEq m nnz A hS hF hm hn { s with C := A.C }
  have c2 := recursion_columnEq m nnz A' hS' hF' hm hn' { s' with C := A'.C }
  have h0 : A.J 0 ≤ x := by rw [hS.ptr.1]; exact Nat.zero_le _
  exact columnEq_unique m A A' hS hF h _ _ c1 c2 m 0 (Nat.zero_le _) (by omega) x h0 hx

/-- The whole computation gives the same result on agreeing factors: the
result depends only on `J[0..m]`, on the slots below `nnz` and on the ordering. -/
theorem sinv_agree (m nnz : Nat) (r : Option IdxArr) (L L' : Csc) (scr scr' : RecState)
    (hm : 1 ≤ m) (hr : PermOK m r) (hS : SortedLower m L) (hF : FillClosed m L)
    (h : Agree m L L') (hn : nnz = L.J m) :
    Agree m (sinv m nnz r L scr).Z (sinv m nnz r L' scr').Z := by
  have hS1 := sortedLower_values m L (recursion m nnz L.J L.I { scr with C := L.C }).C hS
  have h1 : Agree m { L with C := (recursion m nnz L.J L.I { scr with C := L.C }).C }
      { L' with C := (recursion m nnz L'.J L'.I { scr' with C := L'.C }).C } :=
    ⟨h.1, fun l hl => ⟨(h.2 l hl).1, recursion_agree m nnz L L' scr scr' hm hS hF h hn l hl⟩⟩
  have h2 := permute_agree m r _ _ hr hS1.ptr hS1.rowsOK h1
  have h3 := transpose_agree m _ _
    { L with C := (recursion m nnz L.J L.I { scr with C := L.C }).C }
    { L' with C := (recursion m nnz L'.J L'.I { scr' with C := L'.C }).C }
    (permute_ptr m r _) (permute_rows m r _ hr hS1.rowsOK) h2
  have hS2 := permuteTranspose_sortedLower m r _ hr hS1.rowsOK hS1.lowerTri hS1.distinct
    hS1.hasDiag
  exact expand_agree m nnz nnz _ _ hS2.ptr hS2.rowsOK (fun j hj => (hS2.diag j hj).1) h3

/-- Agreeing matrices have the same pointer, row and value lists. -/
theorem agree_lists (m n : Nat) (Z Z' : Csc) (h : Agree m Z Z') (hn : Z.J m = n) :
    (List.range (m + 1)).map Z'.J = (List.range (m + 1)).map Z.J ∧
    (List.range n).map Z'.I = (List.range n).map Z.I ∧
    (List.range n).map Z'.C = (List.range n).map Z.C := by
  refine ⟨?_, ?_, ?_⟩
  · exact List.map_congr_left (fun j hj => (h.1 j (by rw [List.mem_range] at hj; omega)).symm)
  · exact List.map_congr_left (fun l hl =>
      ((h.2 l (by rw [List.mem_range] at hl; rw [hn]; exact hl)).1).symm)
  · exact List.map_congr_left (fun l hl =>
      ((h.2 l (by rw [List.mem_range] at hl; rw [hn]; exact hl)).2).symm)

/-- The iterations for the columns `n-1, ..., 0` leave every slot at or above
`J[n]` as it was. -/
theorem recFold_frame (m : Nat) (J I : IdxArr) (hJ : ∀ j, j < m → J j < J (j + 1))
    (n : Nat) (hn : n ≤ m) (s : RecState) (x : Nat) (hx : J n ≤ x) :
    ((List.range n).reverse.foldl (fun s j => recursionStep J I j s) s).C x = s.C x := by
  induction n generalizing s with
  | zero => rfl
  | succ n ih =>
    rw [List.range_succ, List.reverse_append, List.reverse_singleton, List.singleton_append,
      List.foldl_cons]
    have h1 := hJ n (by omega)
    rw [ih (by omega) _ (by omega)]
    exact recursionStep_frame J I n s x h1 (by omega)

/-- The recursion writes no slot at or above `J[m]`. -/
theorem recursion_high (m nnz : Nat) (A : Csc) (hS : SortedLower m A) (hm : 1 ≤ m)
    (hn : nnz = A.J m) (s : RecState) (x : Nat) (hx : A.J m ≤ x) :
    (recursion m nnz A.J A.I s).C x = s.C x := by
  have hl := last_col m A hS hm
  unfold recursion
  have hmono := ptr_mono m A.J hS.ptr (m - 1) m (by omega) (le_refl _)
  rw [recFold_frame m A.J A.I (fun j hj => (hS.diag j hj).1) (m - 1) (by omega) _ x (by omega)]
  have hne : x ≠ nnz - 1 := by omega
  exact Function.update_noteq hne _ _

/-- The values left by the recursion do not depend on the scratch buffers. -/
theorem recursion_scratch (m nnz : Nat) (L : Csc) (scr scr' : RecState) (hm : 1 ≤ m)
    (hS : SortedLower m L) (hF : FillClosed m L) (hn : nnz = L.J m) :
    (recursion m nnz L.J L.I { scr with C := L.C }).C =
      (recursion m nnz L.J L.I { scr' with C := L.C }).C := by
  funext x
  rcases Nat.lt_or_ge x (L.J m) with hx | hx
  · exact recursion_agree m nnz L L scr scr' hm hS hF
      ⟨fun _ _ => rfl, fun _ _ => ⟨rfl, rfl⟩⟩ hn x hx
  · rw [recursion_high m nnz L hS hm hn _ x hx, recursion_high m nnz L hS hm hn _ x hx]

/-- Every stored entry of the result is the entry of the inverse at its
position. -/
theorem sinv_value (m nnz : Nat) (A : Matrix (Fin m) (Fin m) ℚ) (r : Option IdxArr)
    (L : Csc) (scr : RecState) (hm : 1 ≤ m) (hA : A.IsSymm) (hr : PermOK m r)
    (hS : SortedLower m L) (hF : FillClosed m L)
    (hpiv : ∀ j, j < m → L.C (L.J j) ≠ 0) (hfac : IsFactorOf m r L A) (hn : nnz = L.J m)
    (a b : Nat) (v : ℚ) (hv : Stored (sinv m nnz r L scr).Z a b v) :
    ∃ (ha : a < m) (hb : b < m), v = A⁻¹ ⟨a, ha⟩ ⟨b, hb⟩ := by
  obtain ⟨_, W, hW, hsym, h1, h2⟩ := inverse_takahashi m A r L hA hr hpiv hfac
  rw [sinv_mem m nnz r L scr hr hS] at hv
  obtain ⟨j, l, hj, l1, l2, hab, hval⟩ := hv
  have hi := hS.rowsOK j hj l l1 l2
  have hcol := recursion_columnEq m nnz L hS hF hm hn { scr with C := L.C }
  have hZ := recursion_takahashi m L hS hF L.C
    (recursion m nnz L.J L.I { scr with C := L.C }).C W hcol hsym h1 h2 m j hj (by omega)
    l l1 l2
  rw [hZ] at hval
  rcases hab with hab | hab
  · have ea : a = permAt r (L.I l) := (Prod.mk.injEq _ _ _ _ ▸ hab : _ ∧ _).1
    have eb : b = permAt r j := (Prod.mk.injEq _ _ _ _ ▸ hab : _ ∧ _).2
    subst ea eb
    exact ⟨hr.1 _ hi, hr.1 _ hj, by rw [← hval, hW _ _ hi hj]⟩
  · have ea : a = permAt r j := (Prod.mk.injEq _ _ _ _ ▸ hab : _ ∧ _).1
    have eb : b = permAt r (L.I l) := (Prod.mk.injEq _ _ _ _ ▸ hab : _ ∧ _).2
    subst ea eb
    exact ⟨hr.1 _ hj, hr.1 _ hi, by rw [← hval, hsym, hW _ _ hj hi]⟩

theorem slot_inj {n p q p' q' : Nat} (hp : p < n) (hp' : p' < n)
    (h : p + n * q = p' + n * q') : p = p' ∧ q = q' := by
  rcases Nat.lt_trichotomy q q' with hq | hq | hq
  · exact absurd h (slot_ne hp hq)
  · subst hq; exact ⟨by omega, rfl⟩
  · exact absurd h.symm (slot_ne hp' hq)

theorem slot_lt_sq {n p q : Nat} (hp : p < n) (hq : q < n) : p + n * q < n * n := by
  have h1 : n * (q + 1) ≤ n * n := Nat.mul_le_mul_left n hq
  rw [Nat.mul_succ] at h1
  omega

/-- The scan of column `ik = I[J[j]+1+k2]` (lines 162-167, inclusive bound)
changes `Zt` only at the entries `h + lfi*k2` with `k2 <= h < lfi`, and at
`lfi + lfi*k2` when the slot `J[ik+1]` holds the row `j+1`. -/
theorem scan_frame (m : Nat) (A : Csc) (hS : SortedLower m A) (hF : FillClosed m A)
    (C : ValArr) (j : Nat) (hj : j + 1 < m) (k2 : Nat) (hk : k2 < A.J (j + 1) - (A.J j + 1))
    (Zt0 : ValArr) (idx : Nat)
    (h1 : ∀ h', k2 ≤ h' → h' < A.J (j + 1) - (A.J j + 1) →
      idx ≠ h' + (A.J (j + 1) - (A.J j + 1)) * k2)
    (h2 : idx ≠ A.J (j + 1) - (A.J j + 1) + (A.J (j + 1) - (A.J j + 1)) * k2 ∨
      A.I (A.J (A.I (A.J j + 1 + k2) + 1)) ≠ j + 1) :
    (forUp (A.J (A.I (A.J j + 1 + k2))) (A.J (A.I (A.J j + 1 + k2) + 1) + 1)
      (gatherScan A.I C (A.J j) (A.J (j + 1) - (A.J j + 1)) k2) (k2, Zt0)).2 idx = Zt0 idx := by
  have hjm : j < m := by omega
  have hik := hS.below j hjm (A.J j + 1 + k2) (by omega) (by omega)
  have hle : A.J (A.I (A.J j + 1 + k2)) ≤ A.J (A.I (A.J j + 1 + k2) + 1) := hS.ptr.2 _ hik.2
  rw [forUp_succ _ _ hle]
  have hinv := forUp_inv (ScanInv A C j k2 Zt0) _ _ hle
    (gatherScan A.I C (A.J j) (A.J (j + 1) - (A.J j + 1)) k2) (k2, Zt0)
    (scanInv_init m A hS hF C j hjm k2 hk Zt0)
    (fun x s h1 h2 h3 => scanInv_step m A hS C j hj k2 hk Zt0 x s h1 h2 h3)
  generalize forUp (A.J (A.I (A.J j + 1 + k2))) (A.J (A.I (A.J j + 1 + k2) + 1))
    (gatherScan A.I C (A.J j) (A.J (j + 1) - (A.J j + 1)) k2) (k2, Zt0) = s1 at hinv ⊢
  obtain ⟨i1, i2, i3, i4, i5⟩ := hinv
  have hfull : s1.1 = A.J (j + 1) - (A.J j + 1) := by
    rcases Nat.eq_or_lt_of_le i2 with e | e
    · exact e
    · obtain ⟨t, t1, t2, _⟩ := i4 s1.1 (le_refl _) e
      omega
  have hd : A.I (A.J j + s1.1 + 1) = j + 1 := by
    have e : A.J j + s1.1 + 1 = A.J (j + 1) := by
      have := (hS.diag j hjm).1
      omega
    rw [e]
    exact (hS.diag (j + 1) hj).2
  rw [← i5 idx h1]
  unfold gatherScan
  by_cases hmatch : A.I (A.J (A.I (A.J j + 1 + k2) + 1)) = A.I (A.J j + s1.1 + 1)
  · rw [if_pos hmatch]
    rw [hd] at hmatch
    rcases h2 with h2 | h2
    · simp only
      rw [hfull]
      exact Function.update_noteq h2 _ _
    · exact absurd hmatch h2
  · rw [if_neg hmatch]

/-- The gather (lines 158-169) changes `Zt` only at the entries `p + lfi*q`
with `q <= p < lfi` of the lower triangle, and possibly at `lfi*lfi`. -/
theorem gather_frame (m : Nat) (A : Csc) (hS : SortedLower m A) (hF : FillClosed m A)
    (C : ValArr) (j : Nat) (hj : j + 1 < m) (Zt0 : ValArr) (idx : Nat)
    (h1 : ∀ p q, q ≤ p → p < A.J (j + 1) - (A.J j + 1) →
      idx ≠ p + (A.J (j + 1) - (A.J j + 1)) * q)
    (h2 : idx ≠ (A.J (j + 1) - (A.J j + 1)) * (A.J (j + 1) - (A.J j + 1))) :
    gather A.J A.I C j (A.J (j + 1) - (A.J j + 1)) Zt0 idx = Zt0 idx := by
  have hjm : j < m := by omega
  have hinv := forUp_inv
    (fun k (s : Nat × ValArr) => s.1 = k - (A.J j + 1) ∧ s.2 idx = Zt0 idx)
    (A.J j + 1) (A.J (j + 1)) ((hS.diag j hjm).1)
    (gatherCol A.J A.I C j (A.J (j + 1) - (A.J j + 1))) (0, Zt0)
    ⟨by simp, rfl⟩
    (by
      intro k s k1 k2 ⟨e1, e2⟩
      have hk : s.1 < A.J (j + 1) - (A.J j + 1) := by omega
      have ek : k = A.J j + 1 + s.1 := by omega
      unfold gatherCol
      refine ⟨by simp only; omega, ?_⟩
      simp only
      rw [← e2, ek]
      apply scan_frame m A hS hF C j hj s.1 hk s.2 idx (fun h' q1 q2 => h1 h' s.1 q1 q2)
      rcases Nat.lt_or_ge (s.1 + 1) (A.J (j + 1) - (A.J j + 1)) with q | q
      · right
        have hlt := hS.strict j hjm (A.J j + 1 + s.1) (A.J (j + 1) - 1) (by omega) (by omega)
          (by omega)
        have hb := hS.below j hjm (A.J (j + 1) - 1) (by omega) (by omega)
        have hb2 := hS.below j hjm (A.J j + 1 + s.1) (by omega) (by omega)
        rw [(hS.diag _ (by omega)).2]
        omega
      · left
        have e : s.1 = A.J (j + 1) - (A.J j + 1) - 1 := by omega
        intro hc
        apply h2
        rw [hc]
        generalize A.J (j + 1) - (A.J j + 1) = n at hk e ⊢
        obtain ⟨d, rfl⟩ : ∃ d, n = d + 1 := ⟨n - 1, by omega⟩
        have e3 : s.1 = d := by omega
        rw [e3, Nat.mul_succ]
        omega)
  exact hinv.2

/-- The gather never writes the strict upper triangle of `Zt`. -/
theorem gather_upper (m : Nat) (A : Csc) (hS : SortedLower m A) (hF : FillClosed m A)
    (C : ValArr) (j : Nat) (hj : j + 1 < m) (Zt0 : ValArr) (p q : Nat) (hpq : p < q)
    (hq : q < A.J (j + 1) - (A.J j + 1)) :
    gather A.J A.I C j (A.J (j + 1) - (A.J j + 1)) Zt0
      (p + (A.J (j + 1) - (A.J j + 1)) * q) =
        Zt0 (p + (A.J (j + 1) - (A.J j + 1)) * q) := by
  apply gather_frame m A hS hF C j hj Zt0
  · intro p' q' h1 h2 hc
    have := slot_inj (by omega) h2 hc
    omega
  · have := slot_lt_sq (Nat.lt_trans hpq hq) hq
    omega

/-- The whole recursion is the run down to column `j` followed by the
iterations for the columns `j-1, ..., 0`. -/
theorem recursion_split (m nnz : Nat) (J I : IdxArr) (s : RecState) (j : Nat) (hj : j + 1 ≤ m) :
    recursion m nnz J I s =
      (List.range j).reverse.foldl (fun s j => recursionStep J I j s)
        (recursionFrom m nnz J I s j) := by
  unfold recursion recursionFrom
  have e : List.range (m - 1) = List.range j ++ List.range' j (m - 1 - j) := by
    rw [List.range_eq_range', List.range_eq_range']
    have h := List.range'_append_1 0 j (m - 1 - j)
    rw [Nat.zero_add] at h
    rw [h]
    congr 1
    omega
  simp only
  rw [e, List.reverse_append, List.foldl_append]

/-- The run down to column `j` is the iteration for column `j` applied to
the run down to column `j+1`. -/
theorem recursionFrom_step (m nnz : Nat) (J I : IdxArr) (s : RecState) (j : Nat)
    (hj : j + 1 < m) :
    recursionFrom m nnz J I s j = recursionStep J I j (recursionFrom m nnz J I s (j + 1)) := by
  unfold recursionFrom
  have e : m - 1 - j = (m - 1 - (j + 1)) + 1 := by omega
  simp only
  rw [e, List.range'_succ, List.reverse_cons, List.foldl_append]
  rfl

/-- A loop depends on its body only at the indices it visits. -/
theorem forUp_congr {σ : Type} (lo hi : Nat) (f g : Nat → σ → σ) (s : σ)
    (h : ∀ i s, lo ≤ i → i < hi → f i s = g i s) : forUp lo hi f s = forUp lo hi g s := by
  unfold forUp
  apply List.foldl_ext
  intro a b hb
  rw [List.mem_range'_1] at hb
  exact h b a hb.1 (by omega)

/-- The gather for column `j` reads the values buffer only at slots at or
above `J[j+1]`, that is in the columns after `j`. -/
theorem gather_reads (m : Nat) (A : Csc) (hS : SortedLower m A) (C C' : ValArr) (j : Nat)
    (hj : j < m) (Zt : ValArr) (h : ∀ x, A.J (j + 1) ≤ x → C x = C' x) :
    gather A.J A.I C j (A.J (j + 1) - (A.J j + 1)) Zt =
      gather A.J A.I C' j (A.J (j + 1) - (A.J j + 1)) Zt := by
  unfold gather
  congr 1
  apply forUp_congr
  intro k s k1 k2
  unfold gatherCol
  simp only
  congr 1
  congr 1
  apply forUp_congr
  intro l t l1 l2
  unfold gatherScan
  have hb := hS.below j hj k (by omega) k2
  have hmono := ptr_mono m A.J hS.ptr (j + 1) (A.I k) (by omega) (by omega)
  rw [h l (by omega)]

theorem scatT_fst {β : Type} (xs : List (Nat × β)) (s : (IdxArr × (Nat → β)) × List Nat) :
    (xs.foldl scatStepT s).1 = xs.foldl scatStep s.1 :=
  foldl_proj Prod.fst scatStepT scatStep (fun _ _ => rfl) xs s

theorem scatT_snd {β : Type} (xs : List (Nat × β)) (c : IdxArr) (o : Nat → β) (tr : List Nat) :
    (xs.foldl scatStepT ((c, o), tr)).2 = tr ++ slots xs c := by
  induction xs generalizing c o tr with
  | nil => simp [slots]
  | cons x xs ih =>
    have hstep : scatStepT ((c, o), tr) x =
        ((Function.update c x.1 (c x.1 + 1), Function.update o (c x.1) x.2), tr ++ [c x.1]) := rfl
    rw [List.foldl_cons, hstep, ih]
    simp [slots]

theorem slots_length {β : Type} (xs : List (Nat × β)) (c : IdxArr) :
    (slots xs c).length = xs.length := by
  induction xs generalizing c with
  | nil => rfl
  | cons x xs ih => simp [slots, ih]

theorem slots_mem {β : Type} (xs : List (Nat × β)) (c : IdxArr) (l : Nat) (h : l ∈ slots xs c) :
    ∃ x ∈ xs, c x.1 ≤ l ∧ l < c x.1 + cnt x.1 xs := by
  induction xs generalizing c with
  | nil => simp [slots] at h
  | cons x xs ih =>
    simp only [slots, List.mem_cons] at h
    rcases h with h | h
    · refine ⟨x, List.mem_cons_self _ _, by omega, ?_⟩
      rw [cnt_cons]
      simp only [if_true]
      omega
    · obtain ⟨y, hy, h1, h2⟩ := ih _ h
      refine ⟨y, List.mem_cons_of_mem _ hy, ?_, ?_⟩
      · by_cases e : y.1 = x.1
        · rw [e] at h1; simp only [Function.update_same] at h1; rw [e]; omega
        · rw [Function.update_noteq e] at h1; exact h1
      · rw [cnt_cons]
        by_cases e : y.1 = x.1
        · rw [e] at h1 h2 ⊢
          simp only [Function.update_same] at h2
          simp only [if_true]
          omega
        · rw [Function.update_noteq e] at h2
          have e' : ¬ x.1 = y.1 := fun q => e q.symm
          simp only [e', if_false]
          omega

theorem separated_step {β : Type} (m : Nat) (x : Nat × β) (xs : List (Nat × β)) (c : IdxArr)
    (hsep : Separated m c (x :: xs)) : Separated m (Function.update c x.1 (c x.1 + 1)) xs := by
  intro a b hab hb
  have h1 := hsep a b hab hb
  rw [cnt_cons] at h1
  by_cases ea : x.1 = a
  · subst ea
    have : b ≠ x.1 := by omega
    simp only [Function.update_same, Function.update_noteq this]
    simp only [if_true] at h1
    omega
  · have ea' : a ≠ x.1 := fun q => ea q.symm
    simp only [ea, if_false] at h1
    simp only [Function.update_noteq ea']
    by_cases eb : x.1 = b
    · subst eb; simp only [Function.update_same]; omega
    · have eb' : b ≠ x.1 := fun q => eb q.symm
      simp only [Function.update_noteq eb']; omega

theorem slots_nodup {β : Type} (m : Nat) (xs : List (Nat × β)) (c : IdxArr)
    (hsep : Separated m c xs) (hkey : ∀ x ∈ xs, x.1 < m) : (slots xs c).Nodup := by
  induction xs generalizing c with
  | nil => simp [slots]
  | cons x xs ih =>
    have hx : x.1 < m := hkey x (List.mem_cons_self _ _)
    have hkey' : ∀ y ∈ xs, y.1 < m := fun y hy => hkey y (List.mem_cons_of_mem _ hy)
    simp only [slots, List.nodup_cons]
    refine ⟨?_, ih _ (separated_step m x xs c hsep) hkey'⟩
    intro hmem
    obtain ⟨y, hy, h1, h2⟩ := slots_mem xs _ _ hmem
    have hy' := hkey' y hy
    rcases Nat.lt_trichotomy y.1 x.1 with q | q | q
    · have h3 := hsep y.1 x.1 q hx
      rw [cnt_cons] at h3
      have e : ¬ x.1 = y.1 := by omega
      have e' : y.1 ≠ x.1 := by omega
      simp only [e, if_false] at h3
      rw [Function.update_noteq e'] at h2
      omega
    · rw [q] at h1
      simp only [Function.update_same] at h1
      omega
    · have h3 := hsep x.1 y.1 q hy'
      rw [cnt_cons] at h3
      simp only [if_true] at h3
      have e' : y.1 ≠ x.1 := by omega
      rw [Function.update_noteq e'] at h1
      omega

/-- A bucket pass from the cursors computed by `cumsum2` writes every slot
below the number of items exactly once. -/
theorem bucket_slots {β : Type} (m : Nat) (xs : List (Nat × β)) (w p0 : IdxArr)
    (hw : ∀ k < m, w k = cnt k xs) (hkey : ∀ x ∈ xs, x.1 < m) :
    (slots xs (cumsum2Core p0 w m).2).Perm (List.range xs.length) := by
  have hsep : Separated m (cumsum2Core p0 w m).2 xs := by
    intro a b hab hb
    rw [cumsum2Core_snd, cumsum2Core_snd]
    have ha : a < m := by omega
    simp only [ha, hb, if_true]
    rw [← hw a ha, ← psum_succ]
    exact psum_mono w hab
  have hnd := slots_nodup m xs _ hsep hkey
  have hsub : slots xs (cumsum2Core p0 w m).2 ⊆ List.range xs.length := by
    intro l hl
    obtain ⟨y, hy, h1, h2⟩ := slots_mem xs _ l hl
    have hy' := hkey y hy
    rw [cumsum2Core_snd] at h2
    simp only [hy', if_true] at h2
    rw [← hw y.1 hy', ← psum_succ] at h2
    have hle : y.1 + 1 ≤ m := hy'
    have h3 := psum_mono w hle
    rw [psum_congr m w (fun k => cnt k xs) hw, psum_cnt m xs hkey] at h3
    rw [List.mem_range]
    omega
  exact (List.subperm_of_subset hnd hsub).perm_of_length_le
    (by rw [List.length_range, slots_length])

theorem zipT_step (s : (IdxArr × IdxArr × ValArr) × List Nat) (k row : Nat) (v : ℚ) :
    zipT ((Function.update s.1.1 k (s.1.1 k + 1), Function.update s.1.2.1 (s.1.1 k) row,
      Function.update s.1.2.2 (s.1.1 k) v), s.2 ++ [s.1.1 k]) =
      scatStepT (zipT s) (k, (row, v)) := by
  unfold zipT scatStepT
  rw [zipState_step]
  rfl

theorem fillUpperT_eq (m : Nat) (A : Csc) (s : (IdxArr × IdxArr × ValArr) × List Nat) :
    zipT (fillUpperT m A s) =
      ((entries m A.J).map (transItem A)).foldl scatStepT (zipT s) := by
  have h := nested_forUp m A.J (fun j => A.J (j + 1))
    (fun j k (s : (IdxArr × IdxArr × ValArr) × List Nat) =>
      ((Function.update s.1.1 (A.I k) (s.1.1 (A.I k) + 1),
        Function.update s.1.2.1 (s.1.1 (A.I k)) j,
        Function.update s.1.2.2 (s.1.1 (A.I k)) (A.C k)), s.2 ++ [s.1.1 (A.I k)])) s
  rw [List.foldl_map]
  refine Eq.trans (congrArg zipT h) ?_
  apply foldl_proj
  intro s e
  exact zipT_step s _ _ _

theorem fillLowerT_eq (m : Nat) (A : Csc) (s : (IdxArr × IdxArr × ValArr) × List Nat) :
    zipT (fillLowerT m A s) =
      ((loopPairs m (fun j => A.J j + 1) (fun j => A.J (j + 1))).map (lowerItem A)).foldl
        scatStepT (zipT s) := by
  have h := nested_forUp m (fun j => A.J j + 1) (fun j => A.J (j + 1))
    (fun j k (s : (IdxArr × IdxArr × ValArr) × List Nat) =>
      ((Function.update s.1.1 j (s.1.1 j + 1),
        Function.update s.1.2.1 (s.1.1 j) (A.I k),
        Function.update s.1.2.2 (s.1.1 j) (A.C k)), s.2 ++ [s.1.1 j])) s
  rw [List.foldl_map]
  refine Eq.trans (congrArg zipT h) ?_
  apply foldl_proj
  intro s e
  exact zipT_step s _ _ _

theorem fillT_eq (m : Nat) (A : Csc) (s : (IdxArr × IdxArr × ValArr) × List Nat) :
    zipT (fillLowerT m A (fillUpperT m A s)) = (fillItems m A).foldl scatStepT (zipT s) := by
  unfold fillItems
  rw [fillLowerT_eq, fillUpperT_eq, List.foldl_append]

/-- Dropping the record of the written slots gives the fill passes. -/
theorem fillUpperT_fst (m : Nat) (A : Csc) (s : (IdxArr × IdxArr × ValArr) × List Nat) :
    (fillUpperT m A s).1 = fillUpper m A s.1 := by
  unfold fillUpperT fillUpper
  refine Eq.trans (foldl_proj Prod.fst _ _ ?_ _ s) rfl
  intro t j
  exact foldl_proj Prod.fst _ _ (fun _ _ => rfl) _ t

theorem fillLowerT_fst (m : Nat) (A : Csc) (s : (IdxArr × IdxArr × ValArr) × List Nat) :
    (fillLowerT m A s).1 = fillLower m A s.1 := by
  unfold fillLowerT fillLower
  refine Eq.trans (foldl_proj Prod.fst _ _ ?_ _ s) rfl
  intro t j
  exact foldl_proj Prod.fst _ _ (fun _ _ => rfl) _ t

theorem expandT_fst (m nnz : Nat) (A : Csc) : (expandT m nnz A).1 = expand m nnz A := by
  unfold expandT expand
  simp only [fillLowerT_fst, fillUpperT_fst]

theorem fillItems_length (m : Nat) (A : Csc) (hA : PtrOK m A.J)
    (hne : ∀ j < m, A.J j < A.J (j + 1)) : (fillItems m A).length = 2 * A.J m - m := by
  unfold fillItems
  rw [List.length_append, List.length_map, List.length_map, entries_length m A.J hA]
  have := lower_length m A.J hA.1 hne
  omega

/-- The slots written by the two fill passes are `0 .. 2*J[m]-m-1`, each
once. -/
theorem expandT_snd (m nnz : Nat) (A : Csc) (hS : SortedLower m A) :
    (expandT m nnz A).2.Perm (List.range (2 * A.J m - m)) := by
  have hne : ∀ j < m, A.J j < A.J (j + 1) := fun j hj => (hS.diag j hj).1
  have hz := congrArg Prod.snd (fillT_eq m A
    (((cumsum2Core (fun _ => 0) (colCounts A m) m).2, fun _ => 0, fun _ => 0), []))
  have e : (expandT m nnz A).2 = (zipT (fillLowerT m A (fillUpperT m A
      (((cumsum2Core (fun _ => 0) (colCounts A m) m).2, fun _ => 0, fun _ => 0), [])))).2 := rfl
  have hz0 : zipT (((cumsum2Core (fun _ => 0) (colCounts A m) m).2, fun _ => 0, fun _ => 0), []) =
      (((cumsum2Core (fun _ => 0) (colCounts A m) m).2, fun _ => ((0 : Nat), (0 : ℚ))), []) := rfl
  rw [e, hz, hz0, scatT_snd, List.nil_append, ← fillItems_length m A hS.ptr hne]
  exact bucket_slots m (fillItems m A) (colCounts A m) (fun _ => 0)
    (fun k hk => colCounts_eq m A hS.ptr hne k hk) (fillItems_key_lt m A hS.rowsOK)

/-- Two lists of `(row, value)` pairs with strictly ascending rows and the
same members are equal. -/
theorem sorted_ext (l1 l2 : List (Nat × ℚ))
    (h1 : List.Pairwise (fun x y => x.1 < y.1) l1)
    (h2 : List.Pairwise (fun x y => x.1 < y.1) l2)
    (h : ∀ x, x ∈ l1 ↔ x ∈ l2) : l1 = l2 := by
  induction l1 generalizing l2 with
  | nil =>
    cases l2 with
    | nil => rfl
    | cons b t2 => exact absurd ((h b).mpr (List.mem_cons_self _ _)) (List.not_mem_nil _)
  | cons a t1 ih =>
    cases l2 with
    | nil => exact absurd ((h a).mp (List.mem_cons_self _ _)) (List.not_mem_nil _)
    | cons b t2 =>
      rw [List.pairwise_cons] at h1 h2
      have hab : a = b := by
        by_contra hne
        have ha : a ∈ t2 := by
          rcases List.mem_cons.mp ((h a).mp (List.mem_cons_self _ _)) with q | q
          · exact absurd q hne
          · exact q
        have hb : b ∈ t1 := by
          rcases List.mem_cons.mp ((h b).mpr (List.mem_cons_self _ _)) with q | q
          · exact absurd q.symm hne
          · exact q
        have q1 := h2.1 a ha
        have q2 := h1.1 b hb
        omega
      subst hab
      congr 1
      apply ih t2 h1.2 h2.2
      intro x
      constructor
      · intro hx
        rcases List.mem_cons.mp ((h x).mp (List.mem_cons_of_mem _ hx)) with q | q
        · subst q
          have := h1.1 x hx
          omega
        · exact q
      · intro hx
        rcases List.mem_cons.mp ((h x).mpr (List.mem_cons_of_mem _ hx)) with q | q
        · subst q
          have := h2.1 x hx
          omega
        · exact q

/-- The stored entries of a column with strictly ascending rows, as a
strictly ascending list. -/
theorem colEntries_sorted (m : Nat) (A : Csc) (hS : SortedLower m A) (a : Nat) (ha : a < m) :
    List.Pairwise (fun (x y : Nat × ℚ) => x.1 < y.1) (colEntries A a) := by
  unfold colEntries
  rw [pairwise_map_range']
  intro l l' h1 h2 h3
  have := (hS.diag a ha).1
  exact hS.strict a ha l l' h1 h2 (by omega)

theorem colEntries_length (A : Csc) (a : Nat) :
    (colEntries A a).length = A.J (a + 1) - A.J a := by
  unfold colEntries
  rw [List.length_map, List.length_range']

/-- Two sorted lower-triangular matrices that store the same entries in
every column hold the same arrays. -/
theorem agree_of_stored (m : Nat) (A P : Csc) (hA : SortedLower m A) (hP : SortedLower m P)
    (h : ∀ a, a < m → ∀ i v, Stored P i a v ↔ Stored A i a v) : Agree m A P := by
  have hcol : ∀ k, k < m → colEntries A k = colEntries P k := by
    intro k hk
    apply sorted_ext _ _ (colEntries_sorted m A hA k hk) (colEntries_sorted m P hP k hk)
    intro x
    exact (h k hk x.1 x.2).symm
  have hJ : ∀ j, j ≤ m → A.J j = P.J j := by
    intro j
    induction j with
    | zero => intro _; rw [hA.ptr.1, hP.ptr.1]
    | succ n ih =>
      intro hn
      have e := congrArg List.length (hcol n (by omega))
      rw [colEntries_length, colEntries_length] at e
      have := ih (by omega)
      have := hA.ptr.2 n (by omega)
      have := hP.ptr.2 n (by omega)
      omega
  exact agree_of_cols m A P hA.ptr hJ hcol

/-- With an ordering that maps every variable to itself, the
permute-then-transpose step returns its sorted lower-triangular input. -/
theorem permuteTranspose_id (m : Nat) (r : Option IdxArr) (A : Csc) (hS : SortedLower m A)
    (hr : ∀ i, i < m → permAt r i = i) : Agree m A (permuteTranspose m r A) := by
  have hperm : PermOK m r := by
    refine ⟨fun i hi => by rw [hr i hi]; exact hi, ?_⟩
    intro i hi j hj e
    rw [hr i hi, hr j hj] at e
    exact e
  have hP := permuteTranspose_sortedLower m r A hperm hS.rowsOK hS.lowerTri hS.distinct
    hS.hasDiag
  apply agree_of_stored m A _ hS hP
  intro a ha i v
  rw [permuteTranspose_mem m r A hperm hS.rowsOK a ha, stored_iff]
  constructor
  · rintro ⟨j, l, hj, l1, l2, e1, e2, e3⟩
    have hi := hS.rowsOK j hj l l1 l2
    have hlow := hS.lowerTri j hj l l1 l2
    rw [hr _ hi, hr _ hj] at e1 e2
    have ej : j = a := by omega
    subst ej
    exact ⟨l, l1, l2, by omega, e3⟩
  · rintro ⟨l, l1, l2, e1, e2⟩
    have hi := hS.rowsOK a ha l l1 l2
    have hlow := hS.lowerTri a ha l l1 l2
    refine ⟨a, l, ha, l1, l2, ?_, ?_, e2⟩
    · rw [hr _ hi, hr _ ha]; omega
    · rw [hr _ hi, hr _ ha]; omega

/-- A fold that records the items it visits. -/
theorem foldl_trace {σ : Type} (f : Nat → σ → σ) (xs : List Nat) (a : σ) (tr : List Nat) :
    (xs.foldl (fun (t : σ × List Nat) l => (f l t.1, t.2 ++ [l])) (a, tr)) =
      (xs.foldl (fun s l => f l s) a, tr ++ xs) := by
  induction xs generalizing a tr with
  | nil => simp
  | cons x xs ih =>
    rw [List.foldl_cons, ih, List.foldl_cons]
    simp

/-- A loop that records its counter visits `lo, ..., hi-1` and is otherwise
the loop itself. -/
theorem forUp_trace {σ : Type} (lo hi : Nat) (f : Nat → σ → σ) (a : σ) (tr : List Nat) :
    forUp lo hi (fun l (t : σ × List Nat) => (f l t.1, t.2 ++ [l])) (a, tr) =
      (forUp lo hi f a, tr ++ List.range' lo (hi - lo)) := by
  unfold forUp
  exact foldl_trace f _ a tr

/-- The scan of column `ik = I[k]` inspects `l = J[ik], ..., J[ik+1]`, the
last one included, and is otherwise `gatherCol`. -/
theorem gatherColT_eq (J I : IdxArr) (C : ValArr) (j lfi k : Nat)
    (s : (Nat × ValArr) × List Nat) :
    gatherColT J I C j lfi k s =
      (gatherCol J I C j lfi k s.1,
        s.2 ++ List.range' (J (I k)) (J (I k + 1) + 1 - J (I k))) := by
  unfold gatherColT gatherCol
  simp only
  rw [forUp_trace]

/-- Dropping the record of the inspected indices gives the gather. -/
theorem gatherT_fst (J I : IdxArr) (C : ValArr) (j lfi : Nat) (Zt : ValArr) :
    (gatherT J I C j lfi Zt).1 = gather J I C j lfi Zt := by
  unfold gatherT gather forUp
  simp only
  have h := foldl_proj (Prod.fst : (Nat × ValArr) × List Nat → Nat × ValArr)
    (fun s k => gatherColT J I C j lfi k s) (fun s k => gatherCol J I C j lfi k s)
    (fun s k => by show (gatherColT J I C j lfi k s).1 = _; rw [gatherColT_eq])
    (List.range' (J j + 1) (J (j + 1) - (J j + 1))) ((0, Zt), [])
  rw [h]

/-- On a valid fill-closed factor the scan of column `ik = I[J[j]+1+k2]` up
to and including `J[ik+1]` is the scan with the strict bound, unless the
slot `J[ik+1]` holds the row `j+1`. -/
theorem scan_eq_strict (m : Nat) (A : Csc) (hS : SortedLower m A) (hF : FillClosed m A)
    (C : ValArr) (j : Nat) (hj : j + 1 < m) (k2 : Nat) (hk : k2 < A.J (j + 1) - (A.J j + 1))
    (Zt0 : ValArr) (hno : A.I (A.J (A.I (A.J j + 1 + k2) + 1)) ≠ j + 1) :
    forUp (A.J (A.I (A.J j + 1 + k2))) (A.J (A.I (A.J j + 1 + k2) + 1) + 1)
      (gatherScan A.I C (A.J j) (A.J (j + 1) - (A.J j + 1)) k2) (k2, Zt0) =
    forUp (A.J (A.I (A.J j + 1 + k2))) (A.J (A.I (A.J j + 1 + k2) + 1))
      (gatherScan A.I C (A.J j) (A.J (j + 1) - (A.J j + 1)) k2) (k2, Zt0) := by
  have hjm : j < m := by omega
  have hik := hS.below j hjm (A.J j + 1 + k2) (by omega) (by omega)
  have hle : A.J (A.I (A.J j + 1 + k2)) ≤ A.J (A.I (A.J j + 1 + k2) + 1) := hS.ptr.2 _ hik.2
  rw [forUp_succ _ _ hle]
  have hinv := forUp_inv (ScanInv A C j k2 Zt0) _ _ hle
    (gatherScan A.I C (A.J j) (A.J (j + 1) - (A.J j + 1)) k2) (k2, Zt0)
    (scanInv_init m A hS hF C j hjm k2 hk Zt0)
    (fun x s h1 h2 h3 => scanInv_step m A hS C j hj k2 hk Zt0 x s h1 h2 h3)
  generalize forUp (A.J (A.I (A.J j + 1 + k2))) (A.J (A.I (A.J j + 1 + k2) + 1))
    (gatherScan A.I C (A.J j) (A.J (j + 1) - (A.J j + 1)) k2) (k2, Zt0) = s1 at hinv ⊢
  obtain ⟨i1, i2, i3, i4, i5⟩ := hinv
  have hfull : s1.1 = A.J (j + 1) - (A.J j + 1) := by
    rcases Nat.eq_or_lt_of_le i2 with e | e
    · exact e
    · obtain ⟨t, t1, t2, _⟩ := i4 s1.1 (le_refl _) e
      omega
  have hd : A.I (A.J j + s1.1 + 1) = j + 1 := by
    have e : A.J j + s1.1 + 1 = A.J (j + 1) := by
      have := (hS.diag j hjm).1
      omega
    rw [e]
    exact (hS.diag (j + 1) hj).2
  unfold gatherScan
  rw [hd, if_neg hno]

/-- The extra slot `J[ik+1]` of a column `ik` before the last one holds the
row `ik+1`, which is not the row `j+1` looked for once `h = lfi`. -/
theorem next_diag_ne (m : Nat) (A : Csc) (hS : SortedLower m A) (j : Nat) (hj : j < m)
    (k : Nat) (hk1 : A.J j < k) (hk2 : k < A.J (j + 1)) (hlast : A.I k + 1 < m) :
    A.I (A.J (A.I k + 1)) ≠ j + 1 := by
  have hb := hS.below j hj k hk1 hk2
  rw [(hS.diag _ hlast).2]
  omega

/-- The gather as written is the gather with the strict bound whenever the
word after the stored row indices, `I[J[m]]`, is not the row `j+1`. -/
theorem gather_eq_strict (m : Nat) (A : Csc) (hS : SortedLower m A) (hF : FillClosed m A)
    (C : ValArr) (j : Nat) (hj : j + 1 < m) (Zt0 : ValArr) (hno : A.I (A.J m) ≠ j + 1) :
    gather A.J A.I C j (A.J (j + 1) - (A.J j + 1)) Zt0 =
      gatherStrict A.J A.I C j (A.J (j + 1) - (A.J j + 1)) Zt0 := by
  have hjm : j < m := by omega
  unfold gather gatherStrict
  have hinv := forUp_inv
    (fun k (s : Nat × ValArr) => s.1 = k - (A.J j + 1) ∧
      s = forUp (A.J j + 1) k (gatherColStrict A.J A.I C j (A.J (j + 1) - (A.J j + 1))) (0, Zt0))
    (A.J j + 1) (A.J (j + 1)) ((hS.diag j hjm).1)
    (gatherCol A.J A.I C j (A.J (j + 1) - (A.J j + 1))) (0, Zt0)
    ⟨by simp, by rw [forUp_of_le _ _ (le_refl _)]⟩
    (by
      intro k s k1 k2 ⟨e1, e2⟩
      have hk : s.1 < A.J (j + 1) - (A.J j + 1) := by omega
      have ek : k = A.J j + 1 + s.1 := by omega
      have hb := hS.below j hjm k (by omega) k2
      have hne : A.I (A.J (A.I k + 1)) ≠ j + 1 := by
        rcases Nat.lt_or_ge (A.I k + 1) m with q | q
        · exact next_diag_ne m A hS j hjm k (by omega) k2 q
        · have e : A.I k + 1 = m := by omega
          rw [e]
          exact hno
      have hstep : gatherCol A.J A.I C j (A.J (j + 1) - (A.J j + 1)) k s =
          gatherColStrict A.J A.I C j (A.J (j + 1) - (A.J j + 1)) k s := by
        unfold gatherCol gatherColStrict
        simp only
        have hsc := scan_eq_strict m A hS hF C j hj s.1 hk s.2 (by rw [← ek]; exact hne)
        rw [← ek] at hsc
        rw [hsc]
      refine ⟨?_, ?_⟩
      · rw [hstep]
        unfold gatherColStrict
        simp only
        omega
      · rw [forUp_succ _ _ k1, ← e2, hstep])
  rw [hinv.2]

theorem wrapIdx_add (a b : Int) : wrapIdx (wrapIdx a + b) = wrapIdx (a + b) := by
  unfold wrapIdx
  omega

theorem wrapIdx_fits (x : Int) (h1 : -2147483648 ≤ x) (h2 : x < 2147483648) : wrapIdx x = x := by
  unfold wrapIdx
  omega

/-- The loop of `cumsum2` on machine indices leaves the wrapped prefix sums. -/
theorem cumsum2_machine_loop (p c : MwArr) (n : Nat) :
    forUp 0 n cumsum2Loop (p, c, 0) =
      (fun i => if i < n then wrapIdx (Finset.sum (Finset.range i) c) else p i,
       fun i => if i < n then wrapIdx (Finset.sum (Finset.range i) c) else c i,
       wrapIdx (Finset.sum (Finset.range n) c)) := by
  induction n with
  | zero =>
    rw [forUp_of_le _ _ (le_refl 0)]
    have e : wrapIdx 0 = 0 := by decide
    simp [e]
  | succ n ih =>
    rw [forUp_succ _ _ (Nat.zero_le n), ih]
    simp only [cumsum2Loop]
    refine Prod.ext ?_ (Prod.ext ?_ ?_)
    · funext i
      by_cases h : i = n
      · subst h; simp
      · simp only [Function.update_noteq h]
        by_cases h2 : i < n
        · simp [h2, Nat.lt_succ_of_lt h2]
        · have : ¬ i < n + 1 := by omega
          simp [h2, this]
    · funext i
      by_cases h : i = n
      · subst h; simp
      · simp only [Function.update_noteq h]
        by_cases h2 : i < n
        · simp [h2, Nat.lt_succ_of_lt h2]
        · have : ¬ i < n + 1 := by omega
          simp [h2, this]
    · simp only [lt_irrefl, if_false]
      rw [wrapIdx_add, Finset.sum_range_succ]

/-- The arrays that `cumsum2` leaves when both arrays are present. -/
theorem cumsum2_some (p c : MwArr) (n : Nat) :
    cumsum2 (some p) (some c) n =
      (some (fun i => if i ≤ n then wrapIdx (Finset.sum (Finset.range i) c) else p i),
       some (fun i => if i < n then wrapIdx (Finset.sum (Finset.range i) c) else c i)) := by
  unfold cumsum2
  simp only [cumsum2_machine_loop]
  congr 2
  funext i
  by_cases h : i = n
  · subst h; simp
  · rw [Function.update_noteq h]
    by_cases h2 : i < n
    · simp [h2, Nat.le_of_lt h2]
    · have : ¬ i ≤ n := by omega
      simp [h2, this]

/-- Prefix sums of non-negative counts are non-negative and do not exceed the
total. -/
theorem sum_prefix_bounds (c : MwArr) (n : Nat) (h : ∀ k, k < n → 0 ≤ c k) (i : Nat)
    (hi : i ≤ n) :
    0 ≤ Finset.sum (Finset.range i) c ∧
      Finset.sum (Finset.range i) c ≤ Finset.sum (Finset.range n) c := by
  constructor
  · exact Finset.sum_nonneg (fun k hk => h k (by rw [Finset.mem_range] at hk; omega))
  · obtain ⟨d, rfl⟩ : ∃ d, n = i + d := ⟨n - i, by omega⟩
    rw [Finset.sum_range_add]
    have : 0 ≤ Finset.sum (Finset.range d) (fun x => c (i + x)) :=
      Finset.sum_nonneg (fun k hk => h (i + k) (by rw [Finset.mem_range] at hk; omega))
    exact le_add_of_nonneg_right this

/-- While the total fits the index type, `cumsum2` on machine indices
computes what the exact-arithmetic `cumsum2Core` computes. -/
theorem cumsum2_exact (p c : IdxArr) (n : Nat) (h : psum c n < 2147483648) :
    cumsum2 (some (fun i => (p i : Int))) (some (fun i => (c i : Int))) n =
      (some (fun i => ((cumsum2Core p c n).1 i : Int)),
       some (fun i => ((cumsum2Core p c n).2 i : Int))) := by
  rw [cumsum2_some]
  have hs : ∀ i, i ≤ n →
      wrapIdx (Finset.sum (Finset.range i) (fun k => (c k : Int))) = (psum c i : Int) := by
    intro i hi
    have e : Finset.sum (Finset.range i) (fun k => (c k : Int)) = (psum c i : Int) := by
      unfold psum
      push_cast
      rfl
    rw [e]
    have hm := psum_mono c hi
    exact wrapIdx_fits _ (by omega) (by omega)
  congr 2
  · funext i
    rw [cumsum2Core_fst]
    by_cases hi : i ≤ n
    · simp only [hi, if_true]
      exact hs i hi
    · simp only [hi, if_false]
  · funext i
    rw [cumsum2Core_snd]
    by_cases hi : i < n
    · simp only [hi, if_true]
      exact hs i (Nat.le_of_lt hi)
    · simp only [hi, if_false]

/-! ## The claims -/

/-- C1: for `m >= 1`, a symmetric `A`, an ordering `perm` and a valid packed
`L D Lᵀ` factor of `A(perm, perm)` (diagonal first, strictly ascending
sub-diagonal rows, fill-closed pattern, non-zero pivots), `A` is invertible
and every entry `Z[a,b]` stored by the recursion, the permutation step and
the symmetric expansion equals the `(a, b)` entry of the inverse of `A`. -/
theorem sinv_correct (m nnz : Nat) (A : Matrix (Fin m) (Fin m) ℚ) (r : Option IdxArr)
    (L : Csc) (scr : RecState) (hm : 1 ≤ m) (hA : A.IsSymm) (hr : PermOK m r)
    (hS : SortedLower m L) (hF : FillClosed m L)
    (hpiv : ∀ j, j < m → L.C (L.J j) ≠ 0) (hfac : IsFactorOf m r L A) (hn : nnz = L.J m) :
    IsUnit A.det ∧
    ∀ a b v, Stored (sinv m nnz r L scr).Z a b v →
      ∃ (ha : a < m) (hb : b < m), v = A⁻¹ ⟨a, ha⟩ ⟨b, hb⟩ := by
  obtain ⟨hdet, W, hW, hsym, h1, h2⟩ := inverse_takahashi m A r L hA hr hpiv hfac
  refine ⟨hdet, ?_⟩
  intro a b v hv
  rw [sinv_mem m nnz r L scr hr hS] at hv
  obtain ⟨j, l, hj, l1, l2, hab, hval⟩ := hv
  have hi := hS.rowsOK j hj l l1 l2
  have hcol := recursion_columnEq m nnz L hS hF hm hn { scr with C := L.C }
  have hZ := recursion_takahashi m L hS hF L.C
    (recursion m nnz L.J L.I { scr with C := L.C }).C W hcol hsym h1 h2 m j hj (by omega)
    l l1 l2
  rw [hZ] at hval
  rcases hab with hab | hab
  · have ea : a = permAt r (L.I l) := (Prod.mk.injEq _ _ _ _ ▸ hab : _ ∧ _).1
    have eb : b = permAt r j := (Prod.mk.injEq _ _ _ _ ▸ hab : _ ∧ _).2
    subst ea eb
    exact ⟨hr.1 _ hi, hr.1 _ hj, by rw [← hval, hW _ _ hi hj]⟩
  · have ea : a = permAt r j := (Prod.mk.injEq _ _ _ _ ▸ hab : _ ∧ _).1
    have eb : b = permAt r (L.I l) := (Prod.mk.injEq _ _ _ _ ▸ hab : _ ∧ _).2
    subst ea eb
    exact ⟨hr.1 _ hj, hr.1 _ hi, by rw [← hval, hsym, hW _ _ hj hi]⟩

/-- Witness for C1: the tridiagonal example in natural ordering. -/
theorem sinv_correct_witness :
    (1 ≤ 3 ∧ exA.IsSymm ∧ PermOK 3 none ∧ SortedLower 3 exL ∧ FillClosed 3 exL ∧
      (∀ j, j < 3 → exL.C (exL.J j) ≠ 0) ∧ IsFactorOf 3 none exL exA ∧ 5 = exL.J 3) ∧
    (IsUnit exA.det ∧
    ∀ a b v, Stored (sinv 3 5 none exL zeroScratch).Z a b v →
      ∃ (ha : a < 3) (hb : b < 3), v = exA⁻¹ ⟨a, ha⟩ ⟨b, hb⟩) :=
  ⟨⟨by decide, by decide!, by decide, by decide, by decide, by decide!, by decide!, by decide⟩,
    sinv_correct 3 5 exA none exL zeroScratch (by decide) (by decide!) (by decide) (by decide)
      (by decide) (by decide!) (by decide!) (by decide)⟩

/-- C2: after the backward column loop on a valid fill-closed factor with
`m >= 1` columns, every column `j` satisfies the recursion equations: with
`w[p] = gatherW L C0 Z j p` (the sum over `q` of
`Z[max(R p, R q), min(R p, R q)] * F[q]`, `Z` the final values, `F` and the
pivot the original ones), `Z[R[p], j] = -w[p]` for every `p < lfi` and
`Z[j,j] = 1/d_j + sum_p F[p] * w[p]`; and every position
`(max(R p, R q), min(R p, R q))` read by `w` is a stored one. -/
theorem recursion_equations (m nnz : Nat) (L : Csc) (s : RecState) (hm : 1 ≤ m)
    (hS : SortedLower m L) (hF : FillClosed m L) (hn : nnz = L.J m) (j : Nat) (hj : j < m) :
    (∀ p, p < L.J (j + 1) - (L.J j + 1) →
      (recursion m nnz L.J L.I s).C (L.J j + p + 1) =
        - gatherW L s.C (recursion m nnz L.J L.I s).C j p) ∧
    (recursion m nnz L.J L.I s).C (L.J j) = 1 / s.C (L.J j) +
      Finset.sum (Finset.range (L.J (j + 1) - (L.J j + 1)))
        (fun p => s.C (L.J j + p + 1) * gatherW L s.C (recursion m nnz L.J L.I s).C j p) ∧
    (∀ p q, p < L.J (j + 1) - (L.J j + 1) → q < L.J (j + 1) - (L.J j + 1) →
      ∃ t, L.J (min (L.I (L.J j + p + 1)) (L.I (L.J j + q + 1))) ≤ t ∧
        t < L.J (min (L.I (L.J j + p + 1)) (L.I (L.J j + q + 1)) + 1) ∧
        L.I t = max (L.I (L.J j + p + 1)) (L.I (L.J j + q + 1)) ∧
        entryAt L (recursion m nnz L.J L.I s).C (max (L.I (L.J j + p + 1)) (L.I (L.J j + q + 1)))
          (min (L.I (L.J j + p + 1)) (L.I (L.J j + q + 1))) =
          (recursion m nnz L.J L.I s).C t) :=
  ⟨(recursion_columnEq m nnz L hS hF hm hn s j hj).1,
    (recursion_columnEq m nnz L hS hF hm hn s j hj).2,
    fun p q hp hq => pair_stored m L hS hF _ j hj p q hp hq⟩

/-- Witness for C2: column 0 of the tridiagonal example. -/
theorem recursion_equations_witness :
    (1 ≤ 3 ∧ SortedLower 3 exL ∧ FillClosed 3 exL ∧ 5 = exL.J 3 ∧ 0 < 3) ∧
    ((∀ p, p < exL.J (0 + 1) - (exL.J 0 + 1) →
      (recursion 3 5 exL.J exL.I { zeroScratch with C := exC }).C (exL.J 0 + p + 1) =
        - gatherW exL exC (recursion 3 5 exL.J exL.I { zeroScratch with C := exC }).C 0 p) ∧
    (recursion 3 5 exL.J exL.I { zeroScratch with C := exC }).C (exL.J 0) = 1 / exC (exL.J 0) +
      Finset.sum (Finset.range (exL.J (0 + 1) - (exL.J 0 + 1)))
        (fun p => exC (exL.J 0 + p + 1) *
          gatherW exL exC (recursion 3 5 exL.J exL.I { zeroScratch with C := exC }).C 0 p)) :=
  ⟨⟨by decide, by decide, by decide, by decide, by decide⟩,
    ⟨(recursion_equations 3 5 exL { zeroScratch with C := exC } (by decide) (by decide)
      (by decide) (by decide) 0 (by decide)).1,
     (recursion_equations 3 5 exL { zeroScratch with C := exC } (by decide) (by decide)
      (by decide) (by decide) 0 (by decide)).2.1⟩⟩

/-- C3: the matrix written by the fill-the-upper-triangle step on a sorted
lower-triangular input stores `(a, b)` exactly when it stores `(b, a)`, with
the same value; and the values stored at `(a, b)` and `(b, a)` are equal. -/
theorem expand_symmetric (m nnz : Nat) (A : Csc) (hS : SortedLower m A) :
    (∀ a b v, Stored (expand m nnz A).Z a b v ↔ Stored (expand m nnz A).Z b a v) ∧
    (∀ a b v v', Stored (expand m nnz A).Z a b v → Stored (expand m nnz A).Z b a v' →
      v = v') := by
  have hsym : ∀ a b v, Stored (expand m nnz A).Z a b v → Stored (expand m nnz A).Z b a v := by
    intro a b v h
    rw [expand_mem m nnz A hS] at h ⊢
    rcases h with h | h
    · exact Or.inr h
    · exact Or.inl h
  refine ⟨fun a b v => ⟨hsym a b v, hsym b a v⟩, ?_⟩
  intro a b v v' h h'
  exact expand_unique m nnz A hS a b v v' h (hsym b a v' h')

/-- Witness for C3: the tridiagonal pattern. -/
theorem expand_symmetric_witness :
    SortedLower 3 exL ∧
    ((∀ a b v, Stored (expand 3 5 exL).Z a b v ↔ Stored (expand 3 5 exL).Z b a v) ∧
    (∀ a b v v', Stored (expand 3 5 exL).Z a b v → Stored (expand 3 5 exL).Z b a v' →
      v = v')) :=
  ⟨by decide, expand_symmetric 3 5 exL (by decide)⟩

/-- C4: for a valid factor pattern and an ordering `perm`, position `(a, b)`
is stored in the final `Z` exactly when some stored factor entry `(i, j)` has
`(a, b) = (perm[i], perm[j])` or `(a, b) = (perm[j], perm[i])`; and no column
of `Z` stores a row twice. -/
theorem sinv_pattern (m nnz : Nat) (r : Option IdxArr) (L : Csc) (scr : RecState)
    (hr : PermOK m r) (hS : SortedLower m L) :
    (∀ a b, (∃ v, Stored (sinv m nnz r L scr).Z a b v) ↔
      ∃ j l, j < m ∧ L.J j ≤ l ∧ l < L.J (j + 1) ∧
        ((a, b) = (permAt r (L.I l), permAt r j) ∨
         (a, b) = (permAt r j, permAt r (L.I l)))) ∧
    (∀ b, ((colEntries (sinv m nnz r L scr).Z b).map Prod.fst).Nodup) := by
  constructor
  · intro a b
    constructor
    · rintro ⟨v, hv⟩
      rw [sinv_mem m nnz r L scr hr hS] at hv
      obtain ⟨j, l, hj, h1, h2, h3, _⟩ := hv
      exact ⟨j, l, hj, h1, h2, h3⟩
    · rintro ⟨j, l, hj, h1, h2, h3⟩
      refine ⟨(recursion m nnz L.J L.I { scr with C := L.C }).C l, ?_⟩
      rw [sinv_mem m nnz r L scr hr hS]
      exact ⟨j, l, hj, h1, h2, h3, rfl⟩
  · intro b
    exact (sinv_sorted m nnz r L scr hr hS b).imp (fun h => Nat.ne_of_lt h)

/-- Witness for C4: the tridiagonal pattern under the ordering `2, 0, 1`. -/
theorem sinv_pattern_witness :
    (PermOK 3 (some exPerm) ∧ SortedLower 3 exL) ∧
    ((∀ a b, (∃ v, Stored (sinv 3 5 (some exPerm) exL zeroScratch).Z a b v) ↔
      ∃ j l, j < 3 ∧ exL.J j ≤ l ∧ l < exL.J (j + 1) ∧
        ((a, b) = (permAt (some exPerm) (exL.I l), permAt (some exPerm) j) ∨
         (a, b) = (permAt (some exPerm) j, permAt (some exPerm) (exL.I l)))) ∧
    (∀ b, ((colEntries (sinv 3 5 (some exPerm) exL zeroScratch).Z b).map Prod.fst).Nodup)) :=
  ⟨⟨by decide, by decide⟩,
    sinv_pattern 3 5 (some exPerm) exL zeroScratch (by decide) (by decide)⟩

/-- C5: the permute-then-transpose step keeps the number of stored entries
(`J[m]`), and for every input entry at row `I[l]` of column `j` with value
`C[l]` it stores `C[l]` at row `max(perm[I[l]], perm[j])` of column
`min(perm[I[l]], perm[j])`. -/
theorem permuteTranspose_content (m : Nat) (r : Option IdxArr) (A : Csc) (hr : PermOK m r)
    (hJ : PtrOK m A.J) (hA : RowsOK m A) :
    PtrOK m (permuteTranspose m r A).J ∧ (permuteTranspose m r A).J m = A.J m ∧
    ∀ j < m, ∀ l, A.J j ≤ l → l < A.J (j + 1) →
      Stored (permuteTranspose m r A) (max (permAt r (A.I l)) (permAt r j))
        (min (permAt r (A.I l)) (permAt r j)) (A.C l) := by
  refine ⟨permuteTranspose_ptr m r A, permuteTranspose_last m r A hr hA hJ, ?_⟩
  intro j hj l h1 h2
  have hmin : min (permAt r (A.I l)) (permAt r j) < m :=
    lt_of_le_of_lt (min_le_right _ _) (hr.1 j hj)
  rw [permuteTranspose_mem m r A hr hA _ hmin]
  exact ⟨j, l, hj, h1, h2, rfl, rfl, rfl⟩

/-- Witness for C5: the tridiagonal example under the ordering `2, 0, 1`. -/
theorem permuteTranspose_content_witness :
    (PermOK 3 (some exPerm) ∧ PtrOK 3 exL.J ∧ RowsOK 3 exL) ∧
    (PtrOK 3 (permuteTranspose 3 (some exPerm) exL).J ∧
    (permuteTranspose 3 (some exPerm) exL).J 3 = exL.J 3 ∧
    ∀ j < 3, ∀ l, exL.J j ≤ l → l < exL.J (j + 1) →
      Stored (permuteTranspose 3 (some exPerm) exL)
        (max (permAt (some exPerm) (exL.I l)) (permAt (some exPerm) j))
        (min (permAt (some exPerm) (exL.I l)) (permAt (some exPerm) j)) (exL.C l)) :=
  ⟨⟨by decide, by decide, by decide⟩,
    permuteTranspose_content 3 (some exPerm) exL (by decide) (by decide) (by decide)⟩

/-- C6: on a lower-triangular input with a diagonal entry in every column
and pairwise distinct positions, the result of the permute-then-transpose
step has column pointers that start at 0, do not decrease and end at the
input's `J[m]`; it is lower triangular; its rows strictly ascend within every
column; and every column starts with its diagonal entry. -/
theorem permuteTranspose_structure (m : Nat) (r : Option IdxArr) (A : Csc) (hr : PermOK m r)
    (hJ : PtrOK m A.J) (hA : RowsOK m A) (hL : LowerTri m A) (hD : RowsDistinct m A)
    (hG : HasDiag m A) :
    PtrOK m (permuteTranspose m r A).J ∧ (permuteTranspose m r A).J m = A.J m ∧
    LowerTri m (permuteTranspose m r A) ∧ RowsOK m (permuteTranspose m r A) ∧
    (∀ a < m, ∀ l l', (permuteTranspose m r A).J a ≤ l → l < l' →
      l' < (permuteTranspose m r A).J (a + 1) →
      (permuteTranspose m r A).I l < (permuteTranspose m r A).I l') ∧
    (∀ a < m, (permuteTranspose m r A).J a < (permuteTranspose m r A).J (a + 1) ∧
      (permuteTranspose m r A).I ((permuteTranspose m r A).J a) = a) := by
  have hS := permuteTranspose_sortedLower m r A hr hA hL hD hG
  exact ⟨hS.ptr, permuteTranspose_last m r A hr hA hJ, hS.lowerTri, hS.rowsOK,
    fun a ha l l' h1 h2 h3 => hS.strict a ha l l' h1 h2 h3, hS.diag⟩

/-- Witness for C6: the tridiagonal example under the ordering `2, 0, 1`. -/
theorem permuteTranspose_structure_witness :
    (PermOK 3 (some exPerm) ∧ PtrOK 3 exL.J ∧ RowsOK 3 exL ∧ LowerTri 3 exL ∧
      RowsDistinct 3 exL ∧ HasDiag 3 exL) ∧
    (PtrOK 3 (permuteTranspose 3 (some exPerm) exL).J ∧
    (permuteTranspose 3 (some exPerm) exL).J 3 = exL.J 3 ∧
    LowerTri 3 (permuteTranspose 3 (some exPerm) exL) ∧
    RowsOK 3 (permuteTranspose 3 (some exPerm) exL) ∧
    (∀ a < 3, ∀ l l', (permuteTranspose 3 (some exPerm) exL).J a ≤ l → l < l' →
      l' < (permuteTranspose 3 (some exPerm) exL).J (a + 1) →
      (permuteTranspose 3 (some exPerm) exL).I l < (permuteTranspose 3 (some exPerm) exL).I l') ∧
    (∀ a < 3, (permuteTranspose 3 (some exPerm) exL).J a <
        (permuteTranspose 3 (some exPerm) exL).J (a + 1) ∧
      (permuteTranspose 3 (some exPerm) exL).I ((permuteTranspose 3 (some exPerm) exL).J a) =
        a)) :=
  ⟨⟨by decide, by decide, by decide, by decide, by decide, by decide⟩,
    permuteTranspose_structure 3 (some exPerm) exL (by decide) (by decide) (by decide)
      (by decide) (by decide) (by decide)⟩

/-- Counterexample for C7: for the counts `2^31-1, 1` the total is `2^31`,
but `cumsum2` leaves `p[2] = -2^31`: the sum is kept in the index type and
wraps, so `p[n]` is not the total. -/
theorem cumsum2_wraps :
    (∃ p c, cumsum2 (some (fun _ => 0)) (some bigCounts) 2 = (some p, some c) ∧
      p 0 = 0 ∧ p 1 = 2147483647 ∧ p 2 = -2147483648 ∧
      p 2 ≠ Finset.sum (Finset.range 2) bigCounts) ∧
    Finset.sum (Finset.range 2) bigCounts = 2147483648 := by
  refine ⟨⟨_, _, cumsum2_some _ _ _, ?_, ?_, ?_, ?_⟩, ?_⟩
  · decide
  · decide
  · decide
  · decide
  · decide

/-- C7: `cumsum2(p, c, n)` on present arrays leaves in `p[i]`, for every
`0 <= i <= n`, the sum of the original counts `c0[0..i)` as the index type
keeps it (wrapped to `-2^31 .. 2^31-1`), and in `c[i]`, for every `i < n`, a
copy of `p[i]`; nothing else in the two arrays changes. When the counts are
non-negative and their total fits the index type (`< 2^31`), `p[i]` is the
sum `c0[0] + ... + c0[i-1]` itself, so `p[0] = 0` and `p[n]` is the total.
If `p` or `c` is absent, neither array is changed. -/
theorem cumsum2_contract (n : Nat) (p0 c0 : MwArr) :
    (∃ p c, cumsum2 (some p0) (some c0) n = (some p, some c) ∧
      (∀ i, i ≤ n → p i = wrapIdx (Finset.sum (Finset.range i) c0)) ∧
      (∀ i, i < n → c i = p i) ∧
      (∀ i, n < i → p i = p0 i) ∧ (∀ i, n ≤ i → c i = c0 i) ∧
      ((∀ k, k < n → 0 ≤ c0 k) → Finset.sum (Finset.range n) c0 < 2147483648 →
        ∀ i, i ≤ n → p i = Finset.sum (Finset.range i) c0)) ∧
    (∀ c : Option MwArr, cumsum2 none c n = (none, c)) ∧
    (∀ p : Option MwArr, cumsum2 p none n = (p, none)) := by
  refine ⟨⟨_, _, cumsum2_some p0 c0 n, ?_, ?_, ?_, ?_, ?_⟩, ?_, ?_⟩
  · intro i hi
    simp only [hi, if_true]
  · intro i hi
    simp only [hi, Nat.le_of_lt hi, if_true]
  · intro i hi
    have : ¬ i ≤ n := by omega
    simp only [this, if_false]
  · intro i hi
    have : ¬ i < n := by omega
    simp only [this, if_false]
  · intro hpos htot i hi
    simp only [hi, if_true]
    have hb := sum_prefix_bounds c0 n hpos i hi
    exact wrapIdx_fits _ (by omega) (by omega)
  · intro c; cases c <;> rfl
  · intro p; cases p <;> rfl

/-- Witness for C7: the counts `2, 0, 3` give the pointers `0, 2, 2, 5`. -/
theorem cumsum2_contract_witness :
    ∃ p c, cumsum2 (some (fun _ => 7)) (some (fun i => [2, 0, 3].getD i 0)) 3 =
        (some p, some c) ∧
      p 0 = 0 ∧ p 1 = 2 ∧ p 2 = 2 ∧ p 3 = 5 ∧ c 2 = 2 ∧ p 4 = 7 := by
  obtain ⟨p, c, h1, h2, h3, h4, _, h6⟩ := (cumsum2_contract 3 (fun _ => 7)
    (fun i => [2, 0, 3].getD i 0)).1
  have hpos : ∀ k, k < 3 → (0 : Int) ≤ (fun i => [2, 0, 3].getD i 0) k := by decide
  have htot : Finset.sum (Finset.range 3) (fun i => ([2, 0, 3] : List Int).getD i 0) <
      2147483648 := by decide
  have h7 := h6 hpos htot
  refine ⟨p, c, h1, ?_, ?_, ?_, ?_, ?_, ?_⟩
  · rw [h7 0 (by decide)]; decide
  · rw [h7 1 (by decide)]; decide
  · rw [h7 2 (by decide)]; decide
  · rw [h7 3 (by decide)]; decide
  · rw [h3 2 (by decide), h7 2 (by decide)]; decide
  · rw [h4 4 (by decide)]

/-- C8: on a lower-triangular input with `nnz = J[m]` stored entries and a
diagonal entry in every column, the column counts `w2` sum to `2*nnz - m`;
the last column pointer `Jt[m]` equals the allocated size `2*nnz - m`; and
the two fill passes move the cursor of every column `k` from `Jt[k]` to
`Jt[k+1]`, so together they write exactly `2*nnz - m` entries. -/
theorem expand_count (m nnz : Nat) (A : Csc) (hJ : PtrOK m A.J) (hR : RowsOK m A)
    (hG : HasDiag m A) (hn : nnz = A.J m) :
    Finset.sum (Finset.range m) (colCounts A m) = 2 * nnz - m ∧
    (expand m nnz A).Z.J m = 2 * nnz - m ∧
    (expand m nnz A).nzmax = 2 * nnz - m ∧
    (expand m nnz A).Z.J 0 = 0 ∧
    ∀ k < m,
      (cumsum2Core (fun _ => 0) (colCounts A m) m).2 k = (expand m nnz A).Z.J k ∧
      (fillLower m A (fillUpper m A
        ((cumsum2Core (fun _ => 0) (colCounts A m) m).2, fun _ => 0, fun _ => 0))).1 k =
        (expand m nnz A).Z.J (k + 1) := by
  have hne : ∀ j < m, A.J j < A.J (j + 1) := by
    intro j hj
    obtain ⟨l, l1, l2, _⟩ := hG j hj
    omega
  have hlast := expand_last m nnz A hJ hR hne
  have eJ : ∀ k, (expand m nnz A).Z.J k =
      (cumsum2Core (fun _ => 0) (colCounts A m) m).1 k := fun _ => rfl
  refine ⟨?_, by rw [hlast, hn], by rw [hn]; rfl, ?_, ?_⟩
  · rw [hn, ← hlast, eJ, cumsum2Core_fst, if_pos (le_refl m)]; rfl
  · rw [eJ]; exact bucket_ptr_zero m _ _
  · intro k hk
    refine ⟨?_, expand_cursor m nnz A hJ hne k hk⟩
    rw [eJ, cumsum2Core_fst, cumsum2Core_snd, if_pos hk, if_pos (Nat.le_of_lt hk)]

/-- Witness for C8: the tridiagonal pattern, `2*5 - 3 = 7` entries. -/
theorem expand_count_witness :
    (PtrOK 3 exL.J ∧ RowsOK 3 exL ∧ HasDiag 3 exL ∧ 5 = exL.J 3) ∧
    (Finset.sum (Finset.range 3) (colCounts exL 3) = 2 * 5 - 3 ∧
    (expand 3 5 exL).Z.J 3 = 2 * 5 - 3 ∧
    (expand 3 5 exL).nzmax = 2 * 5 - 3 ∧
    (expand 3 5 exL).Z.J 0 = 0 ∧
    ∀ k < 3,
      (cumsum2Core (fun _ => 0) (colCounts exL 3) 3).2 k = (expand 3 5 exL).Z.J k ∧
      (fillLower 3 exL (fillUpper 3 exL
        ((cumsum2Core (fun _ => 0) (colCounts exL 3) 3).2, fun _ => 0, fun _ => 0))).1 k =
        (expand 3 5 exL).Z.J (k + 1)) :=
  ⟨⟨by decide, by decide, by decide, by decide⟩,
    expand_count 3 5 exL (by decide) (by decide) (by decide) (by decide)⟩

/-- C9: for a factor whose columns each hold only a non-zero pivot `d_j`, the
final `Z` has exactly `m` stored entries, all on the diagonal, with
`Z[perm[j], perm[j]] = 1/d_j`.  In particular the pivots `2, 3, 4` give
`diag(1/2, 1/3, 1/4)` and the `1 x 1` factor with pivot `5` gives `[[1/5]]`,
whatever the scratch buffers and the memory beyond the arrays hold. -/
theorem sinv_diagonal :
    (∀ (m nnz : Nat) (r : Option IdxArr) (L : Csc) (scr : RecState), 1 ≤ m → PermOK m r →
      (∀ j, j ≤ m → L.J j = j) → (∀ j, j < m → L.I j = j) → (∀ j, j < m → L.C j ≠ 0) →
      nnz = m →
      (sinv m nnz r L scr).Z.J m = m ∧ (sinv m nnz r L scr).nzmax = m ∧
      ∀ a b v, Stored (sinv m nnz r L scr).Z a b v ↔
        ∃ j, j < m ∧ a = permAt r j ∧ b = permAt r j ∧ v = 1 / L.C j) ∧
    (∀ (L : Csc) (scr : RecState), (∀ j, j ≤ 3 → L.J j = j) →
      (∀ l, l < 3 → L.I l = l ∧ L.C l = [2, 3, 4].getD l 0) →
      (List.range 4).map (sinv 3 3 none L scr).Z.J = [0, 1, 2, 3] ∧
      (List.range 3).map (sinv 3 3 none L scr).Z.I = [0, 1, 2] ∧
      (List.range 3).map (sinv 3 3 none L scr).Z.C = [1/2, 1/3, 1/4]) ∧
    (∀ (L : Csc) (scr : RecState), (∀ j, j ≤ 1 → L.J j = j) →
      (∀ l, l < 1 → L.I l = l ∧ L.C l = [5].getD l 0) →
      (List.range 2).map (sinv 1 1 none L scr).Z.J = [0, 1] ∧
      (List.range 1).map (sinv 1 1 none L scr).Z.I = [0] ∧
      (List.range 1).map (sinv 1 1 none L scr).Z.C = [1/5]) := by
  refine ⟨?_, ?_, ?_⟩
  rotate_left
  · intro L scr hJ hI
    have hag : Agree 3 diagL L :=
      ⟨fun j hj => (hJ j hj).symm, fun l hl => ⟨(hI l hl).1.symm, (hI l hl).2.symm⟩⟩
    have h := sinv_agree 3 3 none diagL L zeroScratch scr (by decide) (by decide) (by decide)
      (by decide) hag (by decide)
    obtain ⟨hZJ, hZI, hZC⟩ := agree_lists 3 3 _ _ h (by decide)
    rw [hZJ, hZI, hZC]
    exact ⟨by decide, by decide, by decide!⟩
  · intro L scr hJ hI
    have hag : Agree 1 oneL L :=
      ⟨fun j hj => (hJ j hj).symm, fun l hl => ⟨(hI l hl).1.symm, (hI l hl).2.symm⟩⟩
    have h := sinv_agree 1 1 none oneL L zeroScratch scr (by decide) (by decide) (by decide)
      (by decide) hag (by decide)
    obtain ⟨hZJ, hZI, hZC⟩ := agree_lists 1 1 _ _ h (by decide)
    rw [hZJ, hZI, hZC]
    exact ⟨by decide, by decide, by decide!⟩
  intro m nnz r L scr hm hr hJ hI _ hn
  have hS := diag_sortedLower m L hJ hI
  have hS1 := sortedLower_values m L (recursion m nnz L.J L.I { scr with C := L.C }).C hS
  have hS2 := permuteTranspose_sortedLower m r _ hr hS1.rowsOK hS1.lowerTri hS1.distinct
    hS1.hasDiag
  refine ⟨?_, ?_, ?_⟩
  · have e : (sinv m nnz r L scr).Z = (expand m nnz (permuteTranspose m r
        { L with C := (recursion m nnz L.J L.I { scr with C := L.C }).C })).Z := rfl
    rw [e, expand_last m nnz _ hS2.ptr hS2.rowsOK (fun j hj => (hS2.diag j hj).1),
      permuteTranspose_last m r _ hr hS1.rowsOK hS1.ptr]
    show 2 * L.J m - m = m
    rw [hJ m (le_refl _)]
    omega
  · show 2 * nnz - m = m
    omega
  · intro a b v
    rw [sinv_mem m nnz r L scr hr hS]
    constructor
    · rintro ⟨j, l, hj, h1, h2, h3, h5⟩
      rw [hJ j (by omega)] at h1
      rw [hJ (j + 1) (by omega)] at h2
      have e : l = j := by omega
      subst e
      rw [hI l hj] at h3
      rw [diag_recursion m nnz L _ hm hJ hI hn l hj] at h5
      refine ⟨l, hj, ?_, ?_, h5.symm⟩
      · rcases h3 with h3 | h3 <;> exact (Prod.mk.injEq _ _ _ _ ▸ h3 : _ ∧ _).1
      · rcases h3 with h3 | h3 <;> exact (Prod.mk.injEq _ _ _ _ ▸ h3 : _ ∧ _).2
    · rintro ⟨j, hj, rfl, rfl, rfl⟩
      refine ⟨j, j, hj, ?_, ?_, ?_, ?_⟩
      · rw [hJ j (by omega)]
      · rw [hJ (j + 1) (by omega)]; omega
      · rw [hI j hj]; exact Or.inl rfl
      · exact diag_recursion m nnz L _ hm hJ hI hn j hj

/-- Witness for C9: the factor of `diag(2, 3, 4)` under the ordering `2, 0, 1`. -/
theorem sinv_diagonal_witness :
    (1 ≤ 3 ∧ PermOK 3 (some exPerm) ∧ (∀ j, j ≤ 3 → diagL.J j = j) ∧
      (∀ j, j < 3 → diagL.I j = j) ∧ (∀ j, j < 3 → diagL.C j ≠ 0) ∧ 3 = 3) ∧
    ((sinv 3 3 (some exPerm) diagL zeroScratch).Z.J 3 = 3 ∧
      (sinv 3 3 (some exPerm) diagL zeroScratch).nzmax = 3 ∧
      ∀ a b v, Stored (sinv 3 3 (some exPerm) diagL zeroScratch).Z a b v ↔
        ∃ j, j < 3 ∧ a = permAt (some exPerm) j ∧ b = permAt (some exPerm) j ∧
          v = 1 / diagL.C j) :=
  ⟨⟨by decide, by decide, fun _ _ => rfl, fun _ _ => rfl, by decide!, rfl⟩,
    sinv_diagonal.1 3 3 (some exPerm) diagL zeroScratch (by decide) (by decide)
      (fun _ _ => rfl) (fun _ _ => rfl) (by decide!) rfl⟩

/-- C10: the arrays colptr `[0,2,4,5]`, rows `[0,1,1,2,2]`, values
`[2,-1/2,3/2,-2/3,4/3]` are the packed factor of the tridiagonal matrix
`[[2,-1,0],[-1,2,-1],[0,-1,2]]` in natural ordering; on them, whatever the
scratch buffers and the memory beyond the arrays hold, the result has the
seven tridiagonal positions (colptr `[0,2,5,7]`, rows `[0,1,0,1,2,1,2]`)
with the values `3/4, 1/2` in column 0, `1/2, 1, 1/2` in column 1 and
`1/2, 3/4` in column 2, which are the corresponding entries of the dense
inverse `[[3/4,1/2,1/4],[1/2,1,1/2],[1/4,1/2,3/4]]`. -/
theorem sinv_tridiagonal :
    IsFactorOf 3 none exL exA ∧
    (∀ (L : Csc) (scr : RecState), (∀ j, j ≤ 3 → L.J j = exJ j) →
      (∀ l, l < 5 → L.I l = exI l ∧ L.C l = exC l) →
      (List.range 4).map (sinv 3 5 none L scr).Z.J = [0, 2, 5, 7] ∧
      (List.range 7).map (sinv 3 5 none L scr).Z.I = [0, 1, 0, 1, 2, 1, 2] ∧
      (List.range 7).map (sinv 3 5 none L scr).Z.C = [3/4, 1/2, 1/2, 1, 1/2, 1/2, 3/4] ∧
      (sinv 3 5 none L scr).nzmax = 7) ∧
    exA⁻¹ = !![3/4, 1/2, 1/4; 1/2, 1, 1/2; 1/4, 1/2, 3/4] := by
  refine ⟨by decide!, ?_, Matrix.inv_eq_right_inv (by decide!)⟩
  intro L scr hJ hI
  have hag : Agree 3 exL L :=
    ⟨fun j hj => (hJ j hj).symm, fun l hl => ⟨(hI l hl).1.symm, (hI l hl).2.symm⟩⟩
  have h := sinv_agree 3 5 none exL L zeroScratch scr (by decide) (by decide) (by decide)
    (by decide) hag (by decide)
  obtain ⟨hZJ, hZI, hZC⟩ := agree_lists 3 7 _ _ h (by decide)
  rw [hZJ, hZI, hZC]
  exact ⟨by decide, by decide, by decide!, rfl⟩

/-- Witness for C10: the factor itself, with zeroed scratch buffers. -/
theorem sinv_tridiagonal_witness :
    ((∀ j, j ≤ 3 → exL.J j = exJ j) ∧ (∀ l, l < 5 → exL.I l = exI l ∧ exL.C l = exC l)) ∧
    ((List.range 4).map (sinv 3 5 none exL zeroScratch).Z.J = [0, 2, 5, 7] ∧
      (List.range 7).map (sinv 3 5 none exL zeroScratch).Z.I = [0, 1, 0, 1, 2, 1, 2] ∧
      (List.range 7).map (sinv 3 5 none exL zeroScratch).Z.C =
        [3/4, 1/2, 1/2, 1, 1/2, 1/2, 3/4] ∧
      (sinv 3 5 none exL zeroScratch).nzmax = 7) :=
  ⟨⟨fun _ _ => rfl, fun _ _ => ⟨rfl, rfl⟩⟩,
    sinv_tridiagonal.2.1 exL zeroScratch (fun _ _ => rfl) (fun _ _ => ⟨rfl, rfl⟩)⟩

/-- C12: permutation invariance. For a symmetric matrix `A` with `m >= 1`,
two orderings `r1`, `r2` of `0..m-1` (absent or explicit) and valid
fill-closed factors `L1`, `L2` with non-zero pivots of `A(r1,r1)` and
`A(r2,r2)`, the two results of recursion, permutation step and expansion
hold the same value at every position `(a, b)`, in original numbering, that
both of them store. -/
theorem sinv_perm_invariant (m nnz1 nnz2 : Nat) (A : Matrix (Fin m) (Fin m) ℚ)
    (r1 r2 : Option IdxArr) (L1 L2 : Csc) (scr1 scr2 : RecState) (hm : 1 ≤ m) (hA : A.IsSymm)
    (hr1 : PermOK m r1) (hS1 : SortedLower m L1) (hF1 : FillClosed m L1)
    (hpiv1 : ∀ j, j < m → L1.C (L1.J j) ≠ 0) (hfac1 : IsFactorOf m r1 L1 A)
    (hn1 : nnz1 = L1.J m)
    (hr2 : PermOK m r2) (hS2 : SortedLower m L2) (hF2 : FillClosed m L2)
    (hpiv2 : ∀ j, j < m → L2.C (L2.J j) ≠ 0) (hfac2 : IsFactorOf m r2 L2 A)
    (hn2 : nnz2 = L2.J m) (a b : Nat) (v1 v2 : ℚ)
    (h1 : Stored (sinv m nnz1 r1 L1 scr1).Z a b v1)
    (h2 : Stored (sinv m nnz2 r2 L2 scr2).Z a b v2) : v1 = v2 := by
  obtain ⟨_, _, e1⟩ := sinv_value m nnz1 A r1 L1 scr1 hm hA hr1 hS1 hF1 hpiv1 hfac1 hn1 a b v1 h1
  obtain ⟨_, _, e2⟩ := sinv_value m nnz2 A r2 L2 scr2 hm hA hr2 hS2 hF2 hpiv2 hfac2 hn2 a b v2 h2
  rw [e1, e2]

/-- Witness for C12: the tridiagonal example factored in natural ordering
and in the ordering `exPerm`, at position `(0, 1)` where both results store
`1/2`. -/
theorem sinv_perm_invariant_witness :
    (1 ≤ 3 ∧ exA.IsSymm ∧
      PermOK 3 none ∧ SortedLower 3 exL ∧ FillClosed 3 exL ∧
      (∀ j, j < 3 → exL.C (exL.J j) ≠ 0) ∧ IsFactorOf 3 none exL exA ∧ 5 = exL.J 3 ∧
      PermOK 3 (some exPerm) ∧ SortedLower 3 exL2 ∧ FillClosed 3 exL2 ∧
      (∀ j, j < 3 → exL2.C (exL2.J j) ≠ 0) ∧ IsFactorOf 3 (some exPerm) exL2 exA ∧
      5 = exL2.J 3 ∧
      Stored (sinv 3 5 none exL zeroScratch).Z 0 1 (1 / 2) ∧
      Stored (sinv 3 5 (some exPerm) exL2 zeroScratch).Z 0 1 (1 / 2)) ∧
    ((1 : ℚ) / 2 = 1 / 2) :=
  ⟨⟨by decide, by decide!, by decide, by decide, by decide, by decide!, by decide!, by decide,
      by decide, by decide, by decide, by decide!, by decide!, by decide,
      by decide!, by decide!⟩,
    sinv_perm_invariant 3 5 5 exA none (some exPerm) exL exL2 zeroScratch zeroScratch
      (by decide) (by decide!) (by decide) (by decide) (by decide) (by decide!) (by decide!)
      (by decide) (by decide) (by decide) (by decide) (by decide!) (by decide!) (by decide)
      0 1 (1 / 2) (1 / 2) (by decide!) (by decide!)⟩

/-- C13: determinism. For a valid fill-closed factor `(J, I, C)` with
`m >= 1` columns and any ordering, two runs that differ only in the prior
contents of the scratch buffers `fil`, `zt`, `Zt` and `zz` give the same
result: the same allocated size, column pointers, row indices and values.
The buffers are threaded through the column loop without being cleared, and
the gather of a column never writes the strict upper triangle of `Zt`. -/
theorem sinv_deterministic (m nnz : Nat) (r : Option IdxArr) (L : Csc) (scr scr' : RecState)
    (hm : 1 ≤ m) (hS : SortedLower m L) (hF : FillClosed m L) (hn : nnz = L.J m) :
    sinv m nnz r L scr = sinv m nnz r L scr' ∧
    ∀ j, j + 1 < m → ∀ (C Zt : ValArr) (p q : Nat), p < q →
      q < L.J (j + 1) - (L.J j + 1) →
      gather L.J L.I C j (L.J (j + 1) - (L.J j + 1)) Zt
        (p + (L.J (j + 1) - (L.J j + 1)) * q) = Zt (p + (L.J (j + 1) - (L.J j + 1)) * q) := by
  refine ⟨?_, fun j hj C Zt p q hpq hq => gather_upper m L hS hF C j hj Zt p q hpq hq⟩
  unfold sinv
  rw [recursion_scratch m nnz L scr scr' hm hS hF hn]

/-- Witness for C13: the tridiagonal example run on zeroed and on non-zero
scratch buffers. -/
theorem sinv_deterministic_witness :
    (1 ≤ 3 ∧ SortedLower 3 exL ∧ FillClosed 3 exL ∧ 5 = exL.J 3) ∧
    (sinv 3 5 (some exPerm) exL zeroScratch = sinv 3 5 (some exPerm) exL junkScratch ∧
    ∀ j, j + 1 < 3 → ∀ (C Zt : ValArr) (p q : Nat), p < q →
      q < exL.J (j + 1) - (exL.J j + 1) →
      gather exL.J exL.I C j (exL.J (j + 1) - (exL.J j + 1)) Zt
        (p + (exL.J (j + 1) - (exL.J j + 1)) * q) =
          Zt (p + (exL.J (j + 1) - (exL.J j + 1)) * q)) :=
  ⟨⟨by decide, by decide, by decide, by decide⟩,
    sinv_deterministic 3 5 (some exPerm) exL zeroScratch junkScratch (by decide) (by decide)
      (by decide) (by decide)⟩

/-- C14: the second output on a concrete call. `[Z, minor] = sinv(A)` on the
`1 x 1` matrix `[[5]]` succeeds and CHOLMOD reports a fully successful
factorization (`L->minor = 1 = m`), so the second output should be `0`; with
the never-assigned local `minor` holding `7` the call returns `8`, and
whatever the local holds the output is computed from it and not from
`L->minor`. -/
theorem returnMinor_unassigned :
    oneFact.minor = 1 ∧
    (mexFunction 2 1 true 1 1 oneFact zeroScratch 7).map Prod.snd = Except.ok (some 8) ∧
    (∀ g : Int, (mexFunction 2 1 true 1 1 oneFact zeroScratch g).map Prod.snd =
      Except.ok (some (if g = 1 then 0 else g + 1))) := by
  refine ⟨rfl, rfl, ?_⟩
  intro g
  rfl

/-- C15: frame of the recursion, for a valid factor with `m >= 1` columns and
`nnz = J[m]`. The loop is modelled on the buffers it assigns (`C` and the
scratch buffers); `J` and `I` are read-only parameters of it. Line 145
changes only the last slot `J[m]-1`; the iteration for column `j` changes
only the value slots `J[j] .. J[j+1]-1`; the state in which column `j` is
processed is the one left by the columns above it; and once the columns
`m-1, ..., j` have been processed every slot at or above `J[j]` holds its
final value, so the values gathered for column `j-1` from the columns above
it, which are all that the gather for column `j-1` reads, are final. -/
theorem recursion_frame (m nnz : Nat) (L : Csc) (s : RecState) (hm : 1 ≤ m)
    (hS : SortedLower m L) (hn : nnz = L.J m) :
    (∀ x, x ≠ L.J m - 1 → (recursionFrom m nnz L.J L.I s (m - 1)).C x = s.C x) ∧
    (∀ j, j + 1 < m → ∀ (t : RecState) (x : Nat), ¬ (L.J j ≤ x ∧ x < L.J (j + 1)) →
      (recursionStep L.J L.I j t).C x = t.C x) ∧
    (∀ j, j + 1 < m →
      recursionFrom m nnz L.J L.I s j =
        recursionStep L.J L.I j (recursionFrom m nnz L.J L.I s (j + 1))) ∧
    recursionFrom m nnz L.J L.I s 0 = recursion m nnz L.J L.I s ∧
    (∀ j, j < m → ∀ x, L.J j ≤ x →
      (recursion m nnz L.J L.I s).C x = (recursionFrom m nnz L.J L.I s j).C x) ∧
    (∀ j, j + 1 < m → ∀ Zt : ValArr,
      gather L.J L.I (recursionFrom m nnz L.J L.I s (j + 1)).C j
          (L.J (j + 1) - (L.J j + 1)) Zt =
        gather L.J L.I (recursion m nnz L.J L.I s).C j (L.J (j + 1) - (L.J j + 1)) Zt) := by
  have hfin : ∀ j, j < m → ∀ x, L.J j ≤ x →
      (recursion m nnz L.J L.I s).C x = (recursionFrom m nnz L.J L.I s j).C x := by
    intro j hj x hx
    rw [recursion_split m nnz L.J L.I s j (by omega)]
    exact recFold_frame m L.J L.I (fun j hj => (hS.diag j hj).1) j (by omega) _ x hx
  refine ⟨?_, ?_, ?_, ?_, hfin, ?_⟩
  · intro x hx
    unfold recursionFrom
    rw [Nat.sub_self]
    have hne : x ≠ nnz - 1 := by rw [hn]; exact hx
    exact Function.update_noteq hne _ _
  · intro j hj t x hx
    exact recursionStep_frame L.J L.I j t x (hS.diag j (by omega)).1 hx
  · intro j hj
    exact recursionFrom_step m nnz L.J L.I s j hj
  · rw [recursion_split m nnz L.J L.I s 0 (by omega)]
    rfl
  · intro j hj Zt
    exact gather_reads m L hS _ _ j (by omega) Zt (fun x hx => (hfin (j + 1) hj x hx).symm)

/-- Witness for C15: the tridiagonal example. -/
theorem recursion_frame_witness :
    (1 ≤ 3 ∧ SortedLower 3 exL ∧ 5 = exL.J 3) ∧
    ((∀ x, x ≠ exL.J 3 - 1 →
      (recursionFrom 3 5 exL.J exL.I { zeroScratch with C := exC } (3 - 1)).C x =
        ({ zeroScratch with C := exC } : RecState).C x) ∧
    (∀ j, j + 1 < 3 → ∀ (t : RecState) (x : Nat), ¬ (exL.J j ≤ x ∧ x < exL.J (j + 1)) →
      (recursionStep exL.J exL.I j t).C x = t.C x) ∧
    (∀ j, j + 1 < 3 →
      recursionFrom 3 5 exL.J exL.I { zeroScratch with C := exC } j =
        recursionStep exL.J exL.I j
          (recursionFrom 3 5 exL.J exL.I { zeroScratch with C := exC } (j + 1))) ∧
    recursionFrom 3 5 exL.J exL.I { zeroScratch with C := exC } 0 =
      recursion 3 5 exL.J exL.I { zeroScratch with C := exC } ∧
    (∀ j, j < 3 → ∀ x, exL.J j ≤ x →
      (recursion 3 5 exL.J exL.I { zeroScratch with C := exC }).C x =
        (recursionFrom 3 5 exL.J exL.I { zeroScratch with C := exC } j).C x) ∧
    (∀ j, j + 1 < 3 → ∀ Zt : ValArr,
      gather exL.J exL.I (recursionFrom 3 5 exL.J exL.I { zeroScratch with C := exC } (j + 1)).C
          j (exL.J (j + 1) - (exL.J j + 1)) Zt =
        gather exL.J exL.I (recursion 3 5 exL.J exL.I { zeroScratch with C := exC }).C j
          (exL.J (j + 1) - (exL.J j + 1)) Zt)) :=
  ⟨⟨by decide, by decide, by decide⟩,
    recursion_frame 3 5 exL { zeroScratch with C := exC } (by decide) (by decide) (by decide)⟩

/-- C16: the expansion preserves the lower triangle. For a lower-triangular
input `A` whose columns each start with their diagonal entry followed by
strictly ascending sub-diagonal rows, with `nnz = J[m]`: every input entry
`(i, j, v)` is stored by the expanded matrix with the value `v` at `(i, j)`
and at `(j, i)`; the expanded matrix stores nothing else; and the slots
written by the two fill passes, listed in the order of the writes, are a
rearrangement of `0, ..., 2*nnz-m-1`, so each of these slots is written
exactly once. The fill passes with the record of the written slots are the
fill passes themselves when the record is dropped. -/
theorem expand_lower_preserved (m nnz : Nat) (A : Csc) (hS : SortedLower m A)
    (hn : nnz = A.J m) :
    (∀ i j v, j < m → Stored A i j v →
      j ≤ i ∧ Stored (expand m nnz A).Z i j v ∧ Stored (expand m nnz A).Z j i v) ∧
    (∀ a b v, Stored (expand m nnz A).Z a b v →
      (a < m ∧ Stored A b a v) ∨ (b < m ∧ Stored A a b v)) ∧
    (expandT m nnz A).1 = expand m nnz A ∧
    (expandT m nnz A).2.Perm (List.range (2 * nnz - m)) := by
  refine ⟨?_, ?_, expandT_fst m nnz A, ?_⟩
  · intro i j v hj h
    exact ⟨(stored_lower m A hS i j hj v h).1,
      (expand_mem m nnz A hS i j v).mpr (Or.inr ⟨hj, h⟩),
      (expand_mem m nnz A hS j i v).mpr (Or.inl ⟨hj, h⟩)⟩
  · intro a b v h
    exact (expand_mem m nnz A hS a b v).mp h
  · rw [hn]
    exact expandT_snd m (A.J m) A hS

/-- Witness for C16: the tridiagonal example, five stored entries expanded to
seven. -/
theorem expand_lower_preserved_witness :
    (SortedLower 3 exL ∧ 5 = exL.J 3) ∧
    ((∀ i j v, j < 3 → Stored exL i j v →
      j ≤ i ∧ Stored (expand 3 5 exL).Z i j v ∧ Stored (expand 3 5 exL).Z j i v) ∧
    (∀ a b v, Stored (expand 3 5 exL).Z a b v →
      (a < 3 ∧ Stored exL b a v) ∨ (b < 3 ∧ Stored exL a b v)) ∧
    (expandT 3 5 exL).1 = expand 3 5 exL ∧
    (expandT 3 5 exL).2.Perm (List.range (2 * 5 - 3))) :=
  ⟨⟨by decide, by decide⟩, expand_lower_preserved 3 5 exL (by decide) (by decide)⟩

/-- C17: sorted result columns. For a lower-triangular input `A` whose
columns each start with their diagonal entry followed by strictly ascending
sub-diagonal rows, the expanded matrix is a well-formed compressed-column
matrix: its column pointers start at 0, column `k < m` has
`w[k] + J[k+1] - J[k] - 1` entries where `w[k]` is the number of stored
entries of `A` with row `k`, so the pointers do not decrease, and within
every column the row indices strictly ascend. -/
theorem expand_wellformed (m nnz : Nat) (A : Csc) (hS : SortedLower m A) :
    (expand m nnz A).Z.J 0 = 0 ∧
    (∀ k, k < m → (expand m nnz A).Z.J (k + 1) =
      (expand m nnz A).Z.J k + (rowCounts A m k + A.J (k + 1) - A.J k - 1)) ∧
    (∀ k, k < m → (expand m nnz A).Z.J k ≤ (expand m nnz A).Z.J (k + 1)) ∧
    (∀ k, k < m → ∀ l l', (expand m nnz A).Z.J k ≤ l → l < l' →
      l' < (expand m nnz A).Z.J (k + 1) →
      (expand m nnz A).Z.I l < (expand m nnz A).Z.I l') := by
  have hsucc : ∀ k, k < m → (expand m nnz A).Z.J (k + 1) =
      (expand m nnz A).Z.J k + (rowCounts A m k + A.J (k + 1) - A.J k - 1) := by
    intro k hk
    have e := bucket_ptr_succ m (colCounts A m) (fun _ => 0) k hk
    have e2 : colCounts A m k = rowCounts A m k + A.J (k + 1) - A.J k - 1 := by
      unfold colCounts
      rw [forUp_tabulate]
      simp only [hk, if_true]
    rw [e2] at e
    exact e
  refine ⟨bucket_ptr_zero m (colCounts A m) (fun _ => 0), hsucc, ?_, ?_⟩
  · intro k hk
    rw [hsucc k hk]
    exact Nat.le_add_right _ _
  · intro k hk l l' h1 h2 h3
    have hsort := expand_sorted m nnz A hS k
    unfold colEntries at hsort
    rw [List.map_map, pairwise_map_range'] at hsort
    have hle : (expand m nnz A).Z.J k ≤ (expand m nnz A).Z.J (k + 1) := by
      rw [hsucc k hk]
      exact Nat.le_add_right _ _
    exact hsort l l' h1 h2 (by omega)

/-- Witness for C17: the tridiagonal example. -/
theorem expand_wellformed_witness :
    SortedLower 3 exL ∧
    ((expand 3 5 exL).Z.J 0 = 0 ∧
    (∀ k, k < 3 → (expand 3 5 exL).Z.J (k + 1) =
      (expand 3 5 exL).Z.J k + (rowCounts exL 3 k + exL.J (k + 1) - exL.J k - 1)) ∧
    (∀ k, k < 3 → (expand 3 5 exL).Z.J k ≤ (expand 3 5 exL).Z.J (k + 1)) ∧
    (∀ k, k < 3 → ∀ l l', (expand 3 5 exL).Z.J k ≤ l → l < l' →
      l' < (expand 3 5 exL).Z.J (k + 1) →
      (expand 3 5 exL).Z.I l < (expand 3 5 exL).Z.I l')) :=
  ⟨by decide, expand_wellformed 3 5 exL (by decide)⟩

/-- C18: identity permutation. For a lower-triangular matrix `(J, I, C)`
whose columns each start with their diagonal entry followed by strictly
ascending sub-diagonal rows, the permute-then-transpose step run with no
permutation (`r` absent) and run with an explicit identity permutation `p`
(`p[i] = i` for `i < m`) give the same result, and that result is the
input: the same column pointers `J[0..m]`, and the same row indices and
values in every slot below `J[m]`. -/
theorem permuteTranspose_identity (m : Nat) (A : Csc) (p : IdxArr) (hS : SortedLower m A)
    (hp : ∀ i, i < m → p i = i) :
    (∀ k, k ≤ m → (permuteTranspose m none A).J k = (permuteTranspose m (some p) A).J k ∧
      (permuteTranspose m none A).J k = A.J k) ∧
    (∀ l, l < A.J m →
      (permuteTranspose m none A).I l = (permuteTranspose m (some p) A).I l ∧
      (permuteTranspose m none A).C l = (permuteTranspose m (some p) A).C l ∧
      (permuteTranspose m none A).I l = A.I l ∧
      (permuteTranspose m none A).C l = A.C l) := by
  have h1 := permuteTranspose_id m none A hS (fun _ _ => rfl)
  have h2 := permuteTranspose_id m (some p) A hS hp
  refine ⟨fun k hk => ⟨by rw [← h1.1 k hk, ← h2.1 k hk], (h1.1 k hk).symm⟩, ?_⟩
  intro l hl
  have q1 := h1.2 l hl
  have q2 := h2.2 l hl
  exact ⟨by rw [← q1.1, ← q2.1], by rw [← q1.2, ← q2.2], q1.1.symm, q1.2.symm⟩

/-- Witness for C18: the tridiagonal example with the identity ordering of
three variables. -/
theorem permuteTranspose_identity_witness :
    (SortedLower 3 exL ∧ ∀ i, i < 3 → exId i = i) ∧
    ((∀ k, k ≤ 3 → (permuteTranspose 3 none exL).J k = (permuteTranspose 3 (some exId) exL).J k ∧
      (permuteTranspose 3 none exL).J k = exL.J k) ∧
    (∀ l, l < exL.J 3 →
      (permuteTranspose 3 none exL).I l = (permuteTranspose 3 (some exId) exL).I l ∧
      (permuteTranspose 3 none exL).C l = (permuteTranspose 3 (some exId) exL).C l ∧
      (permuteTranspose 3 none exL).I l = exL.I l ∧
      (permuteTranspose 3 none exL).C l = exL.C l)) :=
  ⟨⟨by decide, by decide⟩, permuteTranspose_identity 3 exL exId (by decide) (by decide)⟩

/-- C19: the indices inspected by the gather of column `j = 1` of the
tridiagonal example (`m = 3`, `nnz = J[3] = 5`). Column 1 has the single
sub-diagonal row `a = 2`, whose slots are `J[2] = 4 <= l < J[3] = 5`; the
scan inspects `l = 4` and `l = 5`, and `I[5]` lies past the `nnz` stored
row indices. Dropping the record of the inspected indices gives `gather`. -/
theorem gather_reads_past_end :
    SortedLower 3 exL ∧ FillClosed 3 exL ∧ exL.J 3 = 5 ∧
    exL.I (exL.J 1 + 1) = 2 ∧ exL.J 2 = 4 ∧ exL.J (2 + 1) = 5 ∧
    (gatherT exL.J exL.I exL.C 1 (exL.J 2 - (exL.J 1 + 1)) zeroScratch.Zt).2 = [4, 5] ∧
    (gatherT exL.J exL.I exL.C 1 (exL.J 2 - (exL.J 1 + 1)) zeroScratch.Zt).1 =
      gather exL.J exL.I exL.C 1 (exL.J 2 - (exL.J 1 + 1)) zeroScratch.Zt := by
  refine ⟨by decide, by decide, by decide, by decide, by decide, by decide, by decide, rfl⟩

/-- C20: the gather of column `j = 1` (`lfi = 1`) of the tridiagonal example
when the word after the row indices holds `2`. The factor is valid and
fill-closed, yet the scan of column `ik = 2` finds a match at
`l = J[ik+1] = 5`, advances `h` to `2 > lfi` and writes `Zt[1] = C[5]`,
outside the `lfi x lfi` buffer; the scan with the strict bound leaves `h = 1`
and `Zt[1]` untouched. Both write `Zt[0] = C[4]`, the value stored at `(2, 2)`. -/
theorem gather_inclusive_match :
    SortedLower 3 exLpast ∧ FillClosed 3 exLpast ∧ exLpast.J 3 = 5 ∧
    exLpast.J 2 - (exLpast.J 1 + 1) = 1 ∧ exLpast.I (exLpast.J 1 + 1) = 2 ∧
    exLpast.I (exLpast.J (2 + 1)) = exLpast.I (exLpast.J 1 + 1 + 1) ∧
    (forUp (exLpast.J 2) (exLpast.J (2 + 1) + 1)
      (gatherScan exLpast.I exLpast.C (exLpast.J 1) 1 0) (0, zeroScratch.Zt)).1 = 2 ∧
    (forUp (exLpast.J 2) (exLpast.J (2 + 1))
      (gatherScan exLpast.I exLpast.C (exLpast.J 1) 1 0) (0, zeroScratch.Zt)).1 = 1 ∧
    gather exLpast.J exLpast.I exLpast.C 1 1 zeroScratch.Zt 1 = 9 ∧
    gatherStrict exLpast.J exLpast.I exLpast.C 1 1 zeroScratch.Zt 1 = 0 ∧
    gather exLpast.J exLpast.I exLpast.C 1 1 zeroScratch.Zt 0 = 4 / 3 ∧
    gatherStrict exLpast.J exLpast.I exLpast.C 1 1 zeroScratch.Zt 0 = 4 / 3 := by
  refine ⟨by decide, by decide, by decide, by decide, by decide, by decide, by decide,
    by decide, by decide!, by decide!, by decide!, by decide!⟩

end Sinv
